import Mathlib

/-!
# LOJ Crawler: a shallow embedding of `main.go`

Go strings are modelled as their sequence of code points (`Str`).  Every text the
program handles comes out of `json.Unmarshal`, which only produces valid UTF-8, so the
byte view and the code-point view of a text agree for every operation used here
(the separators, quotes, dots and white space the code looks for are all ASCII, and both
`regexp` and `range` over a string work on code points).

A Go run-time panic is modelled by `none` in `Option`.
-/

namespace Crawler

/-- A Go string, as its sequence of code points. -/
abbrev Str := List Char

/-- The double quote character. -/
def dq : Char := Char.ofNat 34

/-- The single quote character. -/
def sq : Char := Char.ofNat 39

/-! ## The `regexp` package on the two patterns of the program

Go documents its matching as leftmost-first: the match begins as early as possible and,
among the matches that begin there, is the one a backtracking search finds first.
`ms re s` lists every way `re` matches a front part of `s`, in the order in which a
backtracking search tries them (greedy repetition takes the longest run first, an
alternation tries its left branch first).  The head of that list is the match that
`regexp` reports at that position.  Repetition is only needed over a character class,
which is all that the program's patterns use. -/

/-- The regular expressions that the two patterns are built from. -/
inductive Re where
  /-- a literal string -/
  | lit (s : Str)
  /-- one character of a class, as in `\s` -/
  | cls (p : Char → Bool)
  /-- greedy `[class]*` -/
  | star (p : Char → Bool)
  /-- greedy `[class]+` -/
  | plus (p : Char → Bool)
  /-- concatenation -/
  | cat (a b : Re)
  /-- alternation `a|b` -/
  | alt (a b : Re)
  /-- capture group number `i` -/
  | grp (i : Nat) (a : Re)

/-- The groups that took part in a match, each with the text it captured. -/
abbrev Caps := List (Nat × Str)

/-- The lengths a greedy `[class]*` can consume at the front of a text, longest first. -/
def starLens (p : Char → Bool) : Str → List Nat
  | [] => [0]
  | c :: cs => if p c then (starLens p cs).map (· + 1) ++ [0] else [0]

/-- All matches of `re` at the front of `s`, in backtracking priority order: the number of
characters consumed and the captures made. -/
def ms : Re → Str → List (Nat × Caps)
  | .lit l, s => if l.isPrefixOf s then [(l.length, [])] else []
  | .cls p, s =>
    match s with
    | [] => []
    | c :: _ => if p c then [(1, [])] else []
  | .star p, s => (starLens p s).map (fun n => (n, []))
  | .plus p, s =>
    match s with
    | [] => []
    | c :: cs => if p c then (starLens p cs).map (fun n => (n + 1, [])) else []
  | .cat a b, s =>
    (ms a s).flatMap (fun r1 =>
      (ms b (s.drop r1.1)).map (fun r2 => (r1.1 + r2.1, r1.2 ++ r2.2)))
  | .alt a b, s => ms a s ++ ms b s
  | .grp i a, s => (ms a s).map (fun r => (r.1, (i, s.take r.1) :: r.2))

/-- Concatenation of a list of expressions. -/
def seq : List Re → Re
  | [] => .lit []
  | [a] => a
  | a :: b :: rest => .cat a (seq (b :: rest))

/-- The class `\s` of Go's `regexp`: `[\t\n\f\r ]`. -/
def isWs (c : Char) : Bool :=
  c == '\t' || c == '\n' || c == Char.ofNat 12 || c == '\r' || c == ' '

/-- The class `[^>]`. -/
def notGt (c : Char) : Bool := c != '>'

/-- The class `[^"]`. -/
def notDq (c : Char) : Bool := c != dq

/-- The class `[^']`. -/
def notSq (c : Char) : Bool := c != sq

/-- The class `[^ >'"]`. -/
def unq (c : Char) : Bool := c != ' ' && c != '>' && c != sq && c != dq

/-- The common head of all alternatives: `<img[^>]*\ssrc\s*=\s*`. -/
def tagHead : List Re :=
  [.lit ['<', 'i', 'm', 'g'], .star notGt, .cls isWs, .lit ['s', 'r', 'c'], .star isWs,
   .lit ['='], .star isWs]

/-- The pattern of `extractImageUrls`:
`<img[^>]*\ssrc\s*=\s*"([^"]+)"[^>]*>|<img[^>]*\ssrc\s*=\s*'([^']+)'[^>]*>|<img[^>]*\ssrc\s*=\s*([^ >'"]+)[^>]*>`. -/
def reScan : Re :=
  .alt (seq (tagHead ++ [.lit [dq], .grp 1 (.plus notDq), .lit [dq], .star notGt, .lit ['>']]))
    (.alt (seq (tagHead ++ [.lit [sq], .grp 2 (.plus notSq), .lit [sq], .star notGt, .lit ['>']]))
      (seq (tagHead ++ [.grp 3 (.plus unq), .star notGt, .lit ['>']])))

/-- The pattern of `replaceImageTagsWithRelativePath`:
`(<img[^>]*\ssrc\s*=\s*)"([^"]+)"([^>]*>)|(<img[^>]*\ssrc\s*=\s*)'([^']+)'([^>]*>)|(<img[^>]*\ssrc\s*=\s*)([^ >'"]+)([^>]*>)`. -/
def reRewrite : Re :=
  .alt (seq [.grp 1 (seq tagHead), .lit [dq], .grp 2 (.plus notDq), .lit [dq],
             .grp 3 (seq [.star notGt, .lit ['>']])])
    (.alt (seq [.grp 4 (seq tagHead), .lit [sq], .grp 5 (.plus notSq), .lit [sq],
                .grp 6 (seq [.star notGt, .lit ['>']])])
      (seq [.grp 7 (seq tagHead), .grp 8 (.plus unq), .grp 9 (seq [.star notGt, .lit ['>']])]))

/-- Element `i` of the string slice a submatch call returns: the text of group `i`, the
empty string for a group that took no part in the match. -/
def submatch (caps : Caps) (i : Nat) : Str := (caps.lookup i).getD []

/-- A scanned text, cut at the successive leftmost-first matches: a character outside
every match, or a match with its whole text and captures. -/
inductive Piece where
  | chr (c : Char)
  | hit (whole : Str) (caps : Caps)

/-- The scan shared by `FindAllStringSubmatch` and `ReplaceAllStringFunc`: at each position
take the first match that starts there and go on after its end, otherwise step over one
character.  Both patterns start with the literal `<img`, so a match is never empty
(`ms_reScan_pos`, `ms_reRewrite_pos`); the empty-match line is only there to make the
function total. -/
def scanAux (re : Re) : Nat → Str → List Piece
  | 0, _ => []
  | _ + 1, [] => []
  | fuel + 1, c :: cs =>
    match (ms re (c :: cs)).head? with
    | none => .chr c :: scanAux re fuel cs
    | some (0, caps) => .hit [] caps :: .chr c :: scanAux re fuel cs
    | some (n + 1, caps) => .hit (c :: cs.take n) caps :: scanAux re fuel (cs.drop n)

/-- The scan of a whole text; every step consumes a character, so the length of the text is
enough fuel (`scanAux_fuel`). -/
def scan (re : Re) (text : Str) : List Piece := scanAux re text.length text

/-- The library call `re.FindAllStringSubmatch(text, -1)`: the captures of the successive
matches. -/
def findAllStringSubmatch (re : Re) (text : Str) : List Caps :=
  (scan re text).filterMap (fun p => match p with
    | .chr _ => none
    | .hit _ caps => some caps)

/-- The library call `re.FindStringSubmatch(s)`: the captures of the leftmost match, `none`
for the nil slice that is returned when nothing matches. -/
def findStringSubmatch (re : Re) : Str → Option Caps
  | [] => ((ms re []).head?).map (·.2)
  | c :: cs =>
    match (ms re (c :: cs)).head? with
    | some r => some r.2
    | none => findStringSubmatch re cs

/-- The copying loop of `re.ReplaceAllStringFunc(text, f)`: the text outside the matches is
copied, each match is replaced by what `f` returns for it; a panic in `f` ends the call. -/
def renderPieces (f : Str → Option Str) : List Piece → Option Str
  | [] => some []
  | .chr c :: ps => (renderPieces f ps).map (c :: ·)
  | .hit w _ :: ps =>
    match f w with
    | none => none
    | some r => (renderPieces f ps).map (r ++ ·)

/-- The library call `re.ReplaceAllStringFunc(text, f)`. -/
def replaceAllStringFunc (re : Re) (text : Str) (f : Str → Option Str) : Option Str :=
  renderPieces f (scan re text)

/-! ## Static resources -/

/-- The loop `for i := 1; i <= 3; i++ { if match[i] != "" { append; break } }`. -/
def firstNonEmpty : List Str → Option Str
  | [] => none
  | s :: rest => if s ≠ [] then some s else firstNonEmpty rest

/-- The function `extractImageUrls`. -/
def extractImageUrls (text : Str) : List Str :=
  (findAllStringSubmatch reScan text).filterMap (fun m =>
    firstNonEmpty [submatch m 1, submatch m 2, submatch m 3])

/-- What `path/filepath` needs to know about the operating system. -/
structure Platform where
  /-- the predicate `os.IsPathSeparator` -/
  isPathSeparator : Char → Bool
  /-- the constant `filepath.Separator` -/
  separator : Char
  /-- the length of `filepath.VolumeName` -/
  volumeNameLen : Str → Nat

/-- Unix: the only separator is the slash and there are no volume names. -/
def posix : Platform where
  isPathSeparator := fun c => c == '/'
  separator := '/'
  volumeNameLen := fun _ => 0

/-- The library call `filepath.Base`. -/
def Base (P : Platform) (path : Str) : Str :=
  if path = [] then ['.']
  else
    let p1 := path.rdropWhile P.isPathSeparator
    let p2 := p1.drop (P.volumeNameLen p1)
    let p3 := p2.rtakeWhile (fun c => !P.isPathSeparator c)
    if p3 = [] then [P.separator] else p3

/-- The loop of `filepath.Ext`, run over the reversed path: `acc` is the part already
passed, that is `path[i+1:]`. -/
def extAux (P : Platform) : Str → Str → Str
  | [], _ => []
  | c :: rest, acc =>
    if P.isPathSeparator c then []
    else if c = '.' then c :: acc
    else extAux P rest (c :: acc)

/-- The library call `filepath.Ext`. -/
def Ext (P : Platform) (path : Str) : Str := extAux P path.reverse []

/-- The library call `strings.TrimSuffix`. -/
def trimSuffix (s suffix : Str) : Str :=
  if suffix.isSuffixOf s then s.take (s.length - suffix.length) else s

/-- The hash loop of `generateUniqueFilename`.  In Go the value is an `int`; it stays
below `31 * 9999 + 0x10FFFF`, far from overflow. -/
def rollingHash (url : Str) : Nat :=
  url.foldl (fun hash c => (hash * 31 + c.toNat) % 10000) 0

/-- The verb `%04d` on a number that is not negative. -/
def fmt04d (n : Nat) : Str :=
  let ds := Nat.toDigits 10 n
  List.replicate (4 - ds.length) '0' ++ ds

/-- The verb `%d`. -/
def fmtInt : Int → Str
  | .ofNat n => Nat.toDigits 10 n
  | .negSucc n => '-' :: Nat.toDigits 10 (n + 1)

/-- The function `generateUniqueFilename`. -/
def generateUniqueFilename (P : Platform) (url : Str) (_index : Int) : Str :=
  let filename := Base P url
  let ext := Ext P filename
  let name := trimSuffix filename ext
  let hash := rollingHash url
  name ++ ['_'] ++ fmt04d hash ++ ext

/-- The function `downloadImage`; `dl url` tells whether creating the directory and
downloading `url` succeed.  `none` is the error return. -/
def downloadImage (P : Platform) (dl : Str → Bool) (url : Str) (_problemID : Str)
    (index : Int) : Option Str :=
  let filename := generateUniqueFilename P url index
  if dl url then some filename else none

/-- Values that `json.Unmarshal` stores in an `interface{}`. -/
inductive JVal where
  | null
  | bool (b : Bool)
  /-- a `float64`; the program never looks at one -/
  | num (x : Int)
  | str (s : Str)
  | arr (xs : List JVal)
  | obj (kv : List (Str × JVal))

/-- A Go map, as an association list read with `List.lookup`. -/
abbrev Assoc (κ ν : Type) := List (κ × ν)

/-- The assignment `m[k] = v`. -/
def mapSet {κ ν : Type} [DecidableEq κ] (k : κ) (v : ν) (m : Assoc κ ν) : Assoc κ ν :=
  (k, v) :: m.filter (fun e => e.1 ≠ k)

/-- A `map[string]string` that may be nil (`none`). -/
abbrev UrlMap := Option (Assoc Str Str)

/-- The struct `Problem`; `ID` and `DisplayID` are the two fields of its `Meta`. -/
structure Problem where
  ID : Int
  DisplayID : Int
  LocalizedContentsOfLocale : Assoc Str JVal
  JudgeInfo : JVal
  Samples : JVal
  TagsOfLocale : JVal

/-- The key `contentSections`. -/
def kContentSections : Str :=
  ['c', 'o', 'n', 't', 'e', 'n', 't', 'S', 'e', 'c', 't', 'i', 'o', 'n', 's']

/-- The key `sectionTitle`. -/
def kSectionTitle : Str := ['s', 'e', 'c', 't', 'i', 'o', 'n', 'T', 'i', 't', 'l', 'e']

/-- The key `text`. -/
def kText : Str := ['t', 'e', 'x', 't']

/-- The key `title`. -/
def kTitle : Str := ['t', 'i', 't', 'l', 'e']

/-- The key `name`. -/
def kName : Str := ['n', 'a', 'm', 'e']

/-- The key `inputData`. -/
def kInputData : Str := ['i', 'n', 'p', 'u', 't', 'D', 'a', 't', 'a']

/-- The key `outputData`. -/
def kOutputData : Str := ['o', 'u', 't', 'p', 'u', 't', 'D', 'a', 't', 'a']

/-- The assertion `v, _ := m[key].(string)`: the empty string unless a string is stored. -/
def strField (m : Assoc Str JVal) (key : Str) : Str :=
  match m.lookup key with
  | some (.str s) => s
  | _ => []

/-- The text that `downloadAllImages` collects: the `text` of every content section that is
a map, in order. -/
def allText (problem : Problem) : Str :=
  match problem.LocalizedContentsOfLocale.lookup kContentSections with
  | some (.arr contentSections) =>
    contentSections.foldl (fun acc sec =>
      match sec with
      | .obj secMap => acc ++ strField secMap kText
      | _ => acc) []
  | _ => []

/-- The prefix `./assets/`. -/
def assetsDir : Str := ['.', '/', 'a', 's', 's', 'e', 't', 's', '/']

/-- The download loop of `downloadAllImages` over the keys of `uniqueUrls`. -/
def downloadLoop (P : Platform) (dl : Str → Bool) (problemID : Str) :
    List Str → Int → Assoc Str Str → Assoc Str Str
  | [], _, urlToLocalPath => urlToLocalPath
  | url :: rest, index, urlToLocalPath =>
    match downloadImage P dl url problemID index with
    | none => downloadLoop P dl problemID rest (index + 1) urlToLocalPath
    | some filename =>
      downloadLoop P dl problemID rest (index + 1)
        (mapSet url (assetsDir ++ problemID ++ ['/'] ++ filename) urlToLocalPath)

/-- The function `downloadAllImages`.  Go leaves the order in which the keys of `uniqueUrls`
are visited open; the model visits them in the order of `List.dedup`, and the map that
results is the same for every order (`lookup_downloadLoop`). -/
def downloadAllImages (P : Platform) (dl : Str → Bool) (problem : Problem) : UrlMap :=
  let problemID := fmtInt problem.DisplayID
  let urls := extractImageUrls (allText problem)
  if urls.length = 0 then none
  else some (downloadLoop P dl problemID urls.dedup 0 [])

/-- The callback that `replaceImageTagsWithRelativePath` hands to `ReplaceAllStringFunc`;
indexing the nil slice of a failed `FindStringSubmatch` panics. -/
def rewriteTag (urlToLocalPath : Assoc Str Str) (m : Str) : Option Str :=
  match findStringSubmatch reRewrite m with
  | none => none
  | some submatches =>
    let look := fun (srcUrl : Str) =>
      match urlToLocalPath.lookup srcUrl with
      | some localPath => localPath
      | none => m
    if submatch submatches 2 ≠ [] then some (look (submatch submatches 2))
    else if submatch submatches 5 ≠ [] then some (look (submatch submatches 5))
    else if submatch submatches 8 ≠ [] then some (look (submatch submatches 8))
    else some m

/-- The function `replaceImageTagsWithRelativePath`. -/
def replaceImageTagsWithRelativePath (text : Str) (urlToLocalPath : UrlMap) : Option Str :=
  if text = [] then some text
  else
    match urlToLocalPath with
    | none => some text
    | some m => replaceAllStringFunc reRewrite text (rewriteTag m)

/-! ## Conversion -/

/-- The function `getStringFromInterface`. -/
def getStringFromInterface : Option JVal → Str
  | some (.str s) => s
  | _ => []

/-- The function `extractTags`. -/
def extractTags : JVal → List Str
  | .arr tags =>
    tags.filterMap (fun tag =>
      match tag with
      | .obj tagMap =>
        match tagMap.lookup kName with
        | some (.str name) => some name
        | _ => none
      | _ => none)
  | _ => []

/-- The loop of `extractContentSection` over the sections. -/
def findSection (targetTitles : List Str) : List JVal → Str
  | [] => []
  | sec :: rest =>
    match sec with
    | .obj secMap =>
      match secMap.lookup kSectionTitle with
      | some (.str secTitle) =>
        if targetTitles.any (fun target => secTitle == target) then strField secMap kText
        else findSection targetTitles rest
      | _ => findSection targetTitles rest
    | _ => findSection targetTitles rest

/-- The function `extractContentSection`; the argument is `none` when the key is not in the map. -/
def extractContentSection (sectionsInterface : Option JVal) (targetTitles : List Str) : Str :=
  match sectionsInterface with
  | some (.arr sections) => findSection targetTitles sections
  | _ => []

/-- The function `extractSampleInput`. -/
def extractSampleInput : JVal → Str
  | .arr (.obj firstSample :: _) => strField firstSample kInputData
  | _ => []

/-- The function `extractSampleOutput`. -/
def extractSampleOutput : JVal → Str
  | .arr (.obj firstSample :: _) => strField firstSample kOutputData
  | _ => []

/-- The library call `strings.ReplaceAll(text, "\r\n", "\n")`: one pass from the left over
matches that do not overlap. -/
def replaceCRLF : Str → Str
  | [] => []
  | [c] => [c]
  | c :: d :: rest =>
    if c = '\r' ∧ d = '\n' then '\n' :: replaceCRLF rest
    else c :: replaceCRLF (d :: rest)

/-- The library call `unicode.IsSpace`. -/
def isSpace (c : Char) : Bool :=
  let n := c.toNat
  n == 9 || n == 10 || n == 11 || n == 12 || n == 13 || n == 32 || n == 0x85 || n == 0xA0 ||
  n == 0x1680 || (0x2000 ≤ n && n ≤ 0x200A) || n == 0x2028 || n == 0x2029 || n == 0x202F ||
  n == 0x205F || n == 0x3000

/-- The library call `strings.TrimSpace`. -/
def trimSpace (s : Str) : Str := (s.dropWhile isSpace).rdropWhile isSpace

/-- The function `formatMultiLine`. -/
def formatMultiLine (text : Str) : Str := trimSpace (replaceCRLF text)

/-- The struct `TargetProblem`. -/
structure TargetProblem where
  ID : Str
  Title : Str
  Difficulty : Int
  Tags : List Str
  Description : Str
  InputFormat : Str
  SampleInput : Str
  SampleOutput : Str
  SampleNote : Str
  ScoreStd : Str
  Hint : Str
  deriving DecidableEq

/-- The section title `题目描述`. -/
def tDescription : Str := ['题', '目', '描', '述']

/-- The section title `样例`. -/
def tSample : Str := ['样', '例']

/-- The section title `样例 1`. -/
def tSample1 : Str := ['样', '例', ' ', '1']

/-- The section title `数据范围与提示`. -/
def tRangeHint : Str := ['数', '据', '范', '围', '与', '提', '示']

/-- The section title `提示说明`. -/
def tHint : Str := ['提', '示', '说', '明']

/-- The section title `输入格式`. -/
def tInputFormat : Str := ['输', '入', '格', '式']

/-- The section title `评分标准`. -/
def tScoreStd : Str := ['评', '分', '标', '准']

/-- The body of the second loop of `main`: one accumulated record and the mapping found
for it in `problemImageMaps` give one output record. -/
def transformProblem (problem : Problem) (urlToLocalPath : UrlMap) : Option TargetProblem :=
  let contentSections := problem.LocalizedContentsOfLocale.lookup kContentSections
  let actualProblemID := fmtInt problem.DisplayID
  match replaceImageTagsWithRelativePath
      (formatMultiLine (extractContentSection contentSections [tDescription]))
      urlToLocalPath with
  | none => none
  | some description =>
    match replaceImageTagsWithRelativePath
        (formatMultiLine (extractContentSection contentSections [tSample, tSample1]))
        urlToLocalPath with
    | none => none
    | some sampleNote =>
      match replaceImageTagsWithRelativePath
          (formatMultiLine (extractContentSection contentSections [tRangeHint, tHint]))
          urlToLocalPath with
      | none => none
      | some hint =>
        some {
          ID := actualProblemID
          Title := getStringFromInterface (problem.LocalizedContentsOfLocale.lookup kTitle)
          Difficulty := 2
          Tags := extractTags problem.TagsOfLocale
          Description := description
          InputFormat := formatMultiLine (extractContentSection contentSections [tInputFormat])
          SampleInput := formatMultiLine (extractSampleInput problem.Samples)
          SampleOutput := formatMultiLine (extractSampleOutput problem.Samples)
          SampleNote := sampleNote
          ScoreStd := formatMultiLine (extractContentSection contentSections [tScoreStd])
          Hint := hint }

/-! ## The main flow -/

/-- The constant `StartID`. -/
def StartID : Nat := 1

/-- The constant `EndID`. -/
def EndID : Nat := 533

/-- The identifiers of the first loop of `main`, in the order they are processed. -/
def idRange : List Nat := List.range' StartID (EndID + 1 - StartID)

/-- The state of the first loop of `main`: `allProblems` and `problemImageMaps`. -/
structure Crawl where
  allProblems : List Problem
  problemImageMaps : Assoc Int UrlMap

/-- The first loop of `main` over the identifiers `ids`.  `fetch id` is the outcome of the
`getProblem` request for `id` (`none`: an error, the identifier is skipped); `dl id` tells
which image downloads succeed while `id` is processed.  Downloading the test data and
additional files only writes files and is left out. -/
def fetchLoop (P : Platform) (fetch : Nat → Option Problem) (dl : Nat → Str → Bool) :
    List Nat → Crawl → Crawl
  | [], st => st
  | id :: ids, st =>
    match fetch id with
    | none => fetchLoop P fetch dl ids st
    | some p =>
      let urlToLocalPath := downloadAllImages P (dl id) p
      fetchLoop P fetch dl ids
        { allProblems := st.allProblems ++ [p]
          problemImageMaps := mapSet p.DisplayID urlToLocalPath st.problemImageMaps }

/-- The lookup `problemImageMaps[id]`: the nil map for a key that is not there. -/
def imageMapOf (maps : Assoc Int UrlMap) (displayID : Int) : UrlMap :=
  (maps.lookup displayID).getD none

/-- The second loop of `main`: every accumulated record is converted, in order. -/
def transformLoop (maps : Assoc Int UrlMap) : List Problem → Option (List TargetProblem)
  | [] => some []
  | problem :: rest =>
    match transformProblem problem (imageMapOf maps problem.DisplayID) with
    | none => none
    | some targetProblem => (transformLoop maps rest).map (targetProblem :: ·)

/-- The records of the output document that `main` builds (`target.Problems`). -/
def mainProblems (P : Platform) (fetch : Nat → Option Problem) (dl : Nat → Str → Bool) :
    Option (List TargetProblem) :=
  let st := fetchLoop P fetch dl idRange { allProblems := [], problemImageMaps := [] }
  transformLoop st.problemImageMaps st.allProblems

/-! ## Vocabulary of the statements -/

/-- The text a piece of a scan stands for. -/
def pieceText : Piece → Str
  | .chr c => [c]
  | .hit w _ => w

/-- The src value captured by a match of the rewrite pattern: the text of group 2, 5 or
8, whichever took part in the match. -/
def srcOf (caps : Caps) : Option Str :=
  match caps.lookup 2 with
  | some s => some s
  | none =>
    match caps.lookup 5 with
    | some s => some s
    | none => caps.lookup 8

/-- What a piece of a text becomes under a mapping: a matched tag whose src value is a key
becomes the mapped path, everything else stays. -/
def rewritePiece (m : Assoc Str Str) : Piece → Str
  | .chr c => [c]
  | .hit w caps =>
    match srcOf caps with
    | none => w
    | some src => (m.lookup src).getD w

/-- The reference that `extractImageUrls` takes from a piece of the scan. -/
def refOfPiece : Piece → Option Str
  | .chr _ => none
  | .hit _ caps => firstNonEmpty [submatch caps 1, submatch caps 2, submatch caps 3]

/-- A text rewritten tag by tag, each tag read where it stands in the text. -/
def rewriteSpec (urlToLocalPath : UrlMap) (text : Str) : Str :=
  match urlToLocalPath with
  | none => text
  | some m => (scan reRewrite text).flatMap (rewritePiece m)

/-- Expressions without a capture group. -/
def noGrp : Re → Bool
  | .lit _ => true
  | .cls _ => true
  | .star _ => true
  | .plus _ => true
  | .cat a b => noGrp a && noGrp b
  | .alt a b => noGrp a && noGrp b
  | .grp _ _ => false

/-- The image tag `<img src=QrQ>` with reference `r` between the quotes `q`. -/
def imgTag (q r : Str) : Str :=
  ['<', 'i', 'm', 'g', ' ', 's', 'r', 'c', '='] ++ q ++ r ++ q ++ ['>']

/-- What a reference may not contain for the three quoting styles to agree: white space, a
quote or `>`. -/
def plainRef (r : Str) : Prop := ∀ c ∈ r, isWs c = false ∧ c ≠ dq ∧ c ≠ sq ∧ c ≠ '>'

/-- The number that a string of decimal digits writes. -/
def decimalValue (s : Str) : Nat := s.foldl (fun v c => 10 * v + (c.toNat - 48)) 0

/-- The lookup `m[u]` in a map that may be nil: nothing is found in a nil map. -/
def urlLookup (m : UrlMap) (u : Str) : Option Str :=
  match m with
  | none => none
  | some l => l.lookup u

/-- The record that the second loop of `main` builds from a fetched record and a mapping,
with the three rewritten fields given by `rewriteSpec`. -/
def transformSpec (problem : Problem) (urlToLocalPath : UrlMap) : TargetProblem :=
  let contentSections := problem.LocalizedContentsOfLocale.lookup kContentSections
  { ID := fmtInt problem.DisplayID
    Title := getStringFromInterface (problem.LocalizedContentsOfLocale.lookup kTitle)
    Difficulty := 2
    Tags := extractTags problem.TagsOfLocale
    Description :=
      rewriteSpec urlToLocalPath (formatMultiLine (extractContentSection contentSections [tDescription]))
    InputFormat := formatMultiLine (extractContentSection contentSections [tInputFormat])
    SampleInput := formatMultiLine (extractSampleInput problem.Samples)
    SampleOutput := formatMultiLine (extractSampleOutput problem.Samples)
    SampleNote :=
      rewriteSpec urlToLocalPath
        (formatMultiLine (extractContentSection contentSections [tSample, tSample1]))
    ScoreStd := formatMultiLine (extractContentSection contentSections [tScoreStd])
    Hint :=
      rewriteSpec urlToLocalPath
        (formatMultiLine (extractContentSection contentSections [tRangeHint, tHint])) }

/-! ## Concrete inputs of the scenarios and examples -/

/-- The reference `http://x/a.png`. -/
def urlA : Str := ['h', 't', 't', 'p', ':', '/', '/', 'x', '/', 'a', '.', 'p', 'n', 'g']

/-- The file name `a_8595.png`. -/
def nameA : Str := ['a', '_', '8', '5', '9', '5', '.', 'p', 'n', 'g']

/-- A content section with a title and a text. -/
def mkSection (title text : Str) : JVal := .obj [(kSectionTitle, .str title), (kText, .str text)]

/-- A record whose description and whose first sample input both hold the tag
`<img src="http://x/a.png">`. -/
def sampleTagProblem : Problem where
  ID := 1
  DisplayID := 5
  LocalizedContentsOfLocale :=
    [(kContentSections, .arr [mkSection tDescription (imgTag [dq] urlA)])]
  JudgeInfo := .null
  Samples := .arr [.obj [(kInputData, .str (imgTag [dq] urlA))]]
  TagsOfLocale := .null

/-- A record with display id 7 whose description holds the tag `<img src="http://x/a.png">`. -/
def twinA : Problem where
  ID := 1
  DisplayID := 7
  LocalizedContentsOfLocale :=
    [(kContentSections, .arr [mkSection tDescription (imgTag [dq] urlA)])]
  JudgeInfo := .null
  Samples := .null
  TagsOfLocale := .null

/-- Another record with display id 7, without any content section. -/
def twinB : Problem where
  ID := 2
  DisplayID := 7
  LocalizedContentsOfLocale := []
  JudgeInfo := .null
  Samples := .null
  TagsOfLocale := .null

/-- A remote side that answers the requests 1 and 2 with two records of the same display
id and fails on every other request. -/
def twinFetch (id : Nat) : Option Problem :=
  if id = 1 then some twinA else if id = 2 then some twinB else none

/-- A remote side that answers every request with a record of that display id, whose
description holds the tag `<img src="http://x/a.png">`. -/
def numberedFetch (id : Nat) : Option Problem :=
  some
    { ID := id
      DisplayID := id
      LocalizedContentsOfLocale :=
        [(kContentSections, .arr [mkSection tDescription (imgTag [dq] urlA)])]
      JudgeInfo := .null
      Samples := .null
      TagsOfLocale := .null }

/-- A record with nothing in it. -/
def bareProblem : Problem where
  ID := 0
  DisplayID := 0
  LocalizedContentsOfLocale := []
  JudgeInfo := .null
  Samples := .arr []
  TagsOfLocale := .null

/-- The reference `a b`, with a space in it. -/
def refSpace : Str := ['a', ' ', 'b']

/-- The reference `a>b`. -/
def refGt : Str := ['a', '>', 'b']

/-- The reference `a`, a tab, `src=`. -/
def refTab : Str := ['a', '\t', 's', 'r', 'c', '=']

/-- The image tag `<img` A w `src=` Q r Q B `>`: attribute text `A`, the white-space
character `w` in front of `src`, the reference `r` between the quotes `q`, and attribute
text `B` after the src value. -/
def imgTagWith (A : Str) (w : Char) (q r B : Str) : Str :=
  ['<', 'i', 'm', 'g'] ++ A ++ [w] ++ ['s', 'r', 'c', '='] ++ q ++ r ++ q ++ B ++ ['>']

/-- Whether a text starts with a white-space character followed by `src`. -/
def wsSrcAt : Str → Bool
  | c :: x :: y :: z :: _ => isWs c && x == 's' && y == 'r' && z == 'c'
  | _ => false

/-- The text `1 < 2 `, with a `<` that starts no tag. -/
def textBefore : Str := ['1', ' ', '<', ' ', '2', ' ']

/-- The attribute text ` class=x`. -/
def attrBefore : Str := [' ', 'c', 'l', 'a', 's', 's', '=', 'x']

/-- The attribute text ` alt="fig"`. -/
def attrAfter : Str := [' ', 'a', 'l', 't', '=', dq, 'f', 'i', 'g', dq]

/-- The reference `a.png`. -/
def refPng : Str := ['a', '.', 'p', 'n', 'g']

/-- The attribute text ` alt=x`. -/
def attrAlt : Str := [' ', 'a', 'l', 't', '=', 'x']

/-- The attribute text ` src='z'`, a second src attribute. -/
def attrSrc : Str := [' ', 's', 'r', 'c', '=', sq, 'z', sq]

/-! ## YAML output -/

/-- The output document `TargetYAML`. -/
structure TargetYAML where
  Version : Str
  Problems : List TargetProblem

/-- The library call `strings.Split(s, "\n")`: the pieces of `s` between the line feeds, one
more than there are line feeds. -/
def splitLines : Str → List Str
  | [] => [[]]
  | c :: cs =>
    if c = '\n' then [] :: splitLines cs
    else
      match splitLines cs with
      | [] => [[c]]
      | line :: rest => (c :: line) :: rest

/-- The function `writeLiteralField`; the buffer is passed in and handed back. -/
def writeLiteralField (buf fieldName content : Str) : Str :=
  let buf := buf ++ (fieldName ++ [':', ' ', '|', '-', '\n'])
  if content = [] then buf ++ [' ', ' ', ' ', ' ', ' ', ' ', '\n']
  else
    (splitLines content).foldl
      (fun buf line => buf ++ ([' ', ' ', ' ', ' ', ' ', ' '] ++ line ++ ['\n'])) buf

/-- The body of the loop of `buildYAML` over the records. -/
def writeProblem (buf : Str) (problem : TargetProblem) : Str :=
  let buf := buf ++ ([' ', ' ', '-', ' ', 'i', 'd', ':', ' '] ++ problem.ID ++ ['\n'])
  let buf := buf ++ ([' ', ' ', ' ', ' ', '标', '题', ':', ' '] ++ problem.Title ++ ['\n'])
  let buf := buf ++
    ([' ', ' ', ' ', ' ', '难', '度', ':', ' '] ++ fmtInt problem.Difficulty ++ ['\n'])
  let buf := buf ++ [' ', ' ', ' ', ' ', '标', '签', ':', '\n']
  let buf := problem.Tags.foldl
    (fun buf tag => buf ++ ([' ', ' ', ' ', ' ', ' ', ' ', '-', ' '] ++ tag ++ ['\n'])) buf
  let buf := writeLiteralField buf [' ', ' ', ' ', ' ', '问', '题', '描', '述'] problem.Description
  let buf := writeLiteralField buf [' ', ' ', ' ', ' ', '输', '入', '形', '式'] problem.InputFormat
  let buf := writeLiteralField buf [' ', ' ', ' ', ' ', '样', '例', '输', '入'] problem.SampleInput
  let buf := writeLiteralField buf [' ', ' ', ' ', ' ', '样', '例', '输', '出'] problem.SampleOutput
  let buf := writeLiteralField buf [' ', ' ', ' ', ' ', '样', '例', '说', '明'] problem.SampleNote
  let buf := writeLiteralField buf [' ', ' ', ' ', ' ', '评', '分', '标', '准'] problem.ScoreStd
  writeLiteralField buf [' ', ' ', ' ', ' ', '提', '示', '说', '明'] problem.Hint

/-- The function `buildYAML`: the version line is a literal of the code, the field
`Version` of the document is not read. -/
def buildYAML (target : TargetYAML) : Str :=
  let buf : Str := ['v', 'e', 'r', 's', 'i', 'o', 'n', ':', ' ', dq, '1', '.', '0', dq]
  let buf := buf ++ ['\n', 'p', 'r', 'o', 'b', 'l', 'e', 'm', 's', ':', '\n']
  target.Problems.foldl writeProblem buf

/-! ## The keys that the rewrite looks up -/

/-- The value of `srcUrl` with which the callback of `replaceImageTagsWithRelativePath`
indexes the mapping for the matched text `m`: `some none` when the callback returns before
the lookup, `none` when indexing the nil slice panics. -/
def srcUrlOf (m : Str) : Option (Option Str) :=
  match findStringSubmatch reRewrite m with
  | none => none
  | some submatches =>
    if submatch submatches 2 ≠ [] then some (some (submatch submatches 2))
    else if submatch submatches 5 ≠ [] then some (some (submatch submatches 5))
    else if submatch submatches 8 ≠ [] then some (some (submatch submatches 8))
    else some none

/-- The keys looked up while `ReplaceAllStringFunc` walks over the pieces of the text, in
the order of the calls of the callback. -/
def lookupsOfPieces : List Piece → Option (List Str)
  | [] => some []
  | .chr _ :: ps => lookupsOfPieces ps
  | .hit w _ :: ps =>
    match srcUrlOf w with
    | none => none
    | some k => (lookupsOfPieces ps).map (k.toList ++ ·)

/-- The keys that one call of `replaceImageTagsWithRelativePath` looks up in the mapping, in
the order of the lookups; the early return looks nothing up. -/
def mappingLookups (text : Str) (urlToLocalPath : UrlMap) : Option (List Str) :=
  if text = [] then some []
  else
    match urlToLocalPath with
    | none => some []
    | some _ => lookupsOfPieces (scan reRewrite text)

/-! ## Vocabulary of the statements on the output and on the two patterns -/

/-- The six blanks in front of each line of a literal block. -/
def indent6 : Str := [' ', ' ', ' ', ' ', ' ', ' ']

/-- The literal-block marker `: |-` with its line feed, which ends a key line. -/
def blockMarker : Str := [':', ' ', '|', '-', '\n']

/-- The block under a key line: each line of the content behind six blanks, each ended by a
line feed. -/
def literalBlock (content : Str) : Str :=
  (splitLines content).flatMap (fun line => indent6 ++ line ++ ['\n'])

/-- The lines of a block of text in which every line is ended by a line feed. -/
def blockLines (block : Str) : List Str := (splitLines block).dropLast

/-- A block read back: the six-blank indentation taken off every line, the lines joined
by line feeds. -/
def readBlock (block : Str) : Str :=
  ['\n'].intercalate ((blockLines block).map (List.drop 6))

/-- The first two lines of every output document. -/
def yamlHeader : Str :=
  ['v', 'e', 'r', 's', 'i', 'o', 'n', ':', ' ', dq, '1', '.', '0', dq, '\n',
   'p', 'r', 'o', 'b', 'l', 'e', 'm', 's', ':', '\n']

/-- The lines of a record in front of its text fields: id, title, difficulty and tags. -/
def recordHead (problem : TargetProblem) : Str :=
  [' ', ' ', '-', ' ', 'i', 'd', ':', ' '] ++ problem.ID ++ ['\n'] ++
  [' ', ' ', ' ', ' ', '标', '题', ':', ' '] ++ problem.Title ++ ['\n'] ++
  [' ', ' ', ' ', ' ', '难', '度', ':', ' '] ++ fmtInt problem.Difficulty ++ ['\n'] ++
  [' ', ' ', ' ', ' ', '标', '签', ':', '\n'] ++
  problem.Tags.flatMap (fun tag => [' ', ' ', ' ', ' ', ' ', ' ', '-', ' '] ++ tag ++ ['\n'])

/-- The seven text-field keys, each behind its four-blank indentation, in output order. -/
def fieldKeys : List Str :=
  [[' ', ' ', ' ', ' ', '问', '题', '描', '述'], [' ', ' ', ' ', ' ', '输', '入', '形', '式'],
   [' ', ' ', ' ', ' ', '样', '例', '输', '入'], [' ', ' ', ' ', ' ', '样', '例', '输', '出'],
   [' ', ' ', ' ', ' ', '样', '例', '说', '明'], [' ', ' ', ' ', ' ', '评', '分', '标', '准'],
   [' ', ' ', ' ', ' ', '提', '示', '说', '明']]

/-- The seven text fields of a record, in output order. -/
def textFields (problem : TargetProblem) : List Str :=
  [problem.Description, problem.InputFormat, problem.SampleInput, problem.SampleOutput,
   problem.SampleNote, problem.ScoreStd, problem.Hint]

/-- A record whose text fields are all empty. -/
def emptyRecord : TargetProblem where
  ID := ['7']
  Title := ['t']
  Difficulty := 2
  Tags := []
  Description := []
  InputFormat := []
  SampleInput := []
  SampleOutput := []
  SampleNote := []
  ScoreStd := []
  Hint := []

/-- A text of image tags: the text `sep0`, then for each item the tag `<img src="r">` of its
reference `r` followed by its separating text. -/
def tagsText (sep0 : Str) (items : List (Str × Str)) : Str :=
  sep0 ++ items.flatMap (fun item => imgTag [dq] item.1 ++ item.2)

/-- The four characters `<img`. -/
def imgStart : Str := ['<', 'i', 'm', 'g']

/-- Whether a section is a map with a string `sectionTitle` that is one of the targets. -/
def sectionMatches (targetTitles : List Str) : JVal → Bool
  | .obj secMap =>
    match secMap.lookup kSectionTitle with
    | some (.str secTitle) => decide (secTitle ∈ targetTitles)
    | _ => false
  | _ => false

/-- The text of a section, empty when it is missing or not a string. -/
def sectionText : JVal → Str
  | .obj secMap => strField secMap kText
  | _ => []

/-- An expression with its groups renumbered by `f`; a group that `f` sends nowhere is
taken off, its body stays. -/
def mapGrp (f : Nat → Option Nat) : Re → Re
  | .lit l => .lit l
  | .cls p => .cls p
  | .star p => .star p
  | .plus p => .plus p
  | .cat a b => .cat (mapGrp f a) (mapGrp f b)
  | .alt a b => .alt (mapGrp f a) (mapGrp f b)
  | .grp i a =>
    match f i with
    | some j => .grp j (mapGrp f a)
    | none => mapGrp f a

/-- The captures of a match with the groups renumbered by `f`. -/
def mapCaps (f : Nat → Option Nat) (caps : Caps) : Caps :=
  caps.filterMap (fun e => (f e.1).map (fun j => (j, e.2)))

/-- The group of the scan pattern that captures what a group of the rewrite pattern
captures: the src groups 2, 5 and 8 are the groups 1, 2 and 3. -/
def scanGroup (i : Nat) : Option Nat :=
  if i = 2 then some 1 else if i = 5 then some 2 else if i = 8 then some 3 else none

/-- A piece of the scan with the rewrite pattern, seen as a piece of the scan with the scan
pattern: same place, same text, the src capture under the group number of the scan
pattern. -/
def toScanPiece : Piece → Piece
  | .chr c => .chr c
  | .hit w caps => .hit w (mapCaps scanGroup caps)

/-- The src value of a piece of the scan with the rewrite pattern. -/
def srcOfPiece : Piece → Option Str
  | .chr _ => none
  | .hit _ caps => srcOf caps

/-! ## Concrete inputs for the tag texts, the normalisation and the filename collision -/

/-- The references `a.png`, `http://x/a.png` and `a.png` again, followed by the separating
texts ` x `, the empty text and `.`. -/
def tagItems : List (Str × Str) := [(refPng, [' ', 'x', ' ']), (urlA, []), (refPng, ['.'])]

/-- The text `1 > 0 `, which holds no `<`. -/
def sepLead : Str := ['1', ' ', '>', ' ', '0', ' ']

/-- The reference `http://x/a.png` followed by a carriage return and a line feed. -/
def refCRLF : Str := urlA ++ ['\r', '\n']

/-- The reference `http://x/a.png` followed by a line feed. -/
def refLF : Str := urlA ++ ['\n']

/-- A tag with an unquoted src value at the end of a line that ends in CR LF, closed on
the next line. -/
def crlfTag : Str := ['<', 'i', 'm', 'g', ' ', 's', 'r', 'c', '='] ++ urlA ++ ['\r', '\n', '>']

/-- The tag `crlfTag` with the line end normalised to a line feed. -/
def lfTag : Str := ['<', 'i', 'm', 'g', ' ', 's', 'r', 'c', '='] ++ urlA ++ ['\n', '>']

/-- A record with display id 5 whose description section is `crlfTag`. -/
def crlfProblem : Problem where
  ID := 5
  DisplayID := 5
  LocalizedContentsOfLocale := [(kContentSections, .arr [mkSection tDescription crlfTag])]
  JudgeInfo := .null
  Samples := .null
  TagsOfLocale := .null

/-- The text `<img src="`, a tag that is cut off inside its src value. -/
def openTag : Str := ['<', 'i', 'm', 'g', ' ', 's', 'r', 'c', '=', dq]

/-- The text `<img src='http://x/a.png'> "q">`: a complete tag followed by a quoted word
and a `>`. -/
def hintText : Str := imgTag [sq] urlA ++ [' ', dq, 'q', dq, '>']

/-- A record with display id 5 whose description ends in the cut-off tag `openTag` and
whose hint section is `hintText`. -/
def cutProblem : Problem where
  ID := 5
  DisplayID := 5
  LocalizedContentsOfLocale :=
    [(kContentSections, .arr [mkSection tDescription openTag, mkSection tHint hintText])]
  JudgeInfo := .null
  Samples := .null
  TagsOfLocale := .null

/-- The reference `http://a/a.png`. -/
def urlC1 : Str := ['h', 't', 't', 'p', ':', '/', '/', 'a', '/', 'a', '.', 'p', 'n', 'g']

/-- The reference `http://afv/a.png`. -/
def urlC2 : Str :=
  ['h', 't', 't', 'p', ':', '/', '/', 'a', 'f', 'v', '/', 'a', '.', 'p', 'n', 'g']

/-- The filename `a_3932.png`. -/
def nameC : Str := ['a', '_', '3', '9', '3', '2', '.', 'p', 'n', 'g']

/-- A record with display id 5 whose description shows the two images `urlC1` and
`urlC2`. -/
def collisionProblem : Problem where
  ID := 5
  DisplayID := 5
  LocalizedContentsOfLocale :=
    [(kContentSections,
      .arr [mkSection tDescription (imgTag [dq] urlC1 ++ [' '] ++ imgTag [dq] urlC2)])]
  JudgeInfo := .null
  Samples := .null
  TagsOfLocale := .null

/-! ## Downloads with the files they write -/

/-- The constant `AssetsFolder`, the text `E:\gopachong\output25\assets`. -/
def AssetsFolder : Str :=
  ['E', ':', '\\', 'g', 'o', 'p', 'a', 'c', 'h', 'o', 'n', 'g', '\\', 'o', 'u', 't', 'p', 'u',
   't', '2', '5', '\\', 'a', 's', 's', 'e', 't', 's']

/-- The files on the disk: the content stored under each path. -/
abbrev Files := Assoc Str Str

/-- What lies outside the program during the downloads. -/
structure World where
  /-- the library call `filepath.Join` -/
  join : List Str → Str
  /-- the library call `filepath.Dir` -/
  dir : Str → Str
  /-- whether `os.MkdirAll` of a directory succeeds -/
  mkdirAll : Str → Bool
  /-- the body that `client.Get(url)` delivers with status 200, `none` for an error or
  another status -/
  get : Str → Option Str
  /-- whether `os.Create` of a path succeeds -/
  create : Str → Bool
  /-- what `io.Copy` has written of the body of a reference when it fails, `none` when it
  copies the whole body -/
  copyFails : Str → Option Str

/-- The function `downloadFile` with the files it leaves: `os.Create` empties the file and
`io.Copy` fills it; the result tells whether `nil` is returned.  The result of the
`os.MkdirAll` inside is not looked at by the code. -/
def downloadFileOn (W : World) (url path : Str) (files : Files) : Bool × Files :=
  match W.get url with
  | none => (false, files)
  | some body =>
    if W.create path then
      match W.copyFails url with
      | some written => (false, mapSet path written files)
      | none => (true, mapSet path body files)
    else (false, files)

/-- The function `downloadImage` with the files it leaves; `none` is the error return. -/
def downloadImageOn (P : Platform) (W : World) (url problemID : Str) (index : Int)
    (files : Files) : Option Str × Files :=
  let filename := generateUniqueFilename P url index
  let savePath := W.join [AssetsFolder, problemID, filename]
  if W.mkdirAll (W.dir savePath) then
    match downloadFileOn W url savePath files with
    | (true, files') => (some filename, files')
    | (false, files') => (none, files')
  else (none, files)

/-- The download loop of `downloadAllImages` with the files it leaves. -/
def downloadLoopOn (P : Platform) (W : World) (problemID : Str) :
    List Str → Int → Assoc Str Str → Files → Assoc Str Str × Files
  | [], _, urlToLocalPath, files => (urlToLocalPath, files)
  | url :: rest, index, urlToLocalPath, files =>
    match downloadImageOn P W url problemID index files with
    | (none, files') => downloadLoopOn P W problemID rest (index + 1) urlToLocalPath files'
    | (some filename, files') =>
      downloadLoopOn P W problemID rest (index + 1)
        (mapSet url (assetsDir ++ problemID ++ ['/'] ++ filename) urlToLocalPath) files'

/-- The function `downloadAllImages` with the files it leaves; the keys of `uniqueUrls` are
visited in the order of `List.dedup`, as in `downloadAllImages`. -/
def downloadAllImagesOn (P : Platform) (W : World) (problem : Problem) (files : Files) :
    UrlMap × Files :=
  let problemID := fmtInt problem.DisplayID
  let urls := extractImageUrls (allText problem)
  if urls.length = 0 then (none, files)
  else
    let r := downloadLoopOn P W problemID urls.dedup 0 [] files
    (some r.1, r.2)

/-! ## Vocabulary of the statements on tags -/

/-- Whether the download of a reference succeeds in a world: the directory is made, the
body arrives, the file is created and the copy is complete. -/
def succeedsOn (P : Platform) (W : World) (problemID url : Str) : Bool :=
  W.mkdirAll (W.dir (W.join [AssetsFolder, problemID, generateUniqueFilename P url 0])) &&
  (W.get url).isSome &&
  W.create (W.join [AssetsFolder, problemID, generateUniqueFilename P url 0]) &&
  (W.copyFails url).isNone

/-- Whether a src attribute starts at the front of a text: a white-space character, `src`,
white space or none, and `=`. -/
def srcAttrAt : Str → Bool
  | c :: x :: y :: z :: t =>
    isWs c && x == 's' && y == 'r' && z == 'c' && ((t.dropWhile isWs).head? == some '=')
  | _ => false

/-- Whether a src attribute starts somewhere in a text. -/
def hasSrcAttr : Str → Bool
  | [] => false
  | c :: t => srcAttrAt (c :: t) || hasSrcAttr t

/-- Whether a src attribute starts in a text before its first `>`. -/
def attrBeforeGt : Str → Bool
  | [] => false
  | c :: t => if c = '>' then false else srcAttrAt (c :: t) || attrBeforeGt t

/-- The image tag `<img` A w `src` W1 `=` W2 Q r Q B `>`: attribute text `A`, the white-space
character `w` in front of `src`, white space `W1` and `W2` around the `=`, the reference `r`
between the quotes `q`, and text `B` after the src value. -/
def imgTagAt (A : Str) (w : Char) (W1 W2 q r B : Str) : Str :=
  ['<', 'i', 'm', 'g'] ++ A ++ [w] ++ ['s', 'r', 'c'] ++ W1 ++ ['='] ++ W2 ++ q ++ r ++ q ++ B
    ++ ['>']

/-- A text that keeps to itself: whatever text starting with `<` follows it, the references
found in the whole are its own followed by those of what follows. -/
def selfContained (pre : Str) : Prop :=
  ∀ t, extractImageUrls (pre ++ '<' :: t) = extractImageUrls pre ++ extractImageUrls ('<' :: t)

/-- What a reference must be for the three quoting styles to read it alike: not empty, no
quote, no space, no `>`, and no white space at its front. -/
def styleFreeRef (r : Str) : Prop :=
  r ≠ [] ∧ (∀ c ∈ r, c ≠ dq ∧ c ≠ sq ∧ c ≠ ' ' ∧ c ≠ '>') ∧
    ∀ c, r.head? = some c → isWs c = false

/-- What a piece of the scan with the scan pattern becomes under a mapping: a tag whose
reference is a key becomes the mapped path, everything else stays. -/
def rewriteByRef (m : Assoc Str Str) (p : Piece) : Str :=
  ((refOfPiece p).bind (fun r => m.lookup r)).getD (pieceText p)

/-! ## Concrete inputs for the tags of the general form, the localizer and the files -/

/-- The reference `b.png`. -/
def refB : Str := ['b', '.', 'p', 'n', 'g']

/-- The reference `c.png`. -/
def refC : Str := ['c', '.', 'p', 'n', 'g']

/-- The text `x <img src="a.png"> y <img class=x src='b.png' alt="fig"> z <img src=c.png>.`,
with one tag of each quoting style. -/
def threeTags : Str :=
  ['x', ' '] ++ imgTag [dq] refPng ++ [' ', 'y', ' '] ++
    imgTagWith attrBefore ' ' [sq] refB attrAfter ++ [' ', 'z', ' '] ++ imgTag [] refC ++ ['.']

/-- A mapping with the keys `a.png` and `c.png`. -/
def mapAC : Assoc Str Str := [(refPng, ['P', '1']), (refC, ['P', '3'])]

/-- A mapping with the key `b.png`. -/
def mapB : Assoc Str Str := [(refB, ['P', '2'])]

/-- The reference `a`, tab, `b`. -/
def refTabbed : Str := ['a', '\t', 'b']

/-- The reference tab, `x`, with white space at its front. -/
def refLead : Str := ['\t', 'x']

/-- The attribute text ` src="z"`, a src attribute in front. -/
def attrSrcDq : Str := [' ', 's', 'r', 'c', '=', dq, 'z', dq]

/-- The attribute text ` srcset=x data-src2=y`, which holds `src` but no src attribute. -/
def attrLike : Str :=
  [' ', 's', 'r', 'c', 's', 'e', 't', '=', 'x', ' ', 'd', 'a', 't', 'a', '-', 's', 'r', 'c',
   '2', '=', 'y']

/-- The reference `u.png`. -/
def refU : Str := ['u', '.', 'p', 'n', 'g']

/-- The text `1 < 2 <img src="u.png"> and <img> `: a complete tag and a tag without src. -/
def textWithTags : Str :=
  textBefore ++ imgTagAt [] ' ' [] [] [dq] refU [] ++ [' ', 'a', 'n', 'd', ' '] ++
    (['<', 'i', 'm', 'g'] ++ [] ++ ['>']) ++ [' ']

/-- A record with display id 5 and four content sections: a tag of `a.png`, a value that is
no map, a tag of `b.png`, and the tag of `a.png` again. -/
def fourSections : Problem where
  ID := 5
  DisplayID := 5
  LocalizedContentsOfLocale :=
    [(kContentSections,
      .arr [mkSection tDescription (imgTag [dq] refPng), .str (imgTag [dq] refC),
        mkSection tHint (imgTag [sq] refB), mkSection tInputFormat (imgTag [] refPng)])]
  JudgeInfo := .null
  Samples := .null
  TagsOfLocale := .null

/-- The path `a/b/c.tar.gz` followed by two slashes. -/
def pathTar : Str :=
  ['a', '/', 'b', '/', 'c', '.', 't', 'a', 'r', '.', 'g', 'z', '/', '/']

/-- A world in which every step of a download succeeds, paths are joined with `\\` and
the body of a reference is the reference itself. -/
def okWorld : World where
  join := fun elems => ['\\'].intercalate elems
  dir := fun path => path
  mkdirAll := fun _ => true
  get := fun url => some url
  create := fun _ => true
  copyFails := fun _ => none

/-! ## Facts about the matcher -/

theorem starLens_le (p : Char → Bool) : ∀ (s : Str) (n : Nat), n ∈ starLens p s → n ≤ s.length
  | [], n, h => by simp [starLens] at h; simp [h]
  | c :: cs, n, h => by
    unfold starLens at h
    split at h
    · simp only [List.mem_append, List.mem_map, List.mem_singleton] at h
      rcases h with ⟨m, hm, rfl⟩ | rfl
      · have := starLens_le p cs m hm
        simp; omega
      · simp
    · simp at h; simp [h]

theorem ms_le : ∀ (re : Re) (s : Str) (r : Nat × Caps), r ∈ ms re s → r.1 ≤ s.length
  | .lit l, s, r, h => by
    simp only [ms] at h
    split at h
    · rename_i hl
      simp at h; subst h
      exact (List.isPrefixOf_iff_prefix.1 hl).length_le
    · simp at h
  | .cls p, s, r, h => by
    cases s with
    | nil => simp [ms] at h
    | cons c cs =>
      simp only [ms] at h
      split at h
      · simp at h; subst h; simp
      · simp at h
  | .star p, s, r, h => by
    simp only [ms, List.mem_map] at h
    obtain ⟨n, hn, rfl⟩ := h
    exact starLens_le p s n hn
  | .plus p, s, r, h => by
    cases s with
    | nil => simp [ms] at h
    | cons c cs =>
      simp only [ms] at h
      split at h
      · simp only [List.mem_map] at h
        obtain ⟨n, hn, rfl⟩ := h
        have := starLens_le p cs n hn
        simp; omega
      · simp at h
  | .cat a b, s, r, h => by
    simp only [ms, List.mem_flatMap, List.mem_map] at h
    obtain ⟨r1, h1, r2, h2, rfl⟩ := h
    have e1 := ms_le a s r1 h1
    have e2 := ms_le b _ r2 h2
    simp at e2 ⊢; omega
  | .alt a b, s, r, h => by
    simp only [ms, List.mem_append] at h
    rcases h with h | h
    · exact ms_le a s r h
    · exact ms_le b s r h
  | .grp i a, s, r, h => by
    simp only [ms, List.mem_map] at h
    obtain ⟨r1, h1, rfl⟩ := h
    exact ms_le a s r1 h1

theorem starLens_filter_zero (p : Char → Bool) (s : Str) :
    (starLens p s).filter (fun n => decide (n ≤ 0)) = [0] := by
  cases s with
  | nil => simp [starLens]
  | cons c cs =>
    unfold starLens
    split
    · rw [List.filter_append, List.filter_map]
      have : List.filter ((fun n => decide (n ≤ 0)) ∘ fun x => x + 1) (starLens p cs) = [] := by
        simp [List.filter_eq_nil_iff]
      rw [this]; simp
    · simp

theorem starLens_filter (p : Char → Bool) (t : Str) : ∀ x : Str,
    starLens p x = (starLens p (x ++ t)).filter (fun n => decide (n ≤ x.length))
  | [] => by simpa [starLens] using (starLens_filter_zero p t).symm
  | c :: cs => by
    have ih := starLens_filter p t cs
    simp only [List.cons_append, starLens, List.append_eq]
    split
    · rw [List.filter_append, List.filter_map]
      have : ((fun n => decide (n ≤ (c :: cs).length)) ∘ fun x => x + 1)
          = fun n => decide (n ≤ cs.length) := by
        funext n; simp
      rw [this, ← ih]; simp
    · simp

theorem flatMap_filter_of {α β : Type} (q : α → Bool) (q2 : β → Bool) (f g : α → List β) :
    ∀ l : List α, (∀ a ∈ l, q a = true → f a = (g a).filter q2) →
      (∀ a ∈ l, q a = false → (g a).filter q2 = []) →
      (l.filter q).flatMap f = (l.flatMap g).filter q2
  | [], _, _ => by simp
  | a :: l, h1, h2 => by
    have ih := flatMap_filter_of q q2 f g l (fun a ha => h1 a (List.mem_cons_of_mem _ ha))
      (fun a ha => h2 a (List.mem_cons_of_mem _ ha))
    cases hq : q a
    · simp [List.filter_cons, hq, ih, h2 a (List.mem_cons_self _ _) hq]
    · simp [List.filter_cons, hq, ih, h1 a (List.mem_cons_self _ _) hq]

theorem isPrefixOf_append_iff (l x t : Str) (h : l.length ≤ x.length) :
    l.isPrefixOf (x ++ t) = l.isPrefixOf x := by
  induction l generalizing x with
  | nil => simp
  | cons a l ih =>
    cases x with
    | nil => simp at h
    | cons b x =>
      simp only [List.cons_append, List.isPrefixOf, List.append_eq]
      rw [ih x (by simpa using h)]

/-- A match does not look past its own end: the matches of a text are those matches of any
longer text that end inside it. -/
theorem ms_filter (t : Str) : ∀ (re : Re) (x : Str),
    ms re x = (ms re (x ++ t)).filter (fun r => decide (r.1 ≤ x.length))
  | .lit l, x => by
    simp only [ms]
    by_cases hl : l.length ≤ x.length
    · rw [isPrefixOf_append_iff l x t hl]
      split <;> simp [hl]
    · have h1 : l.isPrefixOf x = false := by
        cases h : l.isPrefixOf x
        · rfl
        · exact absurd (List.isPrefixOf_iff_prefix.1 h).length_le hl
      rw [h1]
      simp only [Bool.false_eq_true, if_false]
      split
      · simp [hl]
      · simp
  | .cls p, x => by
    cases x with
    | nil =>
      cases t with
      | nil => simp [ms]
      | cons c cs => simp only [ms, List.nil_append]; split <;> simp
    | cons c cs => simp only [ms, List.cons_append]; split <;> simp
  | .star p, x => by
    simp only [ms]
    rw [List.filter_map, starLens_filter p t x]
    simp [Function.comp_def]
  | .plus p, x => by
    cases x with
    | nil =>
      cases t with
      | nil => simp [ms]
      | cons c cs =>
        simp only [ms, List.nil_append]; split
        · simp [List.filter_eq_nil_iff]
        · simp
    | cons c cs =>
      simp only [ms, List.cons_append]; split
      · rw [List.filter_map, starLens_filter p t cs]
        simp [Function.comp_def]
      · simp
  | .cat a b, x => by
    simp only [ms]
    rw [ms_filter t a x]
    apply flatMap_filter_of
    · intro r1 _ hq
      have hq : r1.1 ≤ x.length := by simpa using hq
      have hd : List.drop r1.1 (x ++ t) = List.drop r1.1 x ++ t := by
        rw [List.drop_append_of_le_length hq]
      rw [hd, ms_filter t b (x.drop r1.1), List.filter_map]
      congr 1
      apply List.filter_congr
      intro r2 _
      simp only [Function.comp, List.length_drop]
      congr 1
      apply propext
      omega
    · intro r1 _ hq
      have hq : ¬ r1.1 ≤ x.length := by simpa using hq
      simp only [List.filter_map, List.map_eq_nil_iff, List.filter_eq_nil_iff]
      intro r2 _
      simp only [Function.comp, decide_eq_true_eq]
      omega
  | .alt a b, x => by
    show ms a x ++ ms b x = List.filter _ (ms a (x ++ t) ++ ms b (x ++ t))
    rw [List.filter_append, ← ms_filter t a x, ← ms_filter t b x]
  | .grp i a, x => by
    simp only [ms]
    rw [ms_filter t a x, List.filter_map]

    apply List.map_congr_left
    intro r hr
    have : r.1 ≤ x.length := by simpa using (List.mem_filter.1 hr).2
    rw [List.take_append_of_le_length this]

/-! ## Facts about the scan -/

theorem scanAux_fuel (re : Re) : ∀ (fuel : Nat) (s : Str), s.length ≤ fuel →
    scanAux re fuel s = scanAux re s.length s
  | 0, s, h => by
    have : s = [] := List.length_eq_zero.1 (Nat.le_zero.1 h)
    subst this; rfl
  | fuel + 1, [], _ => by simp [scanAux]
  | fuel + 1, c :: cs, h => by
    have hcs : cs.length ≤ fuel := by simpa using h
    simp only [scanAux, List.length_cons]
    split
    · rw [scanAux_fuel re fuel cs hcs]
    · rw [scanAux_fuel re fuel cs hcs]
    · rename_i n caps _
      have h1 : (cs.drop n).length ≤ fuel := by simp; omega
      have h2 : (cs.drop n).length ≤ cs.length := by simp
      rw [scanAux_fuel re fuel _ h1, scanAux_fuel re cs.length _ h2]

theorem scan_nil (re : Re) : scan re [] = [] := rfl

theorem scan_cons_none (re : Re) (c : Char) (cs : Str) (h : (ms re (c :: cs)).head? = none) :
    scan re (c :: cs) = .chr c :: scan re cs := by
  simp only [scan, List.length_cons, scanAux, h]

theorem scan_cons_zero (re : Re) (c : Char) (cs : Str) (caps : Caps)
    (h : (ms re (c :: cs)).head? = some (0, caps)) :
    scan re (c :: cs) = .hit [] caps :: .chr c :: scan re cs := by
  simp only [scan, List.length_cons, scanAux, h]

theorem scan_cons_succ (re : Re) (c : Char) (cs : Str) (n : Nat) (caps : Caps)
    (h : (ms re (c :: cs)).head? = some (n + 1, caps)) :
    scan re (c :: cs) = .hit (c :: cs.take n) caps :: scan re (cs.drop n) := by
  simp only [scan, List.length_cons, scanAux, h]
  rw [scanAux_fuel re cs.length (cs.drop n) (by simp)]

/-- Induction along the steps of the scan. -/
theorem scan_ind (re : Re) (Q : Str → Prop) (hnil : Q [])
    (hnone : ∀ c cs, (ms re (c :: cs)).head? = none → Q cs → Q (c :: cs))
    (hzero : ∀ c cs caps, (ms re (c :: cs)).head? = some (0, caps) → Q cs → Q (c :: cs))
    (hsucc : ∀ c cs n caps, (ms re (c :: cs)).head? = some (n + 1, caps) →
      Q (cs.drop n) → Q (c :: cs)) : ∀ s, Q s := by
  have key : ∀ k (s : Str), s.length = k → Q s := by
    intro k
    induction k using Nat.strong_induction_on with
    | _ k ih =>
    intro s h
    cases s with
    | nil => exact hnil
    | cons c cs =>
      subst h
      cases hm : (ms re (c :: cs)).head? with
      | none => exact hnone c cs hm (ih cs.length (by simp) cs rfl)
      | some r =>
        obtain ⟨n, caps⟩ := r
        cases n with
        | zero => exact hzero c cs caps hm (ih cs.length (by simp) cs rfl)
        | succ n =>
          exact hsucc c cs n caps hm (ih (cs.drop n).length (by simp; omega) _ rfl)
  exact fun s => key s.length s rfl

theorem head_ms_le (re : Re) (s : Str) (n : Nat) (caps : Caps)
    (h : (ms re s).head? = some (n, caps)) : n ≤ s.length :=
  ms_le re s (n, caps) (List.mem_of_mem_head? h)

/-- Every match of the scan is the first match of the pattern at the place where it
stands. -/
theorem scan_hit_first (re : Re) : ∀ (s : Str) (w : Str) (caps : Caps),
    Piece.hit w caps ∈ scan re s → ∃ rest, (ms re (w ++ rest)).head? = some (w.length, caps) := by
  intro s
  induction s using scan_ind re with
  | hnil => intro w caps h; simp [scan_nil] at h
  | hnone c cs hm ih =>
    intro w caps h
    rw [scan_cons_none re c cs hm] at h
    simp only [List.mem_cons] at h
    rcases h with h | h
    · cases h
    · exact ih w caps h
  | hzero c cs caps0 hm ih =>
    intro w caps h
    rw [scan_cons_zero re c cs caps0 hm] at h
    simp only [List.mem_cons] at h
    rcases h with h | h | h
    · cases h; exact ⟨c :: cs, by simpa using hm⟩
    · cases h
    · exact ih w caps h
  | hsucc c cs n caps0 hm ih =>
    intro w caps h
    rw [scan_cons_succ re c cs n caps0 hm] at h
    simp only [List.mem_cons] at h
    rcases h with h | h
    · cases h
      have hn := head_ms_le re _ _ _ hm
      refine ⟨cs.drop n, ?_⟩
      have hl : (c :: List.take n cs).length = n + 1 := by
        simp at hn ⊢; omega
      rw [hl]
      simpa using hm
    · exact ih w caps h

theorem mem_ms_cat {a b : Re} {s : Str} {r : Nat × Caps} :
    r ∈ ms (.cat a b) s ↔
      ∃ n1 c1 n2 c2, (n1, c1) ∈ ms a s ∧ (n2, c2) ∈ ms b (s.drop n1) ∧
        r = (n1 + n2, c1 ++ c2) := by
  simp only [ms, List.mem_flatMap, List.mem_map]
  constructor
  · rintro ⟨⟨n1, c1⟩, h1, ⟨n2, c2⟩, h2, rfl⟩; exact ⟨n1, c1, n2, c2, h1, h2, rfl⟩
  · rintro ⟨n1, c1, n2, c2, h1, h2, rfl⟩; exact ⟨(n1, c1), h1, (n2, c2), h2, rfl⟩

theorem mem_ms_grp {i : Nat} {a : Re} {s : Str} {r : Nat × Caps} :
    r ∈ ms (.grp i a) s ↔ ∃ n c, (n, c) ∈ ms a s ∧ r = (n, (i, s.take n) :: c) := by
  simp only [ms, List.mem_map]
  constructor
  · rintro ⟨⟨n, c⟩, h1, rfl⟩; exact ⟨n, c, h1, rfl⟩
  · rintro ⟨n, c, h1, rfl⟩; exact ⟨(n, c), h1, rfl⟩

theorem mem_ms_lit {l s : Str} {r : Nat × Caps} :
    r ∈ ms (.lit l) s ↔ l <+: s ∧ r = (l.length, []) := by
  simp only [ms]
  split
  · rename_i h
    simp [List.isPrefixOf_iff_prefix.1 h]
  · rename_i h
    simp only [List.not_mem_nil, false_iff, not_and]
    intro h2
    exact absurd (List.isPrefixOf_iff_prefix.2 h2) h

theorem mem_ms_plus {p : Char → Bool} {s : Str} {r : Nat × Caps} (h : r ∈ ms (.plus p) s) :
    0 < r.1 ∧ r.2 = [] := by
  cases s with
  | nil => simp [ms] at h
  | cons c cs =>
    simp only [ms] at h
    split at h
    · simp only [List.mem_map] at h
      obtain ⟨n, _, rfl⟩ := h
      simp
    · simp at h

theorem ms_noGrp : ∀ (re : Re) (s : Str) (r : Nat × Caps), noGrp re = true → r ∈ ms re s →
    r.2 = []
  | .lit l, s, r, _, h => by rw [mem_ms_lit] at h; rw [h.2]
  | .cls p, s, r, _, h => by
    cases s with
    | nil => simp [ms] at h
    | cons c cs =>
      simp only [ms] at h
      split at h
      · simp at h; rw [h]
      · simp at h
  | .star p, s, r, _, h => by
    simp only [ms, List.mem_map] at h
    obtain ⟨n, _, rfl⟩ := h
    rfl
  | .plus p, s, r, _, h => (mem_ms_plus h).2
  | .cat a b, s, r, hg, h => by
    simp only [noGrp, Bool.and_eq_true] at hg
    rw [mem_ms_cat] at h
    obtain ⟨n1, c1, n2, c2, h1, h2, rfl⟩ := h
    have e1 : c1 = [] := ms_noGrp a s _ hg.1 h1
    have e2 : c2 = [] := ms_noGrp b _ _ hg.2 h2
    simp [e1, e2]
  | .alt a b, s, r, hg, h => by
    simp only [noGrp, Bool.and_eq_true] at hg
    simp only [ms, List.mem_append] at h
    rcases h with h | h
    · exact ms_noGrp a s r hg.1 h
    · exact ms_noGrp b s r hg.2 h
  | .grp i a, s, r, hg, _ => by simp [noGrp] at hg

theorem take_of_prefix {l s : Str} (h : l <+: s) : s.take l.length = l := by
  obtain ⟨t, rfl⟩ := h
  simp

theorem take_of_prefix' {q : Char} {s : Str} (h : [q] <+: s) : s.take 1 = [q] :=
  take_of_prefix h

/-- A match of a quoted alternative of the rewrite pattern: its three captures, and how
they make up the matched text. -/
theorem ms_quoted_shape (g : Nat) (q : Char) (p : Char → Bool) (H T : Re)
    (hH : noGrp H = true) (hT : noGrp T = true) (s : Str) (r : Nat × Caps)
    (h : r ∈ ms (seq [.grp g H, .lit [q], .grp (g + 1) (.plus p), .lit [q], .grp (g + 2) T]) s) :
    ∃ a src b, src ≠ [] ∧ r.2 = [(g, a), (g + 1, src), (g + 2, b)] ∧
      s.take r.1 = a ++ [q] ++ src ++ [q] ++ b ∧
      (∃ n, (n, []) ∈ ms H s ∧ a = s.take n) ∧ (∃ s' n, (n, []) ∈ ms T s' ∧ b = s'.take n) := by
  simp only [seq] at h
  rw [mem_ms_cat] at h
  obtain ⟨n1, c1, n2, c2, h1, h2, rfl⟩ := h
  rw [mem_ms_grp] at h1
  obtain ⟨nH, cH, hrH, e1⟩ := h1
  cases e1
  rw [mem_ms_cat] at h2
  obtain ⟨n3, c3, n4, c4, h3, h4, ee0⟩ := h2
  cases ee0
  rw [mem_ms_lit] at h3
  obtain ⟨hq1, e3⟩ := h3
  cases e3
  rw [mem_ms_cat] at h4
  obtain ⟨n5, c5, n6, c6, h5, h6, ee1⟩ := h4
  cases ee1
  rw [mem_ms_grp] at h5
  obtain ⟨nS, cS, hrS, e5⟩ := h5
  cases e5
  rw [mem_ms_cat] at h6
  obtain ⟨n7, c7, n8, c8, h7, h8, ee2⟩ := h6
  cases ee2
  rw [mem_ms_lit] at h7
  obtain ⟨hq2, e7⟩ := h7
  cases e7
  rw [mem_ms_grp] at h8
  obtain ⟨nT, cT, hrT, e8⟩ := h8
  cases e8
  have eH : cH = [] := ms_noGrp H _ _ hH hrH
  have eT : cT = [] := ms_noGrp T _ _ hT hrT
  have eS := mem_ms_plus hrS
  simp only [List.length_singleton] at *
  subst eH eT
  obtain ⟨eS1, eS2⟩ := eS
  subst eS2
  have hle : n5 ≤ _ := ms_le _ _ _ hrS
  refine ⟨s.take n1, ((s.drop n1).drop 1).take n5,
    ((((s.drop n1).drop 1).drop n5).drop 1).take n8, ?_, ?_, ?_, ⟨n1, hrH, rfl⟩,
    ⟨_, n8, hrT, rfl⟩⟩
  · intro hnil
    have := congrArg List.length hnil
    simp only [List.length_take, List.length_nil] at this
    omega
  · simp
  · rw [List.take_add, List.take_add, List.take_add, List.take_add]
    rw [take_of_prefix' hq1, take_of_prefix' hq2]
    simp [List.append_assoc]

/-- A match of the unquoted alternative of the rewrite pattern. -/
theorem ms_unquoted_shape (g : Nat) (p : Char → Bool) (H T : Re)
    (hH : noGrp H = true) (hT : noGrp T = true) (s : Str) (r : Nat × Caps)
    (h : r ∈ ms (seq [.grp g H, .grp (g + 1) (.plus p), .grp (g + 2) T]) s) :
    ∃ a src b, src ≠ [] ∧ r.2 = [(g, a), (g + 1, src), (g + 2, b)] ∧
      s.take r.1 = a ++ src ++ b ∧
      (∃ n, (n, []) ∈ ms H s ∧ a = s.take n) ∧ (∃ s' n, (n, []) ∈ ms T s' ∧ b = s'.take n) := by
  simp only [seq] at h
  rw [mem_ms_cat] at h
  obtain ⟨n1, c1, n2, c2, h1, h2, rfl⟩ := h
  rw [mem_ms_grp] at h1
  obtain ⟨nH, cH, hrH, e1⟩ := h1
  cases e1
  rw [mem_ms_cat] at h2
  obtain ⟨n3, c3, n4, c4, h3, h4, e2⟩ := h2
  cases e2
  rw [mem_ms_grp] at h3
  obtain ⟨nS, cS, hrS, e3⟩ := h3
  cases e3
  rw [mem_ms_grp] at h4
  obtain ⟨nT, cT, hrT, e4⟩ := h4
  cases e4
  have eH : cH = [] := ms_noGrp H _ _ hH hrH
  have eT : cT = [] := ms_noGrp T _ _ hT hrT
  obtain ⟨eS1, eS2⟩ := mem_ms_plus hrS
  have eS2 : cS = [] := eS2
  have eS1 : 0 < n3 := eS1
  subst eH eT eS2
  have hle : n3 ≤ _ := ms_le _ _ _ hrS
  refine ⟨s.take n1, (s.drop n1).take n3, ((s.drop n1).drop n3).take n4, ?_, ?_, ?_,
    ⟨n1, hrH, rfl⟩, ⟨_, n4, hrT, rfl⟩⟩
  · intro hnil
    have := congrArg List.length hnil
    simp only [List.length_take, List.length_nil] at this
    omega
  · simp
  · rw [List.take_add, List.take_add]
    simp [List.append_assoc]

theorem noGrp_tagHead : noGrp (seq tagHead) = true := rfl

theorem noGrp_tagTail : noGrp (seq [.star notGt, .lit ['>']]) = true := rfl

theorem tagHead_starts (s : Str) (n : Nat) (c : Caps) (h : (n, c) ∈ ms (seq tagHead) s) :
    ['<', 'i', 'm', 'g'] <+: s.take n := by
  simp only [tagHead, seq] at h
  rw [mem_ms_cat] at h
  obtain ⟨n1, c1, n2, c2, h1, _, e⟩ := h
  rw [mem_ms_lit] at h1
  obtain ⟨hp, e1⟩ := h1
  cases e1
  cases e
  obtain ⟨t, rfl⟩ := hp
  refine ⟨t.take n2, ?_⟩
  have e : 4 + n2 = n2 + 1 + 1 + 1 + 1 := by omega
  simp only [List.length_cons, List.length_nil, List.cons_append, List.nil_append]
  rw [show 0 + 1 + 1 + 1 + 1 + n2 = n2 + 1 + 1 + 1 + 1 by omega]
  simp only [List.take_succ_cons]

theorem mem_starLens_take (p : Char → Bool) : ∀ (s : Str) (n : Nat), n ∈ starLens p s →
    ∀ c ∈ s.take n, p c = true
  | [], n, h => by simp
  | a :: s, n, h => by
    unfold starLens at h
    split at h
    · rename_i ha
      simp only [List.mem_append, List.mem_map, List.mem_singleton] at h
      rcases h with ⟨m, hm, rfl⟩ | rfl
      · intro c hc
        simp only [List.take_succ_cons, List.mem_cons] at hc
        rcases hc with rfl | hc
        · exact ha
        · exact mem_starLens_take p s m hm c hc
      · simp
    · simp only [List.mem_singleton] at h
      subst h; simp

theorem tagTail_ends (s : Str) (n : Nat) (c : Caps)
    (h : (n, c) ∈ ms (seq [.star notGt, .lit ['>']]) s) :
    ∃ b, s.take n = b ++ ['>'] ∧ ∀ x ∈ b, x ≠ '>' := by
  simp only [seq] at h
  rw [mem_ms_cat] at h
  obtain ⟨n1, c1, n2, c2, h1, h2, e⟩ := h
  rw [mem_ms_lit] at h2
  obtain ⟨hp, e2⟩ := h2
  cases e2
  cases e
  simp only [ms, List.mem_map] at h1
  obtain ⟨k, hk, e1⟩ := h1
  cases e1
  refine ⟨s.take n1, ?_, ?_⟩
  · rw [List.take_add, take_of_prefix hp]
  · intro x hx
    have := mem_starLens_take notGt s n1 hk x hx
    simpa [notGt] using this

/-- The shape of every match of the rewrite pattern: exactly the three groups of one
alternative took part, the src group is not empty, and the matched text is the first
group, which starts with `<img`, the src value between its quotes, and the last group,
which ends with the first `>` after the src value. -/
theorem ms_reRewrite_shape (s : Str) (r : Nat × Caps) (h : r ∈ ms reRewrite s) :
    ∃ a src b, src ≠ [] ∧ ['<', 'i', 'm', 'g'] <+: a ∧
      (∃ b', b = b' ++ ['>'] ∧ ∀ x ∈ b', x ≠ '>') ∧
      ((r.2 = [(1, a), (2, src), (3, b)] ∧ s.take r.1 = a ++ [dq] ++ src ++ [dq] ++ b) ∨
       (r.2 = [(4, a), (5, src), (6, b)] ∧ s.take r.1 = a ++ [sq] ++ src ++ [sq] ++ b) ∨
       (r.2 = [(7, a), (8, src), (9, b)] ∧ s.take r.1 = a ++ src ++ b)) := by
  unfold reRewrite at h
  simp only [ms, List.mem_append] at h
  rcases h with h | h | h
  · obtain ⟨a, src, b, h1, h2, h3, ⟨n, hn, rfl⟩, ⟨s', n', hn', rfl⟩⟩ :=
      ms_quoted_shape 1 dq notDq _ _ noGrp_tagHead noGrp_tagTail s r h
    exact ⟨_, src, _, h1, tagHead_starts _ _ _ hn, tagTail_ends _ _ _ hn', Or.inl ⟨h2, h3⟩⟩
  · obtain ⟨a, src, b, h1, h2, h3, ⟨n, hn, rfl⟩, ⟨s', n', hn', rfl⟩⟩ :=
      ms_quoted_shape 4 sq notSq _ _ noGrp_tagHead noGrp_tagTail s r h
    exact ⟨_, src, _, h1, tagHead_starts _ _ _ hn, tagTail_ends _ _ _ hn',
      Or.inr (Or.inl ⟨h2, h3⟩)⟩
  · obtain ⟨a, src, b, h1, h2, h3, ⟨n, hn, rfl⟩, ⟨s', n', hn', rfl⟩⟩ :=
      ms_unquoted_shape 7 unq _ _ noGrp_tagHead noGrp_tagTail s r h
    exact ⟨_, src, _, h1, tagHead_starts _ _ _ hn, tagTail_ends _ _ _ hn',
      Or.inr (Or.inr ⟨h2, h3⟩)⟩

/-- A match of the rewrite pattern is never empty. -/
theorem ms_reRewrite_pos (s : Str) (r : Nat × Caps) (h : r ∈ ms reRewrite s) : 0 < r.1 := by
  obtain ⟨a, src, b, hsrc, _, _, hs⟩ := ms_reRewrite_shape s r h
  have hlen : 0 < src.length := List.length_pos.2 hsrc
  have key : ∀ t : Str, s.take r.1 = t → src.length ≤ t.length → 0 < r.1 := by
    intro t ht hl
    have := congrArg List.length ht
    simp only [List.length_take] at this
    omega
  rcases hs with ⟨_, h2⟩ | ⟨_, h2⟩ | ⟨_, h2⟩
  · exact key _ h2 (by simp; omega)
  · exact key _ h2 (by simp; omega)
  · exact key _ h2 (by simp; omega)

/-- The src group that the callback picks is the src value of the match. -/
theorem srcOf_of_shape (caps : Caps) (a src b : Str) (hsrc : src ≠ [])
    (h : caps = [(1, a), (2, src), (3, b)] ∨ caps = [(4, a), (5, src), (6, b)] ∨
      caps = [(7, a), (8, src), (9, b)]) :
    srcOf caps = some src ∧
      (if submatch caps 2 ≠ [] then some (submatch caps 2)
       else if submatch caps 5 ≠ [] then some (submatch caps 5)
       else if submatch caps 8 ≠ [] then some (submatch caps 8) else none) = some src := by
  rcases h with rfl | rfl | rfl
  · simp [srcOf, submatch, List.lookup, hsrc]
  · simp [srcOf, submatch, List.lookup, hsrc]
  · simp [srcOf, submatch, List.lookup, hsrc]

/-- Matching the text of a match again, on its own, finds the same match. -/
theorem findStringSubmatch_isolated (re : Re) (w rest : Str) (caps : Caps) (hw : w ≠ [])
    (h : (ms re (w ++ rest)).head? = some (w.length, caps)) :
    findStringSubmatch re w = some caps := by
  have hf := ms_filter rest re w
  have hh : (ms re w).head? = some (w.length, caps) := by
    rw [hf]
    cases hl : ms re (w ++ rest) with
    | nil => rw [hl] at h; simp at h
    | cons r l =>
      rw [hl] at h
      simp only [List.head?_cons, Option.some.injEq] at h
      subst h
      simp [List.filter_cons]
  cases w with
  | nil => exact absurd rfl hw
  | cons c cs => simp only [findStringSubmatch, hh]

/-- The callback never panics on a match of the scan, and replaces it as `rewritePiece`
says. -/
theorem rewriteTag_hit (m : Assoc Str Str) (w rest : Str) (caps : Caps)
    (h : (ms reRewrite (w ++ rest)).head? = some (w.length, caps)) :
    rewriteTag m w = some (rewritePiece m (.hit w caps)) := by
  have hmem := List.mem_of_mem_head? h
  have hpos : 0 < w.length := ms_reRewrite_pos _ _ hmem
  have hw : w ≠ [] := List.length_pos.1 hpos
  obtain ⟨a, src, b, hsrc, _, _, hs⟩ := ms_reRewrite_shape _ _ hmem
  have hc : caps = [(1, a), (2, src), (3, b)] ∨ caps = [(4, a), (5, src), (6, b)] ∨
      caps = [(7, a), (8, src), (9, b)] := by
    rcases hs with ⟨h1, _⟩ | ⟨h1, _⟩ | ⟨h1, _⟩
    · exact Or.inl h1
    · exact Or.inr (Or.inl h1)
    · exact Or.inr (Or.inr h1)
  obtain ⟨e1, e2⟩ := srcOf_of_shape caps a src b hsrc hc
  simp only [rewriteTag, findStringSubmatch_isolated reRewrite w rest caps hw h, rewritePiece, e1]
  by_cases h2 : submatch caps 2 ≠ []
  · rw [if_pos h2] at e2 ⊢
    rw [Option.some.inj e2]
    cases List.lookup src m <;> rfl
  · rw [if_neg h2] at e2 ⊢
    by_cases h5 : submatch caps 5 ≠ []
    · rw [if_pos h5] at e2 ⊢
      rw [Option.some.inj e2]
      cases List.lookup src m <;> rfl
    · rw [if_neg h5] at e2 ⊢
      by_cases h8 : submatch caps 8 ≠ []
      · rw [if_pos h8] at e2 ⊢
        rw [Option.some.inj e2]
        cases List.lookup src m <;> rfl
      · rw [if_neg h8] at e2
        cases e2

theorem renderPieces_rewriteTag (m : Assoc Str Str) : ∀ ps : List Piece,
    (∀ w caps, Piece.hit w caps ∈ ps →
      ∃ rest, (ms reRewrite (w ++ rest)).head? = some (w.length, caps)) →
    renderPieces (rewriteTag m) ps = some (ps.flatMap (rewritePiece m))
  | [], _ => rfl
  | .chr c :: ps, h => by
    have ih := renderPieces_rewriteTag m ps (fun w caps hm => h w caps (List.mem_cons_of_mem _ hm))
    simp [renderPieces, ih, rewritePiece]
  | .hit w caps :: ps, h => by
    have ih := renderPieces_rewriteTag m ps (fun w caps hm => h w caps (List.mem_cons_of_mem _ hm))
    obtain ⟨rest, hr⟩ := h w caps (List.mem_cons_self _ _)
    simp [renderPieces, ih, rewriteTag_hit m w rest caps hr]

/-- The pieces of a scan, put together again, are the text. -/
theorem scan_text (re : Re) : ∀ s : Str, (scan re s).flatMap pieceText = s := by
  intro s
  induction s using scan_ind re with
  | hnil => rfl
  | hnone c cs hm ih => rw [scan_cons_none re c cs hm]; simp [pieceText, ih]
  | hzero c cs caps hm ih => rw [scan_cons_zero re c cs caps hm]; simp [pieceText, ih]
  | hsucc c cs n caps hm ih =>
    rw [scan_cons_succ re c cs n caps hm]
    simp [pieceText, ih]

/-- The rewrite of a text never panics and is the text rewritten tag by tag. -/
theorem replace_eq_rewriteSpec (text : Str) (m : UrlMap) :
    replaceImageTagsWithRelativePath text m = some (rewriteSpec m text) := by
  unfold replaceImageTagsWithRelativePath rewriteSpec
  cases m with
  | none => simp
  | some mp =>
    by_cases ht : text = []
    · subst ht; simp [scan_nil]
    · simp only [ht, if_false, replaceAllStringFunc]
      exact renderPieces_rewriteTag mp _ (fun w caps hm => scan_hit_first reRewrite text w caps hm)

/-! ## Computing a match on a text of known form -/

theorem ms_lit_self (l s : Str) : ms (.lit l) (l ++ s) = [(l.length, [])] := by
  have : l.isPrefixOf (l ++ s) = true := List.isPrefixOf_iff_prefix.2 (List.prefix_append l s)
  simp [ms, this]

theorem ms_lit_fail (l s : Str) (h : ¬ l <+: s) : ms (.lit l) s = [] := by
  have : l.isPrefixOf s = false := by
    cases e : l.isPrefixOf s
    · rfl
    · exact absurd (List.isPrefixOf_iff_prefix.1 e) h
  simp [ms, this]

theorem ms_lit_cat (l s : Str) (R : Re) :
    ms (.cat (.lit l) R) (l ++ s) = (ms R s).map (fun r => (l.length + r.1, r.2)) := by
  simp only [ms]
  have h := ms_lit_self l s
  simp only [ms] at h
  rw [h]
  simp

theorem ms_lit_cat_fail (l s : Str) (R : Re) (h : ¬ l <+: s) : ms (.cat (.lit l) R) s = [] := by
  have h1 := ms_lit_fail l s h
  simp only [ms] at h1 ⊢
  rw [h1]; rfl

theorem starLens_stop (p : Char → Bool) (s : Str) (hs : ∀ c, s.head? = some c → p c = false) :
    starLens p s = [0] := by
  cases s with
  | nil => rfl
  | cons c cs => simp [starLens, hs c rfl]

theorem ms_star_stop_cat (p : Char → Bool) (s : Str) (R : Re)
    (hs : ∀ c, s.head? = some c → p c = false) : ms (.cat (.star p) R) s = ms R s := by
  simp [ms, starLens_stop p s hs]

theorem ms_star_stop (p : Char → Bool) (s : Str)
    (hs : ∀ c, s.head? = some c → p c = false) : ms (.star p) s = [(0, [])] := by
  simp [ms, starLens_stop p s hs]

theorem ms_cls_cat_fail (q : Char → Bool) (s : Str) (R : Re)
    (hs : ∀ c, s.head? = some c → q c = false) : ms (.cat (.cls q) R) s = [] := by
  cases s with
  | nil => simp [ms]
  | cons c cs => simp [ms, hs c rfl]

theorem ms_cls_cat (q : Char → Bool) (c : Char) (s : Str) (R : Re) (hc : q c = true) :
    ms (.cat (.cls q) R) (c :: s) = (ms R s).map (fun r => (1 + r.1, r.2)) := by
  simp [ms, hc]

theorem starLens_bound (p : Char → Bool) (d : Char) (v : Str) (hd : p d = false) :
    ∀ (u : Str) (n : Nat), n ∈ starLens p (u ++ d :: v) → n ≤ u.length
  | [], n, h => by simp [starLens, hd] at h; simp [h]
  | c :: u, n, h => by
    simp only [List.cons_append, starLens] at h
    split at h
    · simp only [List.mem_append, List.mem_map, List.mem_singleton] at h
      rcases h with ⟨m, hm, rfl⟩ | rfl
      · have := starLens_bound p d v hd u m hm
        simp; omega
      · simp
    · simp at h; simp [h]

theorem starLens_head (p : Char → Bool) (v : Str) (hv : ∀ c, v.head? = some c → p c = false) :
    ∀ u : Str, (∀ c ∈ u, p c = true) → ∃ l, starLens p (u ++ v) = u.length :: l
  | [], _ => ⟨[], by simpa using starLens_stop p v hv⟩
  | c :: u, h => by
    obtain ⟨l, hl⟩ := starLens_head p v hv u (fun c hc => h c (List.mem_cons_of_mem _ hc))
    refine ⟨l.map (· + 1) ++ [0], ?_⟩
    simp [starLens, h c (List.mem_cons_self _ _), hl]

theorem drop_head_mem (W z : Str) (n : Nat) (hn : n < W.length) :
    ∃ c, c ∈ W ∧ ∃ rest, (W ++ z).drop n = c :: rest := by
  induction W generalizing n with
  | nil => simp at hn
  | cons a W ih =>
    cases n with
    | zero => exact ⟨a, List.mem_cons_self _ _, W ++ z, rfl⟩
    | succ n =>
      obtain ⟨c, hc, rest, hr⟩ := ih n (by simpa using hn)
      exact ⟨c, List.mem_cons_of_mem _ hc, rest, by simpa using hr⟩

/-- The start `[^>]*\s` of the tag head on a tag whose only white space before `>` is the
one that directly follows `<img`: the greedy run gives back everything. -/
theorem ms_skip (R : Re) (w : Char) (W post : Str) (hw : isWs w = true)
    (hW : ∀ c ∈ W, notGt c = true ∧ isWs c = false) :
    ms (.cat (.star notGt) (.cat (.cls isWs) R)) (w :: (W ++ '>' :: post)) =
      (ms R (W ++ '>' :: post)).map (fun r => (1 + r.1, r.2)) := by
  have hwn : notGt w = true := by
    revert hw
    simp only [isWs, notGt, Bool.or_eq_true, beq_iff_eq, bne_iff_ne]
    rintro ((((rfl | rfl) | rfl) | rfl) | rfl) <;> decide
  have hfail : ∀ n ∈ starLens notGt (W ++ '>' :: post),
      ms (.cat (.cls isWs) R) ((W ++ '>' :: post).drop n) = [] := by
    intro n hn
    have hb := starLens_bound notGt '>' post (by decide) W n hn
    apply ms_cls_cat_fail
    intro c hc
    rcases Nat.lt_or_eq_of_le hb with hlt | heq
    · obtain ⟨c', hc', rest, hr⟩ := drop_head_mem W ('>' :: post) n hlt
      rw [hr] at hc
      simp only [List.head?_cons, Option.some.injEq] at hc
      subst hc
      exact (hW _ hc').2
    · subst heq
      simp only [List.drop_left, List.head?_cons, Option.some.injEq] at hc
      subst hc
      decide
  have h0 := ms_cls_cat isWs w (W ++ '>' :: post) R hw
  have hstar : starLens notGt (w :: (W ++ '>' :: post))
      = (starLens notGt (W ++ '>' :: post)).map (· + 1) ++ [0] := by
    simp [starLens, hwn]
  have step : (ms (.cat (.star notGt) (.cat (.cls isWs) R)) (w :: (W ++ '>' :: post)))
      = ((starLens notGt (w :: (W ++ '>' :: post))).map (fun n => (n, ([] : Caps)))).flatMap
          (fun r1 => (ms (.cat (.cls isWs) R) ((w :: (W ++ '>' :: post)).drop r1.1)).map
            (fun r2 => (r1.1 + r2.1, r1.2 ++ r2.2))) := rfl
  rw [step, hstar, List.map_append, List.flatMap_append]
  have hnil : List.flatMap
      (((starLens notGt (W ++ '>' :: post)).map (· + 1)).map (fun n => (n, ([] : Caps))))
      (fun r1 => (ms (.cat (.cls isWs) R) ((w :: (W ++ '>' :: post)).drop r1.1)).map
            (fun r2 => (r1.1 + r2.1, r1.2 ++ r2.2))) = [] := by
    rw [List.flatMap_eq_nil_iff]
    intro r1 hr1
    simp only [List.map_map, List.mem_map, Function.comp] at hr1
    obtain ⟨n, hn, rfl⟩ := hr1
    simp only [List.drop_succ_cons, hfail n hn, List.map_nil]
  rw [hnil]
  simp [h0]

theorem ms_lit1_cat (a : Char) (s : Str) (R : Re) :
    ms (.cat (.lit [a]) R) (a :: s) = (ms R s).map (fun r => (1 + r.1, r.2)) := by
  simpa using ms_lit_cat [a] s R

theorem ms_lit3_cat (a b c : Char) (s : Str) (R : Re) :
    ms (.cat (.lit [a, b, c]) R) (a :: b :: c :: s) = (ms R s).map (fun r => (3 + r.1, r.2)) := by
  simpa using ms_lit_cat [a, b, c] s R

theorem ms_lit4_cat (a b c d : Char) (s : Str) (R : Re) :
    ms (.cat (.lit [a, b, c, d]) R) (a :: b :: c :: d :: s)
      = (ms R s).map (fun r => (4 + r.1, r.2)) := by
  simpa using ms_lit_cat [a, b, c, d] s R

theorem ms_lit1_cat_fail (a c : Char) (s : Str) (R : Re) (h : c ≠ a) :
    ms (.cat (.lit [a]) R) (c :: s) = [] := by
  apply ms_lit_cat_fail
  intro hp
  simp only [List.cons_prefix_cons] at hp
  exact h hp.1.symm

theorem ms_lit1_self (a : Char) (s : Str) : ms (.lit [a]) (a :: s) = [(1, [])] := by
  simpa using ms_lit_self [a] s

/-- A capture group `([class]+)` on a run of the class that stops: the first try takes
the whole run. -/
theorem ms_grp_plus_cat_head (i : Nat) (p : Char → Bool) (R : Re) (r s : Str) (hr : r ≠ [])
    (hp : ∀ c ∈ r, p c = true) (hs : ∀ c, s.head? = some c → p c = false)
    (hR : ms R s ≠ []) :
    (ms (.cat (.grp i (.plus p)) R) (r ++ s)).head? =
      (ms R s).head?.map (fun x => (r.length + x.1, (i, r) :: x.2)) := by
  cases r with
  | nil => exact absurd rfl hr
  | cons c r' =>
    obtain ⟨l, hl⟩ := starLens_head p s hs r' (fun c hc => hp c (List.mem_cons_of_mem _ hc))
    have hc : p c = true := hp c (List.mem_cons_self _ _)
    obtain ⟨x, xs, hx⟩ := List.exists_cons_of_ne_nil hR
    simp [ms, hc, hl, hx]

theorem ms_grp_plus_cat_fail (i : Nat) (p : Char → Bool) (R : Re) (s : Str)
    (hs : ∀ c, s.head? = some c → p c = false) : ms (.cat (.grp i (.plus p)) R) s = [] := by
  cases s with
  | nil => simp [ms]
  | cons c cs => simp [ms, hs c rfl]

/-- The end `Q[^>]*>` of a quoted alternative right after the src value. -/
theorem ms_tail_quoted (q : Char) (post : Str) :
    ms (.cat (.lit [q]) (.cat (.star notGt) (.lit ['>']))) (q :: '>' :: post) = [(2, [])] := by
  rw [ms_lit1_cat, ms_star_stop_cat notGt _ _ (by simp [notGt]), ms_lit1_self]
  rfl

/-- The end `[^>]*>` of the unquoted alternative right after the src value. -/
theorem ms_tail_unquoted (post : Str) :
    ms (.cat (.star notGt) (.lit ['>'])) ('>' :: post) = [(1, [])] := by
  rw [ms_star_stop_cat notGt _ _ (by simp [notGt]), ms_lit1_self]

/-- The tag head `<img[^>]*\ssrc\s*=\s*` on a tag that starts `<img src=` and has no
white space and no `>` in its body. -/
theorem ms_head (R : Re) (body post : Str)
    (hb : ∀ c ∈ body, notGt c = true ∧ isWs c = false) :
    ms (.cat (.lit ['<', 'i', 'm', 'g']) (.cat (.star notGt) (.cat (.cls isWs)
        (.cat (.lit ['s', 'r', 'c']) (.cat (.star isWs) (.cat (.lit ['=']) (.cat (.star isWs) R)))))))
      ('<' :: 'i' :: 'm' :: 'g' :: ' ' :: 's' :: 'r' :: 'c' :: '=' :: (body ++ '>' :: post))
      = (ms R (body ++ '>' :: post)).map (fun r => (9 + r.1, r.2)) := by
  have hW : ∀ c ∈ 's' :: 'r' :: 'c' :: '=' :: body, notGt c = true ∧ isWs c = false := by
    intro c hc
    simp only [List.mem_cons] at hc
    rcases hc with rfl | rfl | rfl | rfl | hc
    · decide
    · decide
    · decide
    · decide
    · exact hb c hc
  have hstop : ∀ c, (body ++ '>' :: post).head? = some c → isWs c = false := by
    intro c hc
    cases body with
    | nil => simp at hc; subst hc; decide
    | cons b body' =>
      simp at hc; subst hc
      exact (hb _ (List.mem_cons_self _ _)).2
  rw [ms_lit4_cat]
  have h2 := ms_skip (.cat (.lit ['s', 'r', 'c']) (.cat (.star isWs) (.cat (.lit ['='])
    (.cat (.star isWs) R)))) ' ' ('s' :: 'r' :: 'c' :: '=' :: body) post (by decide) hW
  simp only [List.cons_append] at h2
  rw [h2, ms_lit3_cat, ms_star_stop_cat isWs _ _ (by simp [isWs]), ms_lit1_cat,
    ms_star_stop_cat isWs _ _ hstop]
  simp only [List.map_map]
  apply List.map_congr_left
  intro r _
  simp only [Function.comp]
  congr 1
  omega

theorem ms_reScan (s : Str) :
    ms reScan s =
      ms (.cat (.lit ['<', 'i', 'm', 'g']) (.cat (.star notGt) (.cat (.cls isWs)
        (.cat (.lit ['s', 'r', 'c']) (.cat (.star isWs) (.cat (.lit ['=']) (.cat (.star isWs)
          (.cat (.lit [dq]) (.cat (.grp 1 (.plus notDq))
            (.cat (.lit [dq]) (.cat (.star notGt) (.lit ['>'])))))))))))) s ++
      (ms (.cat (.lit ['<', 'i', 'm', 'g']) (.cat (.star notGt) (.cat (.cls isWs)
        (.cat (.lit ['s', 'r', 'c']) (.cat (.star isWs) (.cat (.lit ['=']) (.cat (.star isWs)
          (.cat (.lit [sq]) (.cat (.grp 2 (.plus notSq))
            (.cat (.lit [sq]) (.cat (.star notGt) (.lit ['>'])))))))))))) s ++
       ms (.cat (.lit ['<', 'i', 'm', 'g']) (.cat (.star notGt) (.cat (.cls isWs)
        (.cat (.lit ['s', 'r', 'c']) (.cat (.star isWs) (.cat (.lit ['=']) (.cat (.star isWs)
          (.cat (.grp 3 (.plus unq)) (.cat (.star notGt) (.lit ['>'])))))))))) s) := rfl

theorem plainRef_body (r : Str) (hr : plainRef r) (q : Str) (hq : q = [dq] ∨ q = [sq] ∨ q = []) :
    ∀ c ∈ q ++ r ++ q, notGt c = true ∧ isWs c = false := by
  intro c hc
  simp only [List.mem_append] at hc
  have hqc : ∀ c ∈ q, notGt c = true ∧ isWs c = false := by
    intro c hc
    rcases hq with rfl | rfl | rfl
    · simp only [List.mem_singleton] at hc; subst hc; decide
    · simp only [List.mem_singleton] at hc; subst hc; decide
    · simp at hc
  rcases hc with (hc | hc) | hc
  · exact hqc c hc
  · obtain ⟨h1, _, _, h4⟩ := hr c hc
    exact ⟨by simp [notGt, h4], h1⟩
  · exact hqc c hc

theorem imgTag_eq (q r post : Str) :
    imgTag q r ++ post =
      '<' :: 'i' :: 'm' :: 'g' :: ' ' :: 's' :: 'r' :: 'c' :: '=' :: ((q ++ r ++ q) ++ '>' :: post) := by
  simp [imgTag]

theorem imgTag_length (q r : Str) : (imgTag q r).length = r.length + 2 * q.length + 10 := by
  simp [imgTag]; omega

/-- The double-quoted tag: the first alternative matches it, with the reference as group 1. -/
theorem first_dq (r post : Str) (hr : plainRef r) (hne : r ≠ []) :
    (ms reScan (imgTag [dq] r ++ post)).head? = some ((imgTag [dq] r).length, [(1, r)]) := by
  rw [ms_reScan, imgTag_eq, ms_head _ _ _ (plainRef_body r hr [dq] (Or.inl rfl))]
  have hbody : [dq] ++ r ++ [dq] ++ '>' :: post = dq :: (r ++ dq :: '>' :: post) := by simp
  rw [hbody, ms_lit1_cat]
  have hcap := ms_grp_plus_cat_head 1 notDq
    (.cat (.lit [dq]) (.cat (.star notGt) (.lit ['>']))) r (dq :: '>' :: post) hne
    (fun c hc => by simp [notDq, (hr c hc).2.1]) (by simp [notDq])
    (by rw [ms_tail_quoted]; simp)
  rw [ms_tail_quoted] at hcap
  rw [List.head?_append_of_ne_nil]
  · simp only [List.head?_map, hcap, imgTag_length]
    simp
    omega
  · intro hnil
    have := congrArg List.head? hnil
    simp only [List.head?_map, hcap] at this
    simp at this

theorem ms_lit1_cat_stop (a : Char) (s : Str) (R : Re) (h : ∀ c, s.head? = some c → c ≠ a) :
    ms (.cat (.lit [a]) R) s = [] := by
  cases s with
  | nil => exact ms_lit_cat_fail _ _ _ (by simp)
  | cons c cs => exact ms_lit1_cat_fail a c cs R (h c rfl)

/-- The single-quoted tag: the second alternative matches it, with the reference as
group 2. -/
theorem first_sq (r post : Str) (hr : plainRef r) (hne : r ≠ []) :
    (ms reScan (imgTag [sq] r ++ post)).head? = some ((imgTag [sq] r).length, [(2, r)]) := by
  rw [ms_reScan, imgTag_eq, ms_head _ _ _ (plainRef_body r hr [sq] (Or.inr (Or.inl rfl))),
    ms_head _ _ _ (plainRef_body r hr [sq] (Or.inr (Or.inl rfl)))]
  have hbody : [sq] ++ r ++ [sq] ++ '>' :: post = sq :: (r ++ sq :: '>' :: post) := by simp
  rw [hbody, ms_lit1_cat_fail dq sq _ _ (by decide), ms_lit1_cat]
  have hcap := ms_grp_plus_cat_head 2 notSq
    (.cat (.lit [sq]) (.cat (.star notGt) (.lit ['>']))) r (sq :: '>' :: post) hne
    (fun c hc => by simp [notSq, (hr c hc).2.2.1]) (by simp [notSq])
    (by rw [ms_tail_quoted]; simp)
  rw [ms_tail_quoted] at hcap
  rw [List.map_nil, List.nil_append, List.head?_append_of_ne_nil]
  · simp only [List.head?_map, hcap, imgTag_length]
    simp
    omega
  · intro hnil
    have := congrArg List.head? hnil
    simp only [List.head?_map, hcap] at this
    simp at this

theorem plainRef_head_stop (r post : Str) (hr : plainRef r) (a : Char)
    (ha : a = dq ∨ a = sq) : ∀ c, (r ++ '>' :: post).head? = some c → c ≠ a := by
  intro c hc
  cases r with
  | nil =>
    simp at hc; subst hc
    rcases ha with rfl | rfl <;> decide
  | cons b r' =>
    simp at hc; subst hc
    obtain ⟨_, h2, h3, _⟩ := hr _ (List.mem_cons_self _ _)
    rcases ha with rfl | rfl
    · exact h2
    · exact h3

/-- The unquoted tag: the third alternative matches it, with the reference as group 3. -/
theorem first_uq (r post : Str) (hr : plainRef r) (hne : r ≠ []) :
    (ms reScan (imgTag [] r ++ post)).head? = some ((imgTag [] r).length, [(3, r)]) := by
  rw [ms_reScan, imgTag_eq, ms_head _ _ _ (plainRef_body r hr [] (Or.inr (Or.inr rfl))),
    ms_head _ _ _ (plainRef_body r hr [] (Or.inr (Or.inr rfl))),
    ms_head _ _ _ (plainRef_body r hr [] (Or.inr (Or.inr rfl)))]
  have hbody : [] ++ r ++ [] ++ '>' :: post = r ++ '>' :: post := by simp
  rw [hbody, ms_lit1_cat_stop dq _ _ (plainRef_head_stop r post hr dq (Or.inl rfl)),
    ms_lit1_cat_stop sq _ _ (plainRef_head_stop r post hr sq (Or.inr rfl))]
  have hcap := ms_grp_plus_cat_head 3 unq
    (.cat (.star notGt) (.lit ['>'])) r ('>' :: post) hne
    (fun c hc => by
      obtain ⟨h1, h2, h3, h4⟩ := hr c hc
      have h5 : c ≠ ' ' := by rintro rfl; simp [isWs] at h1
      simp [unq, h2, h3, h4, h5]) (by simp [unq])
    (by rw [ms_tail_unquoted]; simp)
  rw [ms_tail_unquoted] at hcap
  rw [List.map_nil, List.nil_append, List.nil_append, List.head?_map, hcap, imgTag_length]
  simp
  omega

/-- A tag with an empty src value is matched by no alternative. -/
theorem ms_reScan_empty (q post : Str) (hq : q = [dq] ∨ q = [sq] ∨ q = []) :
    ms reScan (imgTag q [] ++ post) = [] := by
  have hb := plainRef_body [] (by intro c hc; simp at hc) q hq
  rw [ms_reScan, imgTag_eq, ms_head _ _ _ hb, ms_head _ _ _ hb, ms_head _ _ _ hb]
  rcases hq with rfl | rfl | rfl
  · have hbody : [dq] ++ [] ++ [dq] ++ '>' :: post = dq :: dq :: '>' :: post := by simp
    rw [hbody, ms_lit1_cat, ms_grp_plus_cat_fail 1 notDq _ _ (by simp [notDq]),
      ms_lit1_cat_fail sq dq _ _ (by decide),
      ms_grp_plus_cat_fail 3 unq _ _ (by simp [unq])]
    rfl
  · have hbody : [sq] ++ [] ++ [sq] ++ '>' :: post = sq :: sq :: '>' :: post := by simp
    rw [hbody, ms_lit1_cat_fail dq sq _ _ (by decide), ms_lit1_cat,
      ms_grp_plus_cat_fail 2 notSq _ _ (by simp [notSq]),
      ms_grp_plus_cat_fail 3 unq _ _ (by simp [unq])]
    rfl
  · have hbody : [] ++ [] ++ [] ++ '>' :: post = '>' :: post := by simp
    rw [hbody, ms_lit1_cat_fail dq '>' _ _ (by decide), ms_lit1_cat_fail sq '>' _ _ (by decide),
      ms_grp_plus_cat_fail 3 unq _ _ (by simp [unq])]
    rfl

/-- No match of the scan pattern starts at a character other than `<`. -/
theorem ms_reScan_not_lt (c : Char) (s : Str) (hc : c ≠ '<') : ms reScan (c :: s) = [] := by
  have hp : ¬ ['<', 'i', 'm', 'g'] <+: c :: s := by
    intro h
    simp only [List.cons_prefix_cons] at h
    exact hc h.1.symm
  rw [ms_reScan, ms_lit_cat_fail _ _ _ hp, ms_lit_cat_fail _ _ _ hp, ms_lit_cat_fail _ _ _ hp]
  rfl

/-- A match of the scan pattern is never empty. -/
theorem ms_reScan_pos (s : Str) (r : Nat × Caps) (h : r ∈ ms reScan s) : 0 < r.1 := by
  rw [ms_reScan] at h
  simp only [List.mem_append] at h
  rcases h with h | h | h
  all_goals
    rw [mem_ms_cat] at h
    obtain ⟨n1, c1, n2, c2, h1, _, e⟩ := h
    rw [mem_ms_lit] at h1
    obtain ⟨_, e1⟩ := h1
    cases e1
    cases e
    simp

theorem scan_skip (re : Re) (s : Str) : ∀ pre : Str,
    (∀ c ∈ pre, ∀ rest, ms re (c :: rest) = []) → scan re (pre ++ s) = pre.map .chr ++ scan re s
  | [], _ => rfl
  | c :: pre, h => by
    have ih := scan_skip re s pre (fun c hc => h c (List.mem_cons_of_mem _ hc))
    have h0 := h c (List.mem_cons_self _ _) (pre ++ s)
    rw [List.cons_append, scan_cons_none re c (pre ++ s) (by rw [h0]; rfl), ih]
    rfl

theorem scan_hit (re : Re) (w rest : Str) (caps : Caps) (hw : w ≠ [])
    (h : (ms re (w ++ rest)).head? = some (w.length, caps)) :
    scan re (w ++ rest) = .hit w caps :: scan re rest := by
  cases w with
  | nil => exact absurd rfl hw
  | cons c cs =>
    simp only [List.cons_append, List.length_cons] at h ⊢
    rw [scan_cons_succ re c (cs ++ rest) cs.length caps h]
    simp

/-- The reference that `extractImageUrls` takes from one piece of the scan. -/
theorem extractImageUrls_eq (text : Str) :
    extractImageUrls text = (scan reScan text).filterMap refOfPiece := by
  unfold extractImageUrls findAllStringSubmatch
  rw [List.filterMap_filterMap]
  congr 1
  funext p
  cases p <;> rfl

theorem extractImageUrls_skip (pre s : Str) (hpre : '<' ∉ pre) :
    extractImageUrls (pre ++ s) = extractImageUrls s := by
  rw [extractImageUrls_eq, extractImageUrls_eq,
    scan_skip reScan s pre (fun c hc rest => ms_reScan_not_lt c rest (by rintro rfl; exact hpre hc)),
    List.filterMap_append]
  have : List.filterMap refOfPiece (List.map Piece.chr pre) = [] := by
    rw [List.filterMap_eq_nil_iff]
    intro p hp
    simp only [List.mem_map] at hp
    obtain ⟨c, _, rfl⟩ := hp
    rfl
  rw [this, List.nil_append]

theorem extractImageUrls_hit (w rest : Str) (caps : Caps) (hw : w ≠ [])
    (h : (ms reScan (w ++ rest)).head? = some (w.length, caps)) :
    extractImageUrls (w ++ rest) =
      (firstNonEmpty [submatch caps 1, submatch caps 2, submatch caps 3]).toList
        ++ extractImageUrls rest := by
  rw [extractImageUrls_eq, extractImageUrls_eq, scan_hit reScan w rest caps hw h,
    List.filterMap_cons]
  simp only [refOfPiece]
  generalize firstNonEmpty [submatch caps 1, submatch caps 2, submatch caps 3] = o
  cases o <;> rfl

theorem imgTag_ne_nil (q r : Str) : imgTag q r ≠ [] := by simp [imgTag]

theorem imgTag_tail_no_lt (q : Str) (hq : q = [dq] ∨ q = [sq] ∨ q = []) :
    ∃ t, imgTag q [] = '<' :: t ∧ '<' ∉ t := by
  rcases hq with rfl | rfl | rfl
  · exact ⟨_, rfl, by decide⟩
  · exact ⟨_, rfl, by decide⟩
  · exact ⟨_, rfl, by decide⟩

/-- The references found in a text that runs up to an image tag without any `<` before it:
the reference of the tag, whatever its quoting, then those of the text after the tag. -/
theorem extractImageUrls_tag (q pre r post : Str) (hq : q = [dq] ∨ q = [sq] ∨ q = [])
    (hpre : '<' ∉ pre) (hr : plainRef r) :
    extractImageUrls (pre ++ imgTag q r ++ post) =
      (if r = [] then [] else [r]) ++ extractImageUrls post := by
  rw [List.append_assoc, extractImageUrls_skip _ _ hpre]
  by_cases hne : r = []
  · subst hne
    obtain ⟨t, ht, hlt⟩ := imgTag_tail_no_lt q hq
    have h0 := ms_reScan_empty q post hq
    rw [ht] at h0 ⊢
    rw [extractImageUrls_eq, List.cons_append,
      scan_cons_none reScan '<' (t ++ post) (by rw [← List.cons_append, h0]; rfl),
      List.filterMap_cons]
    simp only [refOfPiece, if_true, List.nil_append]
    rw [← extractImageUrls_eq, extractImageUrls_skip _ _ hlt]
  · simp only [hne, if_false]
    rcases hq with rfl | rfl | rfl
    · rw [extractImageUrls_hit _ _ _ (imgTag_ne_nil _ _) (first_dq r post hr hne)]
      simp [firstNonEmpty, submatch, List.lookup, hne]
    · rw [extractImageUrls_hit _ _ _ (imgTag_ne_nil _ _) (first_sq r post hr hne)]
      simp [firstNonEmpty, submatch, List.lookup, hne]
    · rw [extractImageUrls_hit _ _ _ (imgTag_ne_nil _ _) (first_uq r post hr hne)]
      simp [firstNonEmpty, submatch, List.lookup, hne]

/-! ## File names -/

theorem extAux_suffix (P : Platform) : ∀ (rev acc : Str),
    extAux P rev acc = [] ∨ ∃ k, extAux P rev acc = (rev.take k).reverse ++ acc
  | [], _ => Or.inl rfl
  | c :: rest, acc => by
    unfold extAux
    split
    · exact Or.inl rfl
    · split
      · exact Or.inr ⟨1, by simp⟩
      · rcases extAux_suffix P rest (c :: acc) with h | ⟨k, hk⟩
        · exact Or.inl h
        · exact Or.inr ⟨k + 1, by rw [hk]; simp⟩

theorem Ext_suffix (P : Platform) (path : Str) : Ext P path <:+ path := by
  unfold Ext
  rcases extAux_suffix P path.reverse [] with h | ⟨k, hk⟩
  · rw [h]; exact List.nil_suffix
  · rw [hk, List.append_nil]
    have h1 : (path.reverse.take k) <+: path.reverse := List.take_prefix _ _
    have h2 := List.reverse_suffix.2 h1
    rwa [List.reverse_reverse] at h2

theorem trimSuffix_append (s suffix : Str) (h : suffix <:+ s) : trimSuffix s suffix ++ suffix = s := by
  unfold trimSuffix
  rw [if_pos (List.isSuffixOf_iff_suffix.2 h)]
  obtain ⟨t, rfl⟩ := h
  simp

theorem rollingHash_lt (url : Str) : rollingHash url < 10000 := by
  unfold rollingHash
  have key : ∀ (l : Str) (h0 : Nat), h0 < 10000 →
      l.foldl (fun hash c => (hash * 31 + c.toNat) % 10000) h0 < 10000 := by
    intro l
    induction l with
    | nil => intro h0 h; simpa using h
    | cons c l ih =>
      intro h0 _
      simp only [List.foldl_cons]
      exact ih _ (Nat.mod_lt _ (by norm_num))
  exact key url 0 (by norm_num)

theorem rollingHash_snoc (s : Str) (c : Char) :
    rollingHash (s ++ [c]) = (rollingHash s * 31 + c.toNat) % 10000 := by
  simp [rollingHash, List.foldl_append]

theorem toDigitsCore_acc (fuel : Nat) : ∀ (n : Nat) (ds : List Char),
    Nat.toDigitsCore 10 fuel n ds = Nat.toDigitsCore 10 fuel n [] ++ ds := by
  induction fuel with
  | zero => intro n ds; simp [Nat.toDigitsCore]
  | succ f ih =>
    intro n ds
    simp only [Nat.toDigitsCore]
    split
    · simp
    · rw [ih (n / 10) (_ :: ds), ih (n / 10) [_]]
      simp

theorem toDigitsCore_fuel : ∀ (fuel n : Nat), n < fuel →
    Nat.toDigitsCore 10 fuel n [] =
      if n < 10 then [Nat.digitChar n] else
        Nat.toDigitsCore 10 (n / 10 + 1) (n / 10) [] ++ [Nat.digitChar (n % 10)] := by
  intro fuel
  induction fuel using Nat.strong_induction_on with
  | _ fuel ih =>
    intro n hn
    cases fuel with
    | zero => omega
    | succ f =>
      by_cases h10 : n < 10
      · have h0 : n / 10 = 0 := Nat.div_eq_of_lt h10
        have hm : n % 10 = n := Nat.mod_eq_of_lt h10
        simp [Nat.toDigitsCore, h0, hm, h10]
      · have h0 : n / 10 ≠ 0 := by
          intro h; have := Nat.div_add_mod n 10; omega
        have hlt : n / 10 < f := by omega
        have e1 := ih f (Nat.lt_succ_self f) (n / 10) hlt
        have e2 := ih (n / 10 + 1) (by omega) (n / 10) (Nat.lt_succ_self _)
        rw [if_neg h10, e2, ← e1]
        rw [Nat.toDigitsCore]
        simp only [h0, if_false]
        rw [toDigitsCore_acc]

theorem toDigits_rec (n : Nat) :
    Nat.toDigits 10 n =
      if n < 10 then [Nat.digitChar n] else Nat.toDigits 10 (n / 10) ++ [Nat.digitChar (n % 10)] := by
  unfold Nat.toDigits
  exact toDigitsCore_fuel (n + 1) n (Nat.lt_succ_self n)

theorem fmt04d_eq (n : Nat) (hn : n < 10000) :
    fmt04d n = [Nat.digitChar (n / 1000), Nat.digitChar (n / 100 % 10),
      Nat.digitChar (n / 10 % 10), Nat.digitChar (n % 10)] := by
  unfold fmt04d
  by_cases h1 : n < 10
  · rw [toDigits_rec n, if_pos h1]
    have e1 : n / 1000 = 0 := by omega
    have e2 : n / 100 % 10 = 0 := by omega
    have e3 : n / 10 % 10 = 0 := by omega
    have e4 : n % 10 = n := by omega
    rw [e1, e2, e3, e4]
    rfl
  · by_cases h2 : n < 100
    · rw [toDigits_rec n, if_neg h1, toDigits_rec (n / 10), if_pos (by omega)]
      have e1 : n / 1000 = 0 := by omega
      have e2 : n / 100 % 10 = 0 := by omega
      have e3 : n / 10 % 10 = n / 10 := by omega
      rw [e1, e2, e3]
      rfl
    · by_cases h3 : n < 1000
      · rw [toDigits_rec n, if_neg h1, toDigits_rec (n / 10), if_neg (by omega),
          toDigits_rec (n / 10 / 10), if_pos (by omega)]
        have e1 : n / 1000 = 0 := by omega
        have e2 : n / 100 % 10 = n / 10 / 10 := by omega
        have e3 : n / 10 % 10 = n / 10 % 10 := rfl
        rw [e1, e2]
        rfl
      · rw [toDigits_rec n, if_neg h1, toDigits_rec (n / 10), if_neg (by omega),
          toDigits_rec (n / 10 / 10), if_neg (by omega), toDigits_rec (n / 10 / 10 / 10),
          if_pos (by omega)]
        have e1 : n / 1000 = n / 10 / 10 / 10 := by omega
        have e2 : n / 100 % 10 = n / 10 / 10 % 10 := by omega
        rw [e1, e2]
        rfl

theorem digitChar_toNat (d : Nat) (hd : d < 10) : (Nat.digitChar d).toNat = 48 + d := by
  interval_cases d <;> rfl

theorem digitChar_isDigit (d : Nat) (hd : d < 10) : (Nat.digitChar d).isDigit = true := by
  interval_cases d <;> rfl

/-- The verb `%04d` on a number below 10000 writes exactly four decimal digits, and they
write that number. -/
theorem fmt04d_spec (n : Nat) (hn : n < 10000) :
    (fmt04d n).length = 4 ∧ (∀ c ∈ fmt04d n, c.isDigit = true) ∧ decimalValue (fmt04d n) = n := by
  rw [fmt04d_eq n hn]
  have b3 : n / 1000 < 10 := by omega
  have b2 : n / 100 % 10 < 10 := by omega
  have b1 : n / 10 % 10 < 10 := by omega
  have b0 : n % 10 < 10 := by omega
  refine ⟨rfl, ?_, ?_⟩
  · intro c hc
    simp only [List.mem_cons, List.mem_singleton, List.not_mem_nil, or_false] at hc
    rcases hc with rfl | rfl | rfl | rfl
    · exact digitChar_isDigit _ b3
    · exact digitChar_isDigit _ b2
    · exact digitChar_isDigit _ b1
    · exact digitChar_isDigit _ b0
  · simp only [decimalValue, List.foldl_cons, List.foldl_nil, digitChar_toNat _ b3,
      digitChar_toNat _ b2, digitChar_toNat _ b1, digitChar_toNat _ b0]
    omega

/-! ## Maps and the download loop -/

theorem lookup_filter_ne {κ ν : Type} [DecidableEq κ] [BEq κ] [LawfulBEq κ] (k k' : κ) :
    ∀ m : Assoc κ ν, (m.filter (fun e => e.1 ≠ k)).lookup k' = if k' = k then none else m.lookup k'
  | [] => by simp
  | (a, b) :: m => by
    have ih := lookup_filter_ne (ν := ν) k k' m
    rw [List.filter_cons]
    by_cases hak : a = k
    · have hd : decide ((a, b).1 ≠ k) = false := by simp [hak]
      rw [hd]
      simp only [Bool.false_eq_true, if_false]
      rw [ih]
      by_cases hk : k' = k
      · rw [if_pos hk, if_pos hk]
      · rw [if_neg hk, if_neg hk, List.lookup_cons]
        have : (k' == a) = false := by rw [hak]; simpa using hk
        rw [this]
    · have hd : decide ((a, b).1 ≠ k) = true := by simp [hak]
      rw [hd]
      simp only [if_true]
      rw [List.lookup_cons, List.lookup_cons, ih]
      by_cases hk : k' = k
      · have : (k' == a) = false := by rw [hk]; simpa using fun h => hak h.symm
        simp only [this, if_pos hk]
      · simp only [if_neg hk]

theorem lookup_mapSet {κ ν : Type} [DecidableEq κ] [BEq κ] [LawfulBEq κ] (k k' : κ) (v : ν)
    (m : Assoc κ ν) : (mapSet k v m).lookup k' = if k' = k then some v else m.lookup k' := by
  unfold mapSet
  rw [List.lookup_cons, lookup_filter_ne]
  by_cases hk : k' = k
  · subst hk; simp
  · have : (k' == k) = false := by simpa using hk
    rw [this, if_neg hk, if_neg hk]

theorem keys_mapSet_nodup {κ ν : Type} [DecidableEq κ] (k : κ) (v : ν) (m : Assoc κ ν)
    (h : (m.map Prod.fst).Nodup) : ((mapSet k v m).map Prod.fst).Nodup := by
  unfold mapSet
  simp only [List.map_cons, List.nodup_cons, List.mem_map, List.mem_filter, not_exists, not_and]
  refine ⟨?_, ?_⟩
  · rintro ⟨a, b⟩ ⟨_, h2⟩ h3
    simp only at h3
    subst h3
    simp at h2
  · exact (h.sublist ((List.filter_sublist _).map _))

/-- The local path that `downloadAllImages` stores for a reference. -/
theorem generateUniqueFilename_index (P : Platform) (url : Str) (i j : Int) :
    generateUniqueFilename P url i = generateUniqueFilename P url j := rfl

theorem lookup_downloadLoop (P : Platform) (dl : Str → Bool) (problemID : Str) (u : Str) :
    ∀ (keys : List Str) (index : Int) (m : Assoc Str Str),
      (downloadLoop P dl problemID keys index m).lookup u =
        if u ∈ keys ∧ dl u = true then
          some (assetsDir ++ problemID ++ ['/'] ++ generateUniqueFilename P u 0)
        else m.lookup u
  | [], _, m => by simp [downloadLoop]
  | url :: rest, index, m => by
    unfold downloadLoop downloadImage
    by_cases hd : dl url = true
    · simp only [hd, if_true]
      rw [lookup_downloadLoop P dl problemID u rest (index + 1), lookup_mapSet]
      by_cases hu : u = url
      · subst hu
        simp [hd, generateUniqueFilename_index P u index 0]
      · simp [hu]
    · simp only [hd, Bool.false_eq_true, if_false]
      rw [lookup_downloadLoop P dl problemID u rest (index + 1)]
      by_cases hu : u = url
      · subst hu
        simp [hd]
      · simp [hu]

theorem keys_downloadLoop_nodup (P : Platform) (dl : Str → Bool) (problemID : Str) :
    ∀ (keys : List Str) (index : Int) (m : Assoc Str Str), (m.map Prod.fst).Nodup →
      ((downloadLoop P dl problemID keys index m).map Prod.fst).Nodup
  | [], _, m, h => by simpa [downloadLoop] using h
  | url :: rest, index, m, h => by
    unfold downloadLoop downloadImage
    by_cases hd : dl url = true
    · simp only [hd, if_true]
      exact keys_downloadLoop_nodup P dl problemID rest _ _ (keys_mapSet_nodup _ _ _ h)
    · simp only [hd, Bool.false_eq_true, if_false]
      exact keys_downloadLoop_nodup P dl problemID rest _ _ h

/-! ## The main flow -/

/-- Converting a record never panics. -/
theorem transformProblem_eq (problem : Problem) (m : UrlMap) :
    transformProblem problem m = some (transformSpec problem m) := by
  simp only [transformProblem, replace_eq_rewriteSpec, transformSpec]

theorem transformLoop_eq (maps : Assoc Int UrlMap) : ∀ ps : List Problem,
    transformLoop maps ps =
      some (ps.map (fun p => transformSpec p (imageMapOf maps p.DisplayID)))
  | [] => rfl
  | p :: ps => by
    simp only [transformLoop, transformProblem_eq, transformLoop_eq maps ps, Option.map_some',
      List.map_cons]

theorem fetchLoop_allProblems (P : Platform) (fetch : Nat → Option Problem)
    (dl : Nat → Str → Bool) : ∀ (ids : List Nat) (st : Crawl),
    (fetchLoop P fetch dl ids st).allProblems = st.allProblems ++ ids.filterMap fetch
  | [], st => by simp [fetchLoop]
  | id :: ids, st => by
    unfold fetchLoop
    cases h : fetch id with
    | none => simp [fetchLoop_allProblems P fetch dl ids st, h]
    | some p => simp [fetchLoop_allProblems P fetch dl ids, h]

theorem imageMapOf_mapSet (maps : Assoc Int UrlMap) (d d' : Int) (v : UrlMap) :
    imageMapOf (mapSet d v maps) d' = if d' = d then v else imageMapOf maps d' := by
  unfold imageMapOf
  rw [lookup_mapSet]
  by_cases h : d' = d
  · simp [h]
  · simp [h]

/-- The stored mapping of a display id that no later record has. -/
theorem fetchLoop_maps_other (P : Platform) (fetch : Nat → Option Problem)
    (dl : Nat → Str → Bool) (d : Int) : ∀ (ids : List Nat) (st : Crawl),
    (∀ id ∈ ids, ∀ q, fetch id = some q → q.DisplayID ≠ d) →
    imageMapOf (fetchLoop P fetch dl ids st).problemImageMaps d = imageMapOf st.problemImageMaps d
  | [], st, _ => rfl
  | id :: ids, st, h => by
    unfold fetchLoop
    cases hf : fetch id with
    | none =>
      exact fetchLoop_maps_other P fetch dl d ids st
        (fun i hi => h i (List.mem_cons_of_mem _ hi))
    | some p =>
      simp only
      rw [fetchLoop_maps_other P fetch dl d ids _ (fun i hi => h i (List.mem_cons_of_mem _ hi)),
        imageMapOf_mapSet, if_neg (fun e => h id (List.mem_cons_self _ _) p hf e.symm)]

/-- When no two fetched records share a display id, the stored mapping of a record is the
one computed from it. -/
theorem fetchLoop_maps_own (P : Platform) (fetch : Nat → Option Problem)
    (dl : Nat → Str → Bool) : ∀ (ids : List Nat) (st : Crawl),
    (∀ i ∈ ids, ∀ j ∈ ids, ∀ p q, fetch i = some p → fetch j = some q →
      p.DisplayID = q.DisplayID → i = j) →
    ∀ id ∈ ids, ∀ p, fetch id = some p →
      imageMapOf (fetchLoop P fetch dl ids st).problemImageMaps p.DisplayID
        = downloadAllImages P (dl id) p
  | [], _, _, id, hid, _, _ => by simp at hid
  | i :: ids, st, hd, id, hid, p, hp => by
    have hd' : ∀ a ∈ ids, ∀ b ∈ ids, ∀ p q, fetch a = some p → fetch b = some q →
        p.DisplayID = q.DisplayID → a = b :=
      fun a ha b hb => hd a (List.mem_cons_of_mem _ ha) b (List.mem_cons_of_mem _ hb)
    by_cases hmem : id ∈ ids
    · unfold fetchLoop
      cases hf : fetch i with
      | none => exact fetchLoop_maps_own P fetch dl ids st hd' id hmem p hp
      | some q => exact fetchLoop_maps_own P fetch dl ids _ hd' id hmem p hp
    · have hi : id = i := by
        rcases List.mem_cons.1 hid with h | h
        · exact h
        · exact absurd h hmem
      subst hi
      unfold fetchLoop
      rw [hp]
      simp only
      rw [fetchLoop_maps_other P fetch dl p.DisplayID ids _ ?_, imageMapOf_mapSet, if_pos rfl]
      intro j hj q hq e
      have := hd id (List.mem_cons_self _ _) j (List.mem_cons_of_mem _ hj) p q hp hq e.symm
      exact hmem (this ▸ hj)

theorem mainProblems_eq (P : Platform) (fetch : Nat → Option Problem) (dl : Nat → Str → Bool) :
    mainProblems P fetch dl =
      some ((idRange.filterMap fetch).map (fun p => transformSpec p
        (imageMapOf (fetchLoop P fetch dl idRange
          { allProblems := [], problemImageMaps := [] }).problemImageMaps p.DisplayID))) := by
  unfold mainProblems
  simp only [transformLoop_eq, fetchLoop_allProblems, List.nil_append]

theorem forall2_filterMap_map {α β γ : Type} (f : α → Option β) (g : β → γ)
    (R : α → γ → Prop) : ∀ l : List α,
    (∀ a ∈ l, ∀ b, f a = some b → R a (g b)) →
    List.Forall₂ R (l.filter (fun a => (f a).isSome)) ((l.filterMap f).map g)
  | [], _ => List.Forall₂.nil
  | a :: l, h => by
    have ih := forall2_filterMap_map f g R l (fun a ha => h a (List.mem_cons_of_mem _ ha))
    cases hf : f a with
    | none => simpa [List.filter_cons, List.filterMap_cons, hf] using ih
    | some b =>
      simp only [List.filter_cons, List.filterMap_cons, hf, Option.isSome_some, if_true,
        List.map_cons]
      exact List.Forall₂.cons (h a (List.mem_cons_self _ _) b hf) ih

theorem idRange_eq : idRange = List.range' 1 533 := rfl

theorem idRange_sorted : idRange.Pairwise (· < ·) := by
  rw [idRange_eq]
  exact List.pairwise_lt_range' 1 533

/-! ## A tag with further attributes -/

theorem starLens_nodup (p : Char → Bool) : ∀ s : Str, (starLens p s).Nodup
  | [] => by simp [starLens]
  | c :: cs => by
    unfold starLens
    split
    · rw [List.nodup_append]
      refine ⟨(starLens_nodup p cs).map (fun a b h => by simpa using h), by simp, ?_⟩
      intro a ha hb
      simp only [List.mem_map] at ha
      simp only [List.mem_singleton] at hb
      obtain ⟨m, _, rfl⟩ := ha
      omega
    · simp

theorem mem_starLens_of_take (p : Char → Bool) : ∀ (s : Str) (n : Nat), n ≤ s.length →
    (∀ c ∈ s.take n, p c = true) → n ∈ starLens p s
  | [], n, hn, _ => by
    have : n = 0 := by simpa using hn
    subst this; simp [starLens]
  | c :: cs, 0, _, _ => by
    unfold starLens
    split <;> simp
  | c :: cs, n + 1, hn, h => by
    have hc : p c = true := h c (by simp)
    have ih := mem_starLens_of_take p cs n (by simpa using hn)
      (fun x hx => h x (by simp [hx]))
    simp only [starLens, hc, if_true, List.mem_append, List.mem_map]
    exact Or.inl ⟨n, ih, rfl⟩

theorem flatMap_single {α β : Type} (g : α → List β) (a : α) : ∀ l : List α, l.Nodup → a ∈ l →
    (∀ k ∈ l, k ≠ a → g k = []) → l.flatMap g = g a
  | [], _, ha, _ => by simp at ha
  | x :: l, hn, ha, h => by
    rw [List.nodup_cons] at hn
    rw [List.flatMap_cons]
    by_cases hx : x = a
    · subst hx
      have : l.flatMap g = [] := by
        rw [List.flatMap_eq_nil_iff]
        intro k hk
        exact h k (List.mem_cons_of_mem _ hk) (fun e => hn.1 (e ▸ hk))
      rw [this, List.append_nil]
    · have ha' : a ∈ l := by
        rcases List.mem_cons.1 ha with e | e
        · exact absurd e.symm hx
        · exact e
      rw [h x (List.mem_cons_self _ _) hx, List.nil_append]
      exact flatMap_single g a l hn.2 ha' (fun k hk => h k (List.mem_cons_of_mem _ hk))

theorem ms_ws_src_fail (R : Re) (s : Str) (h : wsSrcAt s = false) :
    ms (.cat (.cls isWs) (.cat (.lit ['s', 'r', 'c']) R)) s = [] := by
  cases s with
  | nil => simp [ms]
  | cons c t =>
    by_cases hc : isWs c = true
    · rw [ms_cls_cat _ _ _ _ hc]
      have : ¬ ['s', 'r', 'c'] <+: t := by
        rintro ⟨u, rfl⟩
        simp [wsSrcAt, hc] at h
      rw [ms_lit_cat_fail _ _ _ this]
      rfl
    · exact ms_cls_cat_fail _ _ _ (by
        intro x hx
        simp only [List.head?_cons, Option.some.injEq] at hx
        subst hx
        simpa using hc)

/-- No white space followed by `src` starts inside a text without `src` that is followed
by a character other than `s`, `r`, `c`. -/
theorem wsSrcAt_inside (t : Char) (rest : Str) (ht : t ≠ 's' ∧ t ≠ 'r' ∧ t ≠ 'c') :
    ∀ (B : Str), ¬ ['s', 'r', 'c'] <:+: B → ∀ j, j < B.length →
      wsSrcAt ((B ++ t :: rest).drop j) = false
  | [], _, j, hj => by simp at hj
  | b :: B, hB, 0, _ => by
    have hB' : ¬ ['s', 'r', 'c'] <+: B := fun h =>
      hB (h.isInfix.trans (List.infix_cons (List.infix_refl B)))
    simp only [List.drop_zero, List.cons_append]
    cases hwb : wsSrcAt (b :: (B ++ t :: rest)) with
    | false => rfl
    | true =>
      exfalso
      match B, hB' with
      | [], _ =>
        simp only [wsSrcAt, List.nil_append] at hwb
        cases rest with
        | nil => simp at hwb
        | cons r1 rest =>
          cases rest with
          | nil => simp at hwb
          | cons r2 rest => simp at hwb; exact ht.1 hwb.1.1.2
      | [x], _ =>
        simp only [wsSrcAt, List.cons_append, List.nil_append] at hwb
        cases rest with
        | nil => simp at hwb
        | cons r1 rest => simp at hwb; exact ht.2.1 hwb.1.2
      | [x, y], _ =>
        simp only [wsSrcAt, List.cons_append, List.nil_append] at hwb
        simp at hwb; exact ht.2.2 hwb.2
      | x :: y :: z :: B', hB' =>
        simp only [wsSrcAt, List.cons_append] at hwb
        simp at hwb
        obtain ⟨⟨⟨_, rfl⟩, rfl⟩, rfl⟩ := hwb
        exact hB' ⟨B', rfl⟩
  | b :: B, hB, j + 1, hj => by
    have hB' : ¬ ['s', 'r', 'c'] <:+: B := fun h => hB (h.trans (List.infix_cons (List.infix_refl B)))
    simpa using wsSrcAt_inside t rest ht B hB' j (by simpa using hj)

theorem wsSrcAt_of_head (c : Char) (s : Str) (hc : isWs c = false) : wsSrcAt (c :: s) = false := by
  match s with
  | [] => rfl
  | [_] => rfl
  | [_, _] => rfl
  | _ :: _ :: _ :: _ => simp [wsSrcAt, hc]

theorem isWs_not_src (w : Char) (hw : isWs w = true) : w ≠ 's' ∧ w ≠ 'r' ∧ w ≠ 'c' := by
  refine ⟨?_, ?_, ?_⟩ <;> (rintro rfl; revert hw; decide)

theorem isWs_notGt (w : Char) (hw : isWs w = true) : notGt w = true := by
  have : w ≠ '>' := by rintro rfl; revert hw; decide
  simpa [notGt] using this

/-- The start `[^>]*\ssrc` of the tag head on a tag in which white space followed by `src`
occurs only once before `>`: the greedy run gives back everything after that place. -/
theorem ms_skip_gen (R : Re) (A : Str) (w : Char) (W post : Str) (hw : isWs w = true)
    (hA : ∀ c ∈ A, notGt c = true) (hAs : ¬ ['s', 'r', 'c'] <:+: A)
    (hW : ∀ c ∈ W, notGt c = true)
    (hWs : ∀ j, j ≤ W.length → wsSrcAt ((W ++ '>' :: post).drop j) = false) :
    ms (.cat (.star notGt) (.cat (.cls isWs) (.cat (.lit ['s', 'r', 'c']) R)))
        (A ++ w :: (W ++ '>' :: post))
      = (ms (.cat (.lit ['s', 'r', 'c']) R) (W ++ '>' :: post)).map
          (fun r => (A.length + 1 + r.1, r.2)) := by
  have step : ms (.cat (.star notGt) (.cat (.cls isWs) (.cat (.lit ['s', 'r', 'c']) R)))
        (A ++ w :: (W ++ '>' :: post))
      = (starLens notGt (A ++ w :: (W ++ '>' :: post))).flatMap (fun k =>
          (ms (.cat (.cls isWs) (.cat (.lit ['s', 'r', 'c']) R))
            ((A ++ w :: (W ++ '>' :: post)).drop k)).map (fun r2 => (k + r2.1, r2.2))) := by
    simp only [ms, List.flatMap_map, List.nil_append]
  rw [step]
  have hmem : A.length ∈ starLens notGt (A ++ w :: (W ++ '>' :: post)) :=
    mem_starLens_of_take notGt _ _ (by simp) (by simpa using hA)
  have hu : ∀ c ∈ A ++ w :: W, notGt c = true := by
    intro c hc
    simp only [List.mem_append, List.mem_cons] at hc
    rcases hc with h | rfl | h
    · exact hA c h
    · exact isWs_notGt _ hw
    · exact hW c h
  rw [flatMap_single _ A.length _ (starLens_nodup notGt _) hmem]
  · simp only [List.drop_left, ms_cls_cat isWs w _ _ hw, List.map_map]
    apply List.map_congr_left
    intro r _
    simp only [Function.comp]
    congr 1
    omega
  · intro k hk hne
    have hT : A ++ w :: (W ++ '>' :: post) = (A ++ w :: W) ++ '>' :: post := by simp
    have hb : k ≤ (A ++ w :: W).length :=
      starLens_bound notGt '>' post (by decide) (A ++ w :: W) k (by rw [← hT]; exact hk)
    rw [ms_ws_src_fail, List.map_nil]
    rcases Nat.lt_or_gt_of_ne hne with hlt | hgt
    · exact wsSrcAt_inside w _ (isWs_not_src w hw) A hAs k hlt
    · have hd : (A ++ w :: (W ++ '>' :: post)).drop k
          = (W ++ '>' :: post).drop (k - A.length - 1) := by
        rw [List.drop_append_eq_append_drop]
        have h1 : List.drop k A = [] := List.drop_eq_nil_of_le (by omega)
        have h2 : k - A.length = (k - A.length - 1) + 1 := by omega
        rw [h1, List.nil_append]
        generalize k - A.length = d at h2 ⊢
        rw [h2, List.drop_succ_cons]
        simp
      rw [hd]
      apply hWs
      simp only [List.length_append, List.length_cons] at hb
      omega

/-- After `src=` and up to `>`, a tag body made of the quoted plain reference and
attribute text without `src` holds no white space followed by `src`. -/
theorem wsSrcAt_body (q r B post : Str) (hq : q = [dq] ∨ q = [sq] ∨ q = []) (hr : plainRef r)
    (hBs : ¬ ['s', 'r', 'c'] <:+: B) :
    ∀ j, j ≤ (['s', 'r', 'c', '='] ++ (q ++ r ++ q) ++ B).length →
      wsSrcAt (((['s', 'r', 'c', '='] ++ (q ++ r ++ q) ++ B) ++ '>' :: post).drop j) = false := by
  intro j hj
  have hW1 : ∀ c ∈ ['s', 'r', 'c', '='] ++ (q ++ r ++ q), isWs c = false := by
    intro c hc
    rw [List.mem_append] at hc
    rcases hc with hc | hc
    · simp only [List.mem_cons, List.mem_singleton, List.not_mem_nil, or_false] at hc
      rcases hc with rfl | rfl | rfl | rfl <;> decide
    · exact (plainRef_body r hr q hq c hc).2
  by_cases hlt : j < (['s', 'r', 'c', '='] ++ (q ++ r ++ q)).length
  · rw [List.append_assoc]
    obtain ⟨c, hc, rest, hd⟩ := drop_head_mem (['s', 'r', 'c', '='] ++ (q ++ r ++ q))
      (B ++ '>' :: post) j hlt
    rw [hd]
    exact wsSrcAt_of_head c rest (hW1 c hc)
  · have hge : (['s', 'r', 'c', '='] ++ (q ++ r ++ q)).length ≤ j := Nat.le_of_not_lt hlt
    have hd : (((['s', 'r', 'c', '='] ++ (q ++ r ++ q)) ++ B) ++ '>' :: post).drop j
        = (B ++ '>' :: post).drop (j - (['s', 'r', 'c', '='] ++ (q ++ r ++ q)).length) := by
      rw [List.append_assoc, List.drop_append_eq_append_drop, List.drop_eq_nil_of_le hge,
        List.nil_append]
    rw [hd]
    rw [List.length_append] at hj
    generalize (['s', 'r', 'c', '='] ++ (q ++ r ++ q)).length = n at hj hge ⊢
    have hle : j - n ≤ B.length := by omega
    rcases Nat.lt_or_eq_of_le hle with h | h
    · exact wsSrcAt_inside '>' post (by decide) B hBs _ h
    · rw [h, List.drop_left]
      exact wsSrcAt_of_head '>' post (by decide)

theorem imgTagWith_eq (A : Str) (w : Char) (q r B post : Str) :
    imgTagWith A w q r B ++ post =
      ['<', 'i', 'm', 'g'] ++ (A ++ w :: ((['s', 'r', 'c', '='] ++ (q ++ r ++ q) ++ B)
        ++ '>' :: post)) := by
  simp [imgTagWith]

theorem imgTagWith_length (A : Str) (w : Char) (q r B : Str) :
    (imgTagWith A w q r B).length = A.length + r.length + 2 * q.length + B.length + 10 := by
  simp [imgTagWith]; omega

/-- The tag head `<img[^>]*\ssrc\s*=\s*` on the tag `<img` A w `src=` body `>`: it is
matched in one way only, up to the `=`. -/
theorem ms_head_gen (R : Re) (A : Str) (w : Char) (q r B post : Str) (hw : isWs w = true)
    (hA : '>' ∉ A) (hAs : ¬ ['s', 'r', 'c'] <:+: A)
    (hq : q = [dq] ∨ q = [sq] ∨ q = []) (hr : plainRef r)
    (hB : '>' ∉ B) (hBs : ¬ ['s', 'r', 'c'] <:+: B)
    (hstop : ∀ c, ((q ++ r ++ q) ++ B ++ '>' :: post).head? = some c → isWs c = false) :
    ms (.cat (.lit ['<', 'i', 'm', 'g']) (.cat (.star notGt) (.cat (.cls isWs)
        (.cat (.lit ['s', 'r', 'c']) (.cat (.star isWs) (.cat (.lit ['=']) (.cat (.star isWs) R)))))))
      (imgTagWith A w q r B ++ post)
      = (ms R ((q ++ r ++ q) ++ B ++ '>' :: post)).map
          (fun x => (A.length + 9 + x.1, x.2)) := by
  have hA' : ∀ c ∈ A, notGt c = true := by
    intro c hc
    have : c ≠ '>' := by rintro rfl; exact hA hc
    simpa [notGt] using this
  have hW : ∀ c ∈ ['s', 'r', 'c', '='] ++ (q ++ r ++ q) ++ B, notGt c = true := by
    intro c hc
    simp only [List.mem_append] at hc
    rcases hc with (hc | hc) | hc
    · simp only [List.mem_cons, List.mem_singleton, List.not_mem_nil, or_false] at hc
      rcases hc with rfl | rfl | rfl | rfl <;> decide
    · exact (plainRef_body r hr q hq c (by simp only [List.mem_append]; exact hc)).1
    · have : c ≠ '>' := by rintro rfl; exact hB hc
      simpa [notGt] using this
  rw [imgTagWith_eq, ms_lit_cat,
    ms_skip_gen _ A w _ post hw hA' hAs hW (wsSrcAt_body q r B post hq hr hBs)]
  have ht : ['s', 'r', 'c', '='] ++ (q ++ r ++ q) ++ B ++ '>' :: post
      = ['s', 'r', 'c'] ++ ('=' :: ((q ++ r ++ q) ++ B ++ '>' :: post)) := by simp
  rw [ht, ms_lit_cat, ms_star_stop_cat isWs _ _ (by simp [isWs]), ms_lit1_cat,
    ms_star_stop_cat isWs _ _ hstop]
  simp only [List.map_map]
  apply List.map_congr_left
  intro x _
  simp only [Function.comp, List.length_cons, List.length_nil]
  congr 1
  omega

/-- The end `[^>]*>` of an alternative on attribute text without `>`: the first try runs
to the `>`. -/
theorem ms_tail_unquoted_gen (B post : Str) (hB : '>' ∉ B) :
    (ms (.cat (.star notGt) (.lit ['>'])) (B ++ '>' :: post)).head? = some (B.length + 1, []) := by
  have hB' : ∀ c ∈ B, notGt c = true := by
    intro c hc
    have : c ≠ '>' := by rintro rfl; exact hB hc
    simpa [notGt] using this
  obtain ⟨l, hl⟩ := starLens_head notGt ('>' :: post) (by simp [notGt]) B hB'
  have h1 := ms_lit1_self '>' post
  simp only [ms] at h1 ⊢
  simp [hl, h1]

/-- The end `Q[^>]*>` of a quoted alternative. -/
theorem ms_tail_quoted_gen (q : Char) (B post : Str) (hB : '>' ∉ B) :
    (ms (.cat (.lit [q]) (.cat (.star notGt) (.lit ['>']))) (q :: (B ++ '>' :: post))).head?
      = some (B.length + 2, []) := by
  rw [ms_lit1_cat, List.head?_map, ms_tail_unquoted_gen B post hB]
  simp
  omega

theorem ne_nil_of_head {α : Type} (l : List α) (a : α) (h : l.head? = some a) : l ≠ [] := by
  rintro rfl; simp at h

theorem plainRef_head (r rest : Str) (hr : plainRef r) (hne : r ≠ []) :
    ∃ c t, r ++ rest = c :: t ∧ isWs c = false ∧ c ≠ dq ∧ c ≠ sq ∧ c ≠ '>' := by
  cases r with
  | nil => exact absurd rfl hne
  | cons c r' => exact ⟨c, r' ++ rest, rfl, hr c (List.mem_cons_self _ _)⟩

/-- The double-quoted tag with further attributes: the first alternative matches it, with
the reference as group 1. -/
theorem first_dq_gen (A : Str) (w : Char) (r B post : Str) (hw : isWs w = true)
    (hA : '>' ∉ A) (hAs : ¬ ['s', 'r', 'c'] <:+: A) (hr : plainRef r) (hne : r ≠ [])
    (hB : '>' ∉ B) (hBs : ¬ ['s', 'r', 'c'] <:+: B) :
    (ms reScan (imgTagWith A w [dq] r B ++ post)).head?
      = some ((imgTagWith A w [dq] r B).length, [(1, r)]) := by
  rw [ms_reScan, ms_head_gen _ A w [dq] r B post hw hA hAs (Or.inl rfl) hr hB hBs
    (by simp; decide)]
  have hbody : [dq] ++ r ++ [dq] ++ B ++ '>' :: post = dq :: (r ++ dq :: (B ++ '>' :: post)) := by
    simp
  have htail := ms_tail_quoted_gen dq B post hB
  have hcap := ms_grp_plus_cat_head 1 notDq
    (.cat (.lit [dq]) (.cat (.star notGt) (.lit ['>']))) r (dq :: (B ++ '>' :: post)) hne
    (fun c hc => by simp [notDq, (hr c hc).2.1]) (by simp [notDq])
    (ne_nil_of_head _ _ htail)
  rw [htail] at hcap
  rw [hbody, ms_lit1_cat, List.head?_append_of_ne_nil]
  · simp only [List.head?_map, hcap, imgTagWith_length]
    simp
    omega
  · intro hnil
    have := congrArg List.head? hnil
    simp only [List.head?_map, hcap] at this
    simp at this

/-- The single-quoted tag with further attributes: the second alternative matches it, with
the reference as group 2. -/
theorem first_sq_gen (A : Str) (w : Char) (r B post : Str) (hw : isWs w = true)
    (hA : '>' ∉ A) (hAs : ¬ ['s', 'r', 'c'] <:+: A) (hr : plainRef r) (hne : r ≠ [])
    (hB : '>' ∉ B) (hBs : ¬ ['s', 'r', 'c'] <:+: B) :
    (ms reScan (imgTagWith A w [sq] r B ++ post)).head?
      = some ((imgTagWith A w [sq] r B).length, [(2, r)]) := by
  have hst : ∀ c, (([sq] ++ r ++ [sq]) ++ B ++ '>' :: post).head? = some c → isWs c = false := by
    simp; decide
  rw [ms_reScan, ms_head_gen _ A w [sq] r B post hw hA hAs (Or.inr (Or.inl rfl)) hr hB hBs hst,
    ms_head_gen _ A w [sq] r B post hw hA hAs (Or.inr (Or.inl rfl)) hr hB hBs hst]
  have hbody : [sq] ++ r ++ [sq] ++ B ++ '>' :: post = sq :: (r ++ sq :: (B ++ '>' :: post)) := by
    simp
  have htail := ms_tail_quoted_gen sq B post hB
  have hcap := ms_grp_plus_cat_head 2 notSq
    (.cat (.lit [sq]) (.cat (.star notGt) (.lit ['>']))) r (sq :: (B ++ '>' :: post)) hne
    (fun c hc => by simp [notSq, (hr c hc).2.2.1]) (by simp [notSq])
    (ne_nil_of_head _ _ htail)
  rw [htail] at hcap
  rw [hbody, ms_lit1_cat_fail dq sq _ _ (by decide), ms_lit1_cat, List.map_nil, List.nil_append,
    List.head?_append_of_ne_nil]
  · simp only [List.head?_map, hcap, imgTagWith_length]
    simp
    omega
  · intro hnil
    have := congrArg List.head? hnil
    simp only [List.head?_map, hcap] at this
    simp at this

/-- The unquoted tag with further attributes, the text after the reference being empty or
starting with a space: the third alternative matches it, with the reference as group 3. -/
theorem first_uq_gen (A : Str) (w : Char) (r B post : Str) (hw : isWs w = true)
    (hA : '>' ∉ A) (hAs : ¬ ['s', 'r', 'c'] <:+: A) (hr : plainRef r) (hne : r ≠ [])
    (hB : '>' ∉ B) (hBs : ¬ ['s', 'r', 'c'] <:+: B) (hB0 : ∀ c, B.head? = some c → c = ' ') :
    (ms reScan (imgTagWith A w [] r B ++ post)).head?
      = some ((imgTagWith A w [] r B).length, [(3, r)]) := by
  obtain ⟨c0, t0, e0, h1, h2, h3, _⟩ := plainRef_head r (B ++ '>' :: post) hr hne
  have hbody : [] ++ r ++ [] ++ B ++ '>' :: post = r ++ (B ++ '>' :: post) := by simp
  have hst : ∀ c, (([] ++ r ++ []) ++ B ++ '>' :: post).head? = some c → isWs c = false := by
    rw [hbody, e0]
    intro c hc
    simp only [List.head?_cons, Option.some.injEq] at hc
    subst hc; exact h1
  rw [ms_reScan, ms_head_gen _ A w [] r B post hw hA hAs (Or.inr (Or.inr rfl)) hr hB hBs hst,
    ms_head_gen _ A w [] r B post hw hA hAs (Or.inr (Or.inr rfl)) hr hB hBs hst,
    ms_head_gen _ A w [] r B post hw hA hAs (Or.inr (Or.inr rfl)) hr hB hBs hst]
  have hd : ms (.cat (.lit [dq]) (.cat (.grp 1 (.plus notDq))
      (.cat (.lit [dq]) (.cat (.star notGt) (.lit ['>']))))) (r ++ (B ++ '>' :: post)) = [] := by
    rw [e0]; exact ms_lit1_cat_fail dq c0 _ _ h2
  have hs : ms (.cat (.lit [sq]) (.cat (.grp 2 (.plus notSq))
      (.cat (.lit [sq]) (.cat (.star notGt) (.lit ['>']))))) (r ++ (B ++ '>' :: post)) = [] := by
    rw [e0]; exact ms_lit1_cat_fail sq c0 _ _ h3
  have htail := ms_tail_unquoted_gen B post hB
  have hstopB : ∀ c, (B ++ '>' :: post).head? = some c → unq c = false := by
    intro c hc
    cases B with
    | nil => simp at hc; subst hc; decide
    | cons b B' =>
      simp at hc; subst hc
      rw [hB0 _ rfl]; decide
  have hcap := ms_grp_plus_cat_head 3 unq
    (.cat (.star notGt) (.lit ['>'])) r (B ++ '>' :: post) hne
    (fun c hc => by
      obtain ⟨h1, h2, h3, h4⟩ := hr c hc
      have h5 : c ≠ ' ' := by rintro rfl; simp [isWs] at h1
      simp [unq, h2, h3, h4, h5]) hstopB (ne_nil_of_head _ _ htail)
  rw [htail] at hcap
  rw [hbody, hd, hs, List.map_nil, List.nil_append, List.nil_append, List.head?_map, hcap,
    imgTagWith_length]
  simp
  omega

theorem imgTagWith_ne_nil (A : Str) (w : Char) (q r B : Str) : imgTagWith A w q r B ≠ [] := by
  simp [imgTagWith]

/-- Where `<img` does not occur in a text, it does not start in that text when a `<`
follows it either. -/
theorem no_tag_start (t : Str) : ∀ (d : Str), d ≠ [] →
    ['<', 'i', 'm', 'g'] <+: d ++ '<' :: t → ['<', 'i', 'm', 'g'] <+: d
  | [], h, _ => absurd rfl h
  | [a], _, h => by simp [List.cons_prefix_cons] at h
  | [a, b], _, h => by simp [List.cons_prefix_cons] at h
  | [a, b, c], _, h => by simp [List.cons_prefix_cons] at h
  | a :: b :: c :: e :: d, _, h => by
    simp only [List.cons_append, List.cons_prefix_cons] at h
    obtain ⟨rfl, rfl, rfl, rfl, _⟩ := h
    exact ⟨d, rfl⟩

theorem ms_reScan_no_start (s : Str) (h : ¬ ['<', 'i', 'm', 'g'] <+: s) : ms reScan s = [] := by
  rw [ms_reScan, ms_lit_cat_fail _ _ _ h, ms_lit_cat_fail _ _ _ h, ms_lit_cat_fail _ _ _ h]
  rfl

theorem scan_skip_gen (re : Re) (s : Str) : ∀ pre : Str,
    (∀ k, k < pre.length → ms re (pre.drop k ++ s) = []) →
    scan re (pre ++ s) = pre.map .chr ++ scan re s
  | [], _ => rfl
  | c :: pre, h => by
    have ih := scan_skip_gen re s pre (fun k hk => by
      have := h (k + 1) (by simpa using hk)
      simpa using this)
    have h0 := h 0 (by simp)
    simp only [List.drop_zero] at h0
    rw [List.cons_append, scan_cons_none re c (pre ++ s) (by rw [← List.cons_append, h0]; rfl), ih]
    rfl

/-- Text in which `<img` does not occur, in front of a text that starts with `<`, adds no
reference. -/
theorem extractImageUrls_skip_gen (pre t : Str) (hpre : ¬ ['<', 'i', 'm', 'g'] <:+: pre) :
    extractImageUrls (pre ++ '<' :: t) = extractImageUrls ('<' :: t) := by
  have hk : ∀ k, k < pre.length → ms reScan (pre.drop k ++ '<' :: t) = [] := by
    intro k hk
    apply ms_reScan_no_start
    intro hp
    have hne : pre.drop k ≠ [] := by
      intro e
      have := congrArg List.length e
      simp only [List.length_drop, List.length_nil] at this
      omega
    have h1 := no_tag_start t (pre.drop k) hne hp
    exact hpre (h1.isInfix.trans (List.drop_suffix k pre).isInfix)
  rw [extractImageUrls_eq, extractImageUrls_eq, scan_skip_gen reScan _ pre hk,
    List.filterMap_append]
  have : List.filterMap refOfPiece (List.map Piece.chr pre) = [] := by
    rw [List.filterMap_eq_nil_iff]
    intro p hp
    simp only [List.mem_map] at hp
    obtain ⟨c, _, rfl⟩ := hp
    rfl
  rw [this, List.nil_append]

/-- The references of a text that runs up to an image tag with further attributes, without
`<img` before it: the reference of the tag, then those of the text after the tag. -/
theorem extractImageUrls_tag_gen (q pre A : Str) (w : Char) (r B post : Str)
    (hq : q = [dq] ∨ q = [sq] ∨ q = []) (hpre : ¬ ['<', 'i', 'm', 'g'] <:+: pre)
    (hw : isWs w = true) (hA : '>' ∉ A) (hAs : ¬ ['s', 'r', 'c'] <:+: A)
    (hr : plainRef r) (hne : r ≠ []) (hB : '>' ∉ B) (hBs : ¬ ['s', 'r', 'c'] <:+: B)
    (hB0 : ∀ c, B.head? = some c → c = ' ') :
    extractImageUrls (pre ++ imgTagWith A w q r B ++ post) = r :: extractImageUrls post := by
  have hlt : ∃ t, imgTagWith A w q r B ++ post = '<' :: t := ⟨_, by simp [imgTagWith]; rfl⟩
  obtain ⟨t, ht⟩ := hlt
  rw [List.append_assoc, ht, extractImageUrls_skip_gen pre t hpre, ← ht]
  rcases hq with rfl | rfl | rfl
  · rw [extractImageUrls_hit _ _ _ (imgTagWith_ne_nil _ _ _ _ _)
      (first_dq_gen A w r B post hw hA hAs hr hne hB hBs)]
    simp [firstNonEmpty, submatch, List.lookup, hne]
  · rw [extractImageUrls_hit _ _ _ (imgTagWith_ne_nil _ _ _ _ _)
      (first_sq_gen A w r B post hw hA hAs hr hne hB hBs)]
    simp [firstNonEmpty, submatch, List.lookup, hne]
  · rw [extractImageUrls_hit _ _ _ (imgTagWith_ne_nil _ _ _ _ _)
      (first_uq_gen A w r B post hw hA hAs hr hne hB hBs hB0)]
    simp [firstNonEmpty, submatch, List.lookup, hne]

/-! ## The output text -/

theorem foldl_append_flatMap {α : Type} (f : α → Str) : ∀ (l : List α) (buf : Str),
    l.foldl (fun b x => b ++ f x) buf = buf ++ l.flatMap f
  | [], buf => by simp
  | x :: l, buf => by
    rw [List.foldl_cons, foldl_append_flatMap f l, List.flatMap_cons, List.append_assoc]

theorem splitLines_ne_nil : ∀ s : Str, splitLines s ≠ []
  | [] => by simp [splitLines]
  | c :: cs => by
    unfold splitLines
    split
    · simp
    · split <;> simp

theorem splitLines_cons_lf (cs : Str) : splitLines ('\n' :: cs) = [] :: splitLines cs := by
  simp [splitLines]

theorem splitLines_cons_ne (c : Char) (cs : Str) (hc : c ≠ '\n') :
    ∃ line rest, splitLines cs = line :: rest ∧ splitLines (c :: cs) = (c :: line) :: rest := by
  cases h : splitLines cs with
  | nil => exact absurd h (splitLines_ne_nil cs)
  | cons line rest =>
    refine ⟨line, rest, rfl, ?_⟩
    rw [splitLines, if_neg hc, h]

/-- No line of a split text holds a line feed. -/
theorem splitLines_no_lf : ∀ (s : Str), ∀ line ∈ splitLines s, '\n' ∉ line
  | [] => by simp [splitLines]
  | c :: cs => by
    have ih := splitLines_no_lf cs
    by_cases hc : c = '\n'
    · subst hc
      rw [splitLines_cons_lf]
      intro line hl
      rcases List.mem_cons.1 hl with rfl | hl
      · simp
      · exact ih line hl
    · obtain ⟨l0, rest, e1, e2⟩ := splitLines_cons_ne c cs hc
      rw [e2]
      rw [e1] at ih
      intro line hl
      rcases List.mem_cons.1 hl with rfl | hl
      · intro hm
        rcases List.mem_cons.1 hm with e | hm
        · exact hc e.symm
        · exact ih l0 (List.mem_cons_self _ _) hm
      · exact ih line (List.mem_cons_of_mem _ hl)

theorem intercalate_cons_cons (sep x y : Str) (zs : List Str) :
    sep.intercalate (x :: y :: zs) = x ++ sep ++ sep.intercalate (y :: zs) := by
  simp [List.intercalate, List.intersperse]

theorem intercalate_single (sep x : Str) : sep.intercalate [x] = x := by
  simp [List.intercalate, List.intersperse]

/-- Joining the lines of a split text with line feeds gives the text back. -/
theorem intercalate_splitLines : ∀ s : Str, ['\n'].intercalate (splitLines s) = s
  | [] => by simp [splitLines, List.intercalate, List.intersperse]
  | c :: cs => by
    have ih := intercalate_splitLines cs
    by_cases hc : c = '\n'
    · subst hc
      rw [splitLines_cons_lf]
      cases h : splitLines cs with
      | nil => exact absurd h (splitLines_ne_nil cs)
      | cons l0 rest =>
        rw [intercalate_cons_cons, ← h, ih]
        rfl
    · obtain ⟨l0, rest, e1, e2⟩ := splitLines_cons_ne c cs hc
      rw [e2]
      rw [e1] at ih
      cases rest with
      | nil =>
        rw [intercalate_single] at ih ⊢
        rw [ih]
      | cons y zs =>
        rw [intercalate_cons_cons] at ih ⊢
        rw [← ih]
        simp

/-- A line without a line feed, followed by a line feed, is the first piece of the split. -/
theorem splitLines_line : ∀ (line rest : Str), '\n' ∉ line →
    splitLines (line ++ '\n' :: rest) = line :: splitLines rest
  | [], rest, _ => by rw [List.nil_append, splitLines_cons_lf]
  | c :: line, rest, h => by
    have hc : c ≠ '\n' := fun e => h (e ▸ List.mem_cons_self _ _)
    have ih := splitLines_line line rest (fun hm => h (List.mem_cons_of_mem _ hm))
    rw [List.cons_append, splitLines, if_neg hc, ih]

/-- The split of a block of indented lines. -/
theorem splitLines_block : ∀ (lines : List Str), (∀ line ∈ lines, '\n' ∉ line) →
    splitLines (lines.flatMap (fun line => indent6 ++ line ++ ['\n'])) =
      lines.map (fun line => indent6 ++ line) ++ [[]]
  | [], _ => by simp [splitLines]
  | l :: lines, h => by
    have ih := splitLines_block lines (fun x hx => h x (List.mem_cons_of_mem _ hx))
    have hl : '\n' ∉ indent6 ++ l := by
      intro hm
      rcases List.mem_append.1 hm with hm | hm
      · revert hm; decide
      · exact h l (List.mem_cons_self _ _) hm
    rw [List.flatMap_cons, List.append_assoc, List.singleton_append, splitLines_line _ _ hl, ih]
    rfl

/-- The lines of the block written for a content are the lines of the content, each behind
six blanks. -/
theorem blockLines_literalBlock (content : Str) :
    blockLines (literalBlock content) = (splitLines content).map (fun line => indent6 ++ line) := by
  unfold blockLines literalBlock
  rw [splitLines_block _ (splitLines_no_lf content)]
  simp

/-- Reading a written block back gives the content. -/
theorem readBlock_literalBlock (content : Str) : readBlock (literalBlock content) = content := by
  unfold readBlock
  rw [blockLines_literalBlock, List.map_map]
  have : (List.drop 6 ∘ fun line => indent6 ++ line) = (id : Str → Str) := by
    funext line
    simp [indent6]
  rw [this, List.map_id, intercalate_splitLines]

/-- What `writeLiteralField` adds to the buffer: the key line and the block. -/
theorem writeLiteralField_eq (buf fieldName content : Str) :
    writeLiteralField buf fieldName content =
      buf ++ (fieldName ++ blockMarker ++ literalBlock content) := by
  unfold writeLiteralField
  by_cases hc : content = []
  · subst hc
    simp [literalBlock, splitLines, indent6, blockMarker]
  · simp only [hc, if_false]
    rw [foldl_append_flatMap (fun line => [' ', ' ', ' ', ' ', ' ', ' '] ++ line ++ ['\n'])]
    simp [literalBlock, indent6, blockMarker]

/-- The text of one record: its head lines and its seven key lines, each with its block. -/
theorem writeProblem_eq (buf : Str) (problem : TargetProblem) :
    writeProblem buf problem =
      buf ++ (recordHead problem ++
        (fieldKeys.zip (textFields problem)).flatMap
          (fun kc => kc.1 ++ blockMarker ++ literalBlock kc.2)) := by
  unfold writeProblem
  simp only [writeLiteralField_eq]
  rw [foldl_append_flatMap (fun tag => [' ', ' ', ' ', ' ', ' ', ' ', '-', ' '] ++ tag ++ ['\n'])]
  simp [recordHead, fieldKeys, textFields, List.append_assoc]

theorem foldl_writeProblem : ∀ (ps : List TargetProblem) (buf : Str),
    ps.foldl writeProblem buf =
      buf ++ ps.flatMap (fun problem => recordHead problem ++
        (fieldKeys.zip (textFields problem)).flatMap
          (fun kc => kc.1 ++ blockMarker ++ literalBlock kc.2))
  | [], buf => by simp
  | p :: ps, buf => by
    rw [List.foldl_cons, foldl_writeProblem ps, writeProblem_eq, List.flatMap_cons,
      List.append_assoc]

/-! ## The two patterns match alike -/

theorem ms_alt (a b : Re) (s : Str) : ms (.alt a b) s = ms a s ++ ms b s := rfl

theorem ms_cat_congr (a b b' : Re) (h : ∀ s, ms b s = ms b' s) (s : Str) :
    ms (.cat a b) s = ms (.cat a b') s := by
  simp only [ms, h]

/-- Concatenation of expressions is associative for the matcher. -/
theorem ms_cat_assoc (a b c : Re) (s : Str) :
    ms (.cat (.cat a b) c) s = ms (.cat a (.cat b c)) s := by
  simp only [ms, List.flatMap_assoc, List.map_flatMap, List.flatMap_map, List.map_map]
  congr 1
  funext r1
  congr 1
  funext r2
  simp only [List.drop_drop, Function.comp, Nat.add_assoc, List.append_assoc]
  rfl

/-- A sequence of two lists of expressions matches as the two sequences one after the
other. -/
theorem ms_seq_append : ∀ (l1 l2 : List Re), l1 ≠ [] → l2 ≠ [] → ∀ s,
    ms (seq (l1 ++ l2)) s = ms (.cat (seq l1) (seq l2)) s
  | [], _, h, _, _ => absurd rfl h
  | [a], [], _, h, _ => absurd rfl h
  | [a], b :: l2, _, _, _ => rfl
  | a :: a' :: l1, l2, _, h2, s => by
    have ih := ms_seq_append (a' :: l1) l2 (by simp) h2
    have e1 : seq (a :: a' :: l1 ++ l2) = .cat a (seq (a' :: l1 ++ l2)) := rfl
    have e2 : seq (a :: a' :: l1) = .cat a (seq (a' :: l1)) := rfl
    rw [e1, e2, ms_cat_assoc, ms_cat_congr a _ _ ih]

theorem mapCaps_append (f : Nat → Option Nat) (c1 c2 : Caps) :
    mapCaps f (c1 ++ c2) = mapCaps f c1 ++ mapCaps f c2 := by
  simp [mapCaps, List.filterMap_append]

/-- Renumbering the groups of an expression renumbers the captures of its matches and
changes nothing else. -/
theorem ms_mapGrp (f : Nat → Option Nat) : ∀ (re : Re) (s : Str),
    ms (mapGrp f re) s = (ms re s).map (fun r => (r.1, mapCaps f r.2))
  | .lit l, s => by
    simp only [mapGrp, ms]
    split <;> simp [mapCaps]
  | .cls p, s => by
    simp only [mapGrp, ms]
    cases s with
    | nil => rfl
    | cons c cs => simp only []; split <;> simp [mapCaps]
  | .star p, s => by simp [mapGrp, ms, mapCaps, Function.comp]
  | .plus p, s => by
    simp only [mapGrp, ms]
    cases s with
    | nil => rfl
    | cons c cs => simp only []; split <;> simp [mapCaps, Function.comp]
  | .cat a b, s => by
    simp only [mapGrp, ms, ms_mapGrp f a, ms_mapGrp f b, List.flatMap_map, List.map_flatMap,
      List.map_map]
    congr 1
    funext r1
    congr 1
    funext r2
    simp only [Function.comp, mapCaps_append]
  | .alt a b, s => by
    simp only [mapGrp, ms, ms_mapGrp f a, ms_mapGrp f b, List.map_append]
  | .grp i a, s => by
    simp only [mapGrp]
    cases h : f i with
    | none =>
      simp only [ms, ms_mapGrp f a, List.map_map, Function.comp]
      congr 1
      funext r
      simp [mapCaps, List.filterMap_cons, h]
    | some j =>
      simp only [ms, ms_mapGrp f a, List.map_map, Function.comp]
      congr 1
      funext r
      simp [mapCaps, List.filterMap_cons, h]

/-- The scan pattern is the rewrite pattern with the src groups 2, 5, 8 numbered 1, 2, 3
and the other groups taken off: at every place both have the same matches in the same
order of preference, with the same src capture. -/
theorem ms_reScan_eq (s : Str) :
    ms reScan s = (ms reRewrite s).map (fun r => (r.1, mapCaps scanGroup r.2)) := by
  rw [← ms_mapGrp]
  unfold reScan
  rw [ms_alt, ms_alt, ms_seq_append tagHead _ (by simp [tagHead]) (by simp),
    ms_seq_append tagHead _ (by simp [tagHead]) (by simp),
    ms_seq_append tagHead _ (by simp [tagHead]) (by simp)]
  rfl

theorem head_reScan_eq (s : Str) :
    (ms reScan s).head? =
      ((ms reRewrite s).head?).map (fun r => (r.1, mapCaps scanGroup r.2)) := by
  rw [ms_reScan_eq, List.head?_map]

/-- The scan of a text with the scan pattern is its scan with the rewrite pattern, piece
by piece. -/
theorem scan_reScan_eq : ∀ s : Str, scan reScan s = (scan reRewrite s).map toScanPiece := by
  intro s
  induction s using scan_ind reRewrite with
  | hnil => rfl
  | hnone c cs hm ih =>
    rw [scan_cons_none reRewrite c cs hm,
      scan_cons_none reScan c cs (by rw [head_reScan_eq, hm]; rfl), ih]
    rfl
  | hzero c cs caps hm ih =>
    rw [scan_cons_zero reRewrite c cs caps hm,
      scan_cons_zero reScan c cs (mapCaps scanGroup caps) (by rw [head_reScan_eq, hm]; rfl), ih]
    rfl
  | hsucc c cs n caps hm ih =>
    rw [scan_cons_succ reRewrite c cs n caps hm,
      scan_cons_succ reScan c cs n (mapCaps scanGroup caps) (by rw [head_reScan_eq, hm]; rfl),
      ih]
    rfl

/-- The captures of a match of the rewrite pattern have one of three shapes. -/
theorem caps_of_head (w rest : Str) (caps : Caps)
    (h : (ms reRewrite (w ++ rest)).head? = some (w.length, caps)) :
    ∃ a src b, src ≠ [] ∧ (caps = [(1, a), (2, src), (3, b)] ∨
      caps = [(4, a), (5, src), (6, b)] ∨ caps = [(7, a), (8, src), (9, b)]) := by
  obtain ⟨a, src, b, hsrc, _, _, hs⟩ := ms_reRewrite_shape _ _ (List.mem_of_mem_head? h)
  refine ⟨a, src, b, hsrc, ?_⟩
  rcases hs with ⟨h1, _⟩ | ⟨h1, _⟩ | ⟨h1, _⟩
  · exact Or.inl h1
  · exact Or.inr (Or.inl h1)
  · exact Or.inr (Or.inr h1)

/-- The reference that the scan pattern yields for a tag is the src value that the rewrite
pattern captures for it. -/
theorem refOfPiece_toScanPiece (w rest : Str) (caps : Caps)
    (h : (ms reRewrite (w ++ rest)).head? = some (w.length, caps)) :
    refOfPiece (toScanPiece (.hit w caps)) = srcOf caps := by
  obtain ⟨a, src, b, hsrc, hc⟩ := caps_of_head w rest caps h
  rcases hc with rfl | rfl | rfl <;>
    simp [refOfPiece, toScanPiece, mapCaps, scanGroup, srcOf, submatch, firstNonEmpty,
      List.lookup, hsrc]

/-- The key that the callback looks up for a matched tag, read on its own, is the src value
that was captured where the tag stands. -/
theorem srcUrlOf_hit (w rest : Str) (caps : Caps)
    (h : (ms reRewrite (w ++ rest)).head? = some (w.length, caps)) :
    srcUrlOf w = some (srcOf caps) := by
  have hpos : 0 < w.length := ms_reRewrite_pos _ _ (List.mem_of_mem_head? h)
  have hw : w ≠ [] := List.length_pos.1 hpos
  obtain ⟨a, src, b, hsrc, hc⟩ := caps_of_head w rest caps h
  unfold srcUrlOf
  rw [findStringSubmatch_isolated reRewrite w rest caps hw h]
  rcases hc with rfl | rfl | rfl <;> simp [srcOf, submatch, List.lookup, hsrc]

theorem lookupsOfPieces_eq : ∀ ps : List Piece,
    (∀ w caps, Piece.hit w caps ∈ ps →
      ∃ rest, (ms reRewrite (w ++ rest)).head? = some (w.length, caps)) →
    lookupsOfPieces ps = some (ps.filterMap srcOfPiece)
  | [], _ => rfl
  | .chr c :: ps, h => by
    rw [lookupsOfPieces, lookupsOfPieces_eq ps (fun w caps hm => h w caps (List.mem_cons_of_mem _ hm))]
    rfl
  | .hit w caps :: ps, h => by
    obtain ⟨rest, hr⟩ := h w caps (List.mem_cons_self _ _)
    rw [lookupsOfPieces, srcUrlOf_hit w rest caps hr,
      lookupsOfPieces_eq ps (fun w caps hm => h w caps (List.mem_cons_of_mem _ hm))]
    simp only [Option.map_some', List.filterMap_cons, srcOfPiece]
    cases srcOf caps <;> rfl

/-- The references that `extractImageUrls` returns are the src values that the rewrite
pattern captures along the text. -/
theorem extractImageUrls_eq_src (text : Str) :
    extractImageUrls text = (scan reRewrite text).filterMap srcOfPiece := by
  rw [extractImageUrls_eq, scan_reScan_eq, List.filterMap_map]
  apply List.filterMap_congr
  intro p hp
  cases p with
  | chr c => rfl
  | hit w caps =>
    obtain ⟨rest, hr⟩ := scan_hit_first reRewrite text w caps hp
    exact refOfPiece_toScanPiece w rest caps hr

/-- With a mapping that is not nil, the keys looked up are the references found by
`extractImageUrls`. -/
theorem mappingLookups_some (text : Str) (m : Assoc Str Str) :
    mappingLookups text (some m) = some (extractImageUrls text) := by
  unfold mappingLookups
  by_cases ht : text = []
  · subst ht; rfl
  · simp only [ht, if_false]
    rw [lookupsOfPieces_eq _ (fun w caps hm => scan_hit_first reRewrite text w caps hm),
      extractImageUrls_eq_src]

/-! ## Texts of tags, empty mappings, sections -/

/-- A text in which `<img` does not occur holds no reference. -/
theorem extractImageUrls_no_tag (text : Str) (h : ¬ imgStart <:+: text) :
    extractImageUrls text = [] := by
  have hk : ∀ k, k < text.length → ms reScan (text.drop k ++ []) = [] := by
    intro k _
    apply ms_reScan_no_start
    rw [List.append_nil]
    intro hp
    exact h (hp.isInfix.trans (List.drop_suffix k text).isInfix)
  have hs := scan_skip_gen reScan [] text hk
  rw [List.append_nil] at hs
  rw [extractImageUrls_eq, hs, scan_nil, List.append_nil, List.filterMap_eq_nil_iff]
  intro p hp
  simp only [List.mem_map] at hp
  obtain ⟨c, _, rfl⟩ := hp
  rfl

theorem imgStart_infix_lt (text : Str) (h : imgStart <:+: text) : '<' ∈ text := by
  obtain ⟨a, b, rfl⟩ := h
  simp [imgStart]

/-- The references of a text of double-quoted tags are the references of the tags, in
order. -/
theorem extractImageUrls_tagsText : ∀ (items : List (Str × Str)) (sep0 : Str),
    '<' ∉ sep0 → (∀ item ∈ items, item.1 ≠ [] ∧ plainRef item.1 ∧ '<' ∉ item.2) →
    extractImageUrls (tagsText sep0 items) = items.map Prod.fst
  | [], sep0, h0, _ => by
    unfold tagsText
    rw [List.flatMap_nil, List.append_nil]
    exact extractImageUrls_no_tag sep0 (fun hi => h0 (imgStart_infix_lt sep0 hi))
  | item :: items, sep0, h0, h => by
    obtain ⟨hne, hr, hsep⟩ := h item (List.mem_cons_self _ _)
    have ih := extractImageUrls_tagsText items item.2 hsep
      (fun x hx => h x (List.mem_cons_of_mem _ hx))
    unfold tagsText at ih ⊢
    rw [List.flatMap_cons, List.append_assoc, ← List.append_assoc sep0,
      extractImageUrls_tag [dq] sep0 item.1 _ (Or.inl rfl) h0 hr, ih, if_neg hne]
    rfl

/-- Under a mapping without entries every piece stays what it is. -/
theorem rewritePiece_nil (p : Piece) : rewritePiece [] p = pieceText p := by
  cases p with
  | chr c => rfl
  | hit w caps =>
    simp only [rewritePiece, pieceText]
    cases srcOf caps <;> rfl

theorem rewriteSpec_nil (text : Str) : rewriteSpec (some []) text = text := by
  unfold rewriteSpec
  simp only []
  have : rewritePiece [] = pieceText := funext rewritePiece_nil
  rw [this, scan_text]

theorem any_beq_eq (x : Str) (l : List Str) :
    l.any (fun target => x == target) = decide (x ∈ l) := by
  induction l with
  | nil => simp
  | cons a l ih =>
    rw [List.any_cons, ih]
    by_cases h : x = a
    · subst h; simp
    · simp [h]

/-- The loop over the sections returns the text of the first section that matches. -/
theorem findSection_eq (targetTitles : List Str) : ∀ sections : List JVal,
    findSection targetTitles sections =
      ((sections.find? (sectionMatches targetTitles)).map sectionText).getD []
  | [] => rfl
  | sec :: rest => by
    have ih := findSection_eq targetTitles rest
    cases sec with
    | obj secMap =>
      rw [findSection]
      cases hl : secMap.lookup kSectionTitle with
      | none => simp [List.find?_cons, sectionMatches, hl, ih]
      | some v =>
        cases v with
        | str secTitle =>
          simp only [any_beq_eq]
          by_cases hm : secTitle ∈ targetTitles
          · simp [List.find?_cons, sectionMatches, hl, hm, sectionText]
          · simp [List.find?_cons, sectionMatches, hl, hm, ih]
        | null => simp [List.find?_cons, sectionMatches, hl, ih]
        | bool b => simp [List.find?_cons, sectionMatches, hl, ih]
        | num n => simp [List.find?_cons, sectionMatches, hl, ih]
        | arr xs => simp [List.find?_cons, sectionMatches, hl, ih]
        | obj m => simp [List.find?_cons, sectionMatches, hl, ih]
    | null => simp [findSection, List.find?_cons, sectionMatches, ih]
    | bool b => simp [findSection, List.find?_cons, sectionMatches, ih]
    | num n => simp [findSection, List.find?_cons, sectionMatches, ih]
    | str s => simp [findSection, List.find?_cons, sectionMatches, ih]
    | arr xs => simp [findSection, List.find?_cons, sectionMatches, ih]

/-- Which sections match depends on the set of the target titles only. -/
theorem sectionMatches_congr (t1 t2 : List Str) (h : ∀ t, t ∈ t1 ↔ t ∈ t2) :
    sectionMatches t1 = sectionMatches t2 := by
  funext sec
  cases sec with
  | obj secMap =>
    simp only [sectionMatches]
    cases secMap.lookup kSectionTitle with
    | none => rfl
    | some v =>
      cases v with
      | str secTitle => simp only [h secTitle]
      | null => rfl
      | bool b => rfl
      | num n => rfl
      | arr xs => rfl
      | obj m => rfl
  | null => rfl
  | bool b => rfl
  | num n => rfl
  | str s => rfl
  | arr xs => rfl

/-- The mapping of a record whose content holds one reference: that reference with its
local path when its download succeeds, no entry when it fails. -/
theorem downloadAllImages_single (P : Platform) (dl : Str → Bool) (problem : Problem) (u : Str)
    (h : extractImageUrls (allText problem) = [u]) :
    downloadAllImages P dl problem =
      some (if dl u = true then
        [(u, assetsDir ++ fmtInt problem.DisplayID ++ ['/'] ++ generateUniqueFilename P u 0)]
      else []) := by
  unfold downloadAllImages
  simp only [h]
  have hd : [u].dedup = [u] := by simp
  rw [hd]
  by_cases hdl : dl u = true
  · simp [downloadLoop, downloadImage, hdl, mapSet]
  · simp [downloadLoop, downloadImage, hdl]

/-! ## Where a src attribute starts -/

theorem ms_star_cons (p : Char → Bool) (R : Re) (c : Char) (s : Str) (hc : p c = true) :
    ms (.cat (.star p) R) (c :: s) =
      (ms (.cat (.star p) R) s).map (fun r => (1 + r.1, r.2)) ++ ms R (c :: s) := by
  simp only [ms, starLens, hc, if_true, List.map_append, List.flatMap_append, List.map_map,
    List.flatMap_map, List.map_flatMap, List.map_cons, List.map_nil, List.flatMap_cons,
    List.flatMap_nil, List.append_nil, List.drop_zero, List.nil_append, Nat.zero_add]
  congr 1
  · congr 1
    funext n
    simp only [Function.comp, List.drop_succ_cons, List.map_map]
    apply List.map_congr_left
    intro r _
    simp only [Function.comp]
    congr 1
    omega
  · simp

theorem srcAttrAt_of_head (c : Char) (s : Str) (hc : isWs c = false) :
    srcAttrAt (c :: s) = false := by
  match s with
  | [] => rfl
  | [_] => rfl
  | [_, _] => rfl
  | _ :: _ :: _ :: _ => simp [srcAttrAt, hc]

/-- The tag head from `\s` on fails where no src attribute starts. -/
theorem ms_attr_fail (S : Re) : ∀ (s : Str), srcAttrAt s = false →
    ms (.cat (.cls isWs) (.cat (.lit ['s', 'r', 'c'])
      (.cat (.star isWs) (.cat (.lit ['=']) S)))) s = []
  | [], _ => by simp [ms]
  | c :: s, h => by
    by_cases hc : isWs c = true
    · rw [ms_cls_cat _ _ _ _ hc]
      by_cases hp : ['s', 'r', 'c'] <+: s
      · obtain ⟨t, rfl⟩ := hp
        have ht : ((t.dropWhile isWs).head? == some '=') = false := by
          simpa [srcAttrAt, hc] using h
        have key : ∀ u : Str, ((u.dropWhile isWs).head? == some '=') = false →
            ms (.cat (.star isWs) (.cat (.lit ['=']) S)) u = [] := by
          intro u
          induction u with
          | nil => intro _; simp [ms, starLens]
          | cons d u ih =>
            intro hu
            by_cases hd : isWs d = true
            · rw [ms_star_cons _ _ _ _ hd, ih (by simpa [List.dropWhile, hd] using hu),
                ms_lit1_cat_fail '=' d _ _ (by rintro rfl; revert hd; decide)]
              rfl
            · have hd' : isWs d = false := by simpa using hd
              rw [ms_star_stop_cat isWs _ _ (by simp [hd'])]
              apply ms_lit1_cat_fail
              rintro rfl
              simp [List.dropWhile, hd'] at hu
        have e : ['s', 'r', 'c'] ++ t = 's' :: 'r' :: 'c' :: t := rfl
        rw [e, ms_lit3_cat, key t ht]
        rfl
      · rw [ms_lit_cat_fail _ _ _ hp]
        rfl
    · exact ms_cls_cat_fail _ _ _ (by
        intro x hx
        simp only [List.head?_cons, Option.some.injEq] at hx
        subst hx
        simpa using hc)

/-- The run `[^>]*` followed by the rest of the tag head fails on a text in which no src
attribute starts before the first `>`. -/
theorem ms_skip_fail (S : Re) : ∀ (s : Str), attrBeforeGt s = false →
    ms (.cat (.star notGt) (.cat (.cls isWs) (.cat (.lit ['s', 'r', 'c'])
      (.cat (.star isWs) (.cat (.lit ['=']) S))))) s = []
  | [], _ => by simp [ms, starLens]
  | c :: s, h => by
    by_cases hc : c = '>'
    · subst hc
      rw [ms_star_stop_cat notGt _ _ (by simp [notGt])]
      exact ms_attr_fail S _ (srcAttrAt_of_head _ _ (by decide))
    · have hn : notGt c = true := by simpa [notGt] using hc
      simp only [attrBeforeGt, hc, if_false, Bool.or_eq_false_iff] at h
      rw [ms_star_cons _ _ _ _ hn, ms_skip_fail S s h.2, ms_attr_fail S _ h.1]
      rfl

/-- The run `[^>]*` gives back a text without `>` in which no src attribute starts. -/
theorem ms_skip_to (S : Re) (X : Str) : ∀ (A : Str), (∀ c ∈ A, c ≠ '>') →
    (∀ k, k < A.length → srcAttrAt ((A ++ X).drop k) = false) →
    ms (.cat (.star notGt) (.cat (.cls isWs) (.cat (.lit ['s', 'r', 'c'])
      (.cat (.star isWs) (.cat (.lit ['=']) S))))) (A ++ X) =
    (ms (.cat (.star notGt) (.cat (.cls isWs) (.cat (.lit ['s', 'r', 'c'])
      (.cat (.star isWs) (.cat (.lit ['=']) S))))) X).map (fun r => (A.length + r.1, r.2))
  | [], _, _ => by simp
  | a :: A, hA, hk => by
    have hn : notGt a = true := by simpa [notGt] using hA a (List.mem_cons_self _ _)
    have ih := ms_skip_to S X A (fun c hc => hA c (List.mem_cons_of_mem _ hc))
      (fun k hk' => by simpa using hk (k + 1) (by simpa using hk'))
    have h0 : srcAttrAt (a :: (A ++ X)) = false := by simpa using hk 0 (by simp)
    rw [List.cons_append, ms_star_cons _ _ _ _ hn, ih, ms_attr_fail S _ h0, List.append_nil,
      List.map_map]
    apply List.map_congr_left
    intro r _
    simp only [Function.comp, List.length_cons]
    congr 1
    omega

/-- A run of white space in front of a literal character that is not white space is passed
in one way only. -/
theorem ms_ws_run_lit (e : Char) (he : isWs e = false) (S : Re) (s : Str) : ∀ (W : Str),
    (∀ c ∈ W, isWs c = true) →
    ms (.cat (.star isWs) (.cat (.lit [e]) S)) (W ++ e :: s) =
      (ms S s).map (fun r => (W.length + 1 + r.1, r.2))
  | [], _ => by
    rw [List.nil_append, ms_star_stop_cat isWs _ _ (by simp [he]), ms_lit1_cat]
    apply List.map_congr_left
    intro r _
    simp
  | c :: W, hW => by
    have hc : isWs c = true := hW c (List.mem_cons_self _ _)
    have ih := ms_ws_run_lit e he S s W (fun x hx => hW x (List.mem_cons_of_mem _ hx))
    rw [List.cons_append, ms_star_cons _ _ _ _ hc, ih,
      ms_lit1_cat_fail e c _ _ (by rintro rfl; rw [he] at hc; cases hc), List.append_nil,
      List.map_map]
    apply List.map_congr_left
    intro r _
    simp only [Function.comp, List.length_cons]
    congr 1
    omega

/-- A run of white space in front of an expression that fails on white space is passed in
one way only. -/
theorem ms_ws_run (R : Re) (hR : ∀ c s, isWs c = true → ms R (c :: s) = []) (s : Str)
    (hs : ∀ c, s.head? = some c → isWs c = false) : ∀ (W : Str),
    (∀ c ∈ W, isWs c = true) →
    ms (.cat (.star isWs) R) (W ++ s) = (ms R s).map (fun r => (W.length + r.1, r.2))
  | [], _ => by
    rw [List.nil_append, ms_star_stop_cat isWs _ _ hs]
    simp
  | c :: W, hW => by
    have hc : isWs c = true := hW c (List.mem_cons_self _ _)
    have ih := ms_ws_run R hR s hs W (fun x hx => hW x (List.mem_cons_of_mem _ hx))
    rw [List.cons_append, ms_star_cons _ _ _ _ hc, ih, hR c _ hc, List.append_nil, List.map_map]
    apply List.map_congr_left
    intro r _
    simp only [Function.comp, List.length_cons]
    congr 1
    omega

/-- A run of white space in front of an expression that matches behind it: the first match
takes the whole run. -/
theorem ms_ws_run_head (R : Re) (s : Str) (hs : ∀ c, s.head? = some c → isWs c = false)
    (hR : ms R s ≠ []) : ∀ (W : Str), (∀ c ∈ W, isWs c = true) →
    (ms (.cat (.star isWs) R) (W ++ s)).head? =
      ((ms R s).head?).map (fun r => (W.length + r.1, r.2))
  | [], _ => by
    rw [List.nil_append, ms_star_stop_cat isWs _ _ hs]
    cases ms R s with
    | nil => rfl
    | cons x xs => simp
  | c :: W, hW => by
    have hc : isWs c = true := hW c (List.mem_cons_self _ _)
    have ih := ms_ws_run_head R s hs hR W (fun x hx => hW x (List.mem_cons_of_mem _ hx))
    obtain ⟨x, xs, hx⟩ := List.exists_cons_of_ne_nil hR
    rw [hx] at ih
    simp only [List.head?_cons, Option.map_some'] at ih
    rw [List.cons_append, ms_star_cons _ _ _ _ hc, List.head?_append_of_ne_nil]
    · rw [List.head?_map, ih, hx]
      simp only [List.head?_cons, Option.map_some', List.length_cons]
      congr 2
      omega
    · intro hnil
      have := congrArg List.head? hnil
      rw [List.head?_map, ih] at this
      simp at this

/-! ## Src attributes in joined texts -/

theorem srcAttrAt_second (c d : Char) (s : Str) (hd : d ≠ 's') : srcAttrAt (c :: d :: s) = false := by
  match s with
  | [] => rfl
  | [_] => rfl
  | _ :: _ :: _ => simp [srcAttrAt, hd]

theorem head_dropWhile_append (F : Str)
    (hF : ((F.dropWhile isWs).head? == some '=') = false) : ∀ t : Str,
    (((t ++ F).dropWhile isWs).head? == some '=') = ((t.dropWhile isWs).head? == some '=')
  | [] => by simp [hF]
  | e :: t => by
    by_cases he : isWs e = true
    · simpa [List.dropWhile, he] using head_dropWhile_append F hF t
    · have he' : isWs e = false := by simpa using he
      simp [List.dropWhile, he']

/-- Whether a src attribute starts at the front of a text does not depend on what follows
the text, when what follows starts with none of `s`, `r`, `c` and does not run through
white space to a `=`. -/
theorem srcAttrAt_append (F : Str)
    (hF1 : ∀ f, F.head? = some f → f ≠ 's' ∧ f ≠ 'r' ∧ f ≠ 'c')
    (hF2 : ((F.dropWhile isWs).head? == some '=') = false) :
    ∀ Y : Str, Y ≠ [] → srcAttrAt (Y ++ F) = srcAttrAt Y
  | [], h => absurd rfl h
  | [c], _ => by
    cases F with
    | nil => rfl
    | cons f F' => exact srcAttrAt_second c f F' (hF1 f rfl).1
  | [c, a], _ => by
    cases F with
    | nil => rfl
    | cons f F' =>
      cases F' with
      | nil => rfl
      | cons g F'' =>
        have := (hF1 f rfl).2.1
        simp [srcAttrAt, this]
  | [c, a, b], _ => by
    cases F with
    | nil => rfl
    | cons f F' =>
      have := (hF1 f rfl).2.2
      simp [srcAttrAt, this]
  | c :: a :: b :: d :: t, _ => by
    simp only [List.cons_append, srcAttrAt, head_dropWhile_append F hF2 t]

theorem head_dropWhile_mono (Z : Str) : ∀ t : Str,
    ((t.dropWhile isWs).head? == some '=') = true →
    (((t ++ Z).dropWhile isWs).head? == some '=') = true
  | [] => by simp
  | e :: t => by
    by_cases he : isWs e = true
    · simpa [List.dropWhile, he] using head_dropWhile_mono Z t
    · have he' : isWs e = false := by simpa using he
      simp [List.dropWhile, he']

theorem srcAttrAt_mono (Y Z : Str) (h : srcAttrAt Y = true) : srcAttrAt (Y ++ Z) = true := by
  match Y, h with
  | c :: a :: b :: d :: t, h =>
    simp only [srcAttrAt, Bool.and_eq_true] at h
    simp only [List.cons_append, srcAttrAt, Bool.and_eq_true]
    exact ⟨h.1, head_dropWhile_mono Z t h.2⟩

theorem hasSrcAttr_append_right : ∀ (X Y : Str), hasSrcAttr (X ++ Y) = false →
    hasSrcAttr Y = false
  | [], _, h => h
  | c :: X, Y, h => by
    simp only [List.cons_append, hasSrcAttr, Bool.or_eq_false_iff, List.append_eq] at h
    exact hasSrcAttr_append_right X Y h.2

theorem hasSrcAttr_append_left : ∀ (X Y : Str), hasSrcAttr (X ++ Y) = false →
    hasSrcAttr X = false
  | [], _, _ => rfl
  | c :: X, Y, h => by
    simp only [List.cons_append, hasSrcAttr, Bool.or_eq_false_iff, List.append_eq] at h
    simp only [hasSrcAttr, Bool.or_eq_false_iff]
    refine ⟨?_, hasSrcAttr_append_left X Y h.2⟩
    cases e : srcAttrAt (c :: X) with
    | false => rfl
    | true =>
      have := srcAttrAt_mono (c :: X) Y e
      rw [List.cons_append, h.1] at this
      cases this

/-- No src attribute starts in a text without one, whatever follows it, when what follows
starts with none of `s`, `r`, `c` and does not run through white space to a `=`. -/
theorem srcAttrAt_region (F : Str)
    (hF1 : ∀ f, F.head? = some f → f ≠ 's' ∧ f ≠ 'r' ∧ f ≠ 'c')
    (hF2 : ((F.dropWhile isWs).head? == some '=') = false) :
    ∀ (L : Str), hasSrcAttr L = false → ∀ j, j < L.length →
      srcAttrAt ((L ++ F).drop j) = false
  | [], _, j, hj => by simp at hj
  | c :: L, h, 0, _ => by
    simp only [hasSrcAttr, Bool.or_eq_false_iff] at h
    rw [List.drop_zero, srcAttrAt_append F hF1 hF2 (c :: L) (by simp)]
    exact h.1
  | c :: L, h, j + 1, hj => by
    simp only [hasSrcAttr, Bool.or_eq_false_iff] at h
    simpa using srcAttrAt_region F hF1 hF2 L h.2 j (by simpa using hj)

theorem attrBeforeGt_cons (c : Char) (s : Str) (hc : isWs c = false) :
    attrBeforeGt s = false → attrBeforeGt (c :: s) = false := by
  intro h
  simp only [attrBeforeGt, srcAttrAt_of_head c s hc, h, Bool.or_self, ite_self]

/-- A run of white space in front of a text that does not start with `s` adds no start of a
src attribute. -/
theorem attrBeforeGt_wsRun (F : Str) (hF : ∀ f, F.head? = some f → f ≠ 's')
    (h : attrBeforeGt F = false) : ∀ (W : Str), (∀ c ∈ W, isWs c = true) →
    attrBeforeGt (W ++ F) = false
  | [], _ => h
  | c :: W, hW => by
    have ih := attrBeforeGt_wsRun F hF h W (fun x hx => hW x (List.mem_cons_of_mem _ hx))
    have h2 : srcAttrAt (c :: (W ++ F)) = false := by
      cases W with
      | nil =>
        cases F with
        | nil => rfl
        | cons f F' => exact srcAttrAt_second c f F' (hF f rfl)
      | cons d W' =>
        have hd : isWs d = true := hW d (by simp)
        exact srcAttrAt_second c d _ (by rintro rfl; revert hd; decide)
    simp only [List.cons_append, attrBeforeGt, List.append_eq, h2, ih, Bool.or_self, ite_self]

/-- A text without a src attribute in front of a text without one before its first `>`. -/
theorem attrBeforeGt_region (F : Str)
    (hF1 : ∀ f, F.head? = some f → f ≠ 's' ∧ f ≠ 'r' ∧ f ≠ 'c')
    (hF2 : ((F.dropWhile isWs).head? == some '=') = false)
    (h : attrBeforeGt F = false) : ∀ (L : Str), hasSrcAttr L = false →
    attrBeforeGt (L ++ F) = false
  | [], _ => h
  | c :: L, hL => by
    have h0 := srcAttrAt_region F hF1 hF2 (c :: L) hL 0 (by simp)
    simp only [hasSrcAttr, Bool.or_eq_false_iff] at hL
    have ih := attrBeforeGt_region F hF1 hF2 h L hL.2
    simp only [List.drop_zero, List.cons_append] at h0
    simp only [List.cons_append, attrBeforeGt, List.append_eq, h0, ih, Bool.or_self, ite_self]

theorem hasSrcAttr_wsRun : ∀ (W : Str), (∀ c ∈ W, isWs c = true) → hasSrcAttr W = false
  | [], _ => rfl
  | c :: W, hW => by
    have ih := hasSrcAttr_wsRun W (fun x hx => hW x (List.mem_cons_of_mem _ hx))
    have h2 : srcAttrAt (c :: W) = false := by
      cases W with
      | nil => rfl
      | cons d W' =>
        have hd : isWs d = true := hW d (by simp)
        exact srcAttrAt_second c d _ (by rintro rfl; revert hd; decide)
    simp only [hasSrcAttr, h2, ih, Bool.or_self]

/-! ## The head of a pattern on a tag of the general form -/

theorem imgTagAt_eq (A : Str) (w : Char) (W1 W2 q r B post : Str) :
    imgTagAt A w W1 W2 q r B ++ post =
      ['<', 'i', 'm', 'g'] ++ (A ++ w :: 's' :: 'r' :: 'c' :: (W1 ++ '=' ::
        (W2 ++ (q ++ (r ++ (q ++ (B ++ '>' :: post))))))) := by
  simp [imgTagAt]

theorem imgTagAt_length (A : Str) (w : Char) (W1 W2 q r B : Str) :
    (imgTagAt A w W1 W2 q r B).length =
      A.length + W1.length + W2.length + r.length + 2 * q.length + B.length + 10 := by
  simp [imgTagAt]; omega

theorem imgTagAt_ne_nil (A : Str) (w : Char) (W1 W2 q r B : Str) :
    imgTagAt A w W1 W2 q r B ≠ [] := by
  simp [imgTagAt]

/-- The tag head `<img[^>]*\ssrc\s*=` on a tag in which a src attribute starts only at the
white space `w`: it is matched in one way only. -/
theorem ms_head_at (S : Re) (A : Str) (w : Char) (W1 Z : Str) (hw : isWs w = true)
    (hW1 : ∀ c ∈ W1, isWs c = true) (hA : '>' ∉ A) (hAs : hasSrcAttr A = false)
    (hZ : attrBeforeGt ('s' :: 'r' :: 'c' :: (W1 ++ '=' :: Z)) = false) :
    ms (.cat (.lit ['<', 'i', 'm', 'g']) (.cat (.star notGt) (.cat (.cls isWs)
        (.cat (.lit ['s', 'r', 'c']) (.cat (.star isWs) (.cat (.lit ['=']) S))))))
      (['<', 'i', 'm', 'g'] ++ (A ++ w :: 's' :: 'r' :: 'c' :: (W1 ++ '=' :: Z)))
      = (ms S Z).map (fun x => (A.length + W1.length + 9 + x.1, x.2)) := by
  have hwn : notGt w = true := isWs_notGt w hw
  have hsrc := isWs_not_src w hw
  have hreg := srcAttrAt_region (w :: 's' :: 'r' :: 'c' :: (W1 ++ '=' :: Z))
    (by intro f hf; simp only [List.head?_cons, Option.some.injEq] at hf; subst hf; exact hsrc)
    (by
      have hs : isWs 's' = false := by decide
      simp [List.dropWhile, hw, hs]) A hAs
  rw [ms_lit_cat, ms_skip_to S _ A (fun c hc => by rintro rfl; exact hA hc) hreg,
    ms_star_cons _ _ _ _ hwn, ms_skip_fail S _ hZ, List.map_nil, List.nil_append,
    ms_cls_cat _ _ _ _ hw, ms_lit3_cat, ms_ws_run_lit '=' (by decide) S Z W1 hW1]
  simp only [List.map_map]
  apply List.map_congr_left
  intro x _
  simp only [Function.comp, List.length_cons, List.length_nil]
  congr 1
  omega

/-- One alternative of the scan pattern on a tag, the part after the head failing on white
space: the white space behind `=` is passed in one way only. -/
theorem ms_alt_at (R : Re) (hR : ∀ c s, isWs c = true → ms R (c :: s) = [])
    (A : Str) (w : Char) (W1 W2 Body : Str) (hw : isWs w = true)
    (hW1 : ∀ c ∈ W1, isWs c = true) (hW2 : ∀ c ∈ W2, isWs c = true)
    (hA : '>' ∉ A) (hAs : hasSrcAttr A = false)
    (hb : ∀ c, Body.head? = some c → isWs c = false)
    (hZ : attrBeforeGt ('s' :: 'r' :: 'c' :: (W1 ++ '=' :: (W2 ++ Body))) = false) :
    ms (.cat (.lit ['<', 'i', 'm', 'g']) (.cat (.star notGt) (.cat (.cls isWs)
        (.cat (.lit ['s', 'r', 'c']) (.cat (.star isWs) (.cat (.lit ['='])
          (.cat (.star isWs) R)))))))
      (['<', 'i', 'm', 'g'] ++ (A ++ w :: 's' :: 'r' :: 'c' :: (W1 ++ '=' :: (W2 ++ Body))))
      = (ms R Body).map (fun x => (A.length + W1.length + W2.length + 9 + x.1, x.2)) := by
  rw [ms_head_at _ A w W1 _ hw hW1 hA hAs hZ, ms_ws_run R hR Body hb W2 hW2, List.map_map]
  apply List.map_congr_left
  intro x _
  simp only [Function.comp]
  congr 1
  omega

/-- One alternative of the scan pattern on a tag, the part after the head matching the
body: its first match passes all the white space behind `=`. -/
theorem ms_alt_at_head (R : Re) (A : Str) (w : Char) (W1 W2 Body : Str) (hw : isWs w = true)
    (hW1 : ∀ c ∈ W1, isWs c = true) (hW2 : ∀ c ∈ W2, isWs c = true)
    (hA : '>' ∉ A) (hAs : hasSrcAttr A = false)
    (hb : ∀ c, Body.head? = some c → isWs c = false) (hne : ms R Body ≠ [])
    (hZ : attrBeforeGt ('s' :: 'r' :: 'c' :: (W1 ++ '=' :: (W2 ++ Body))) = false) :
    (ms (.cat (.lit ['<', 'i', 'm', 'g']) (.cat (.star notGt) (.cat (.cls isWs)
        (.cat (.lit ['s', 'r', 'c']) (.cat (.star isWs) (.cat (.lit ['='])
          (.cat (.star isWs) R)))))))
      (['<', 'i', 'm', 'g'] ++ (A ++ w :: 's' :: 'r' :: 'c' :: (W1 ++ '=' :: (W2 ++ Body))))).head?
      = ((ms R Body).head?).map
          (fun x => (A.length + W1.length + W2.length + 9 + x.1, x.2)) := by
  rw [ms_head_at _ A w W1 _ hw hW1 hA hAs hZ, List.head?_map,
    ms_ws_run_head R Body hb hne W2 hW2]
  cases (ms R Body).head? with
  | none => rfl
  | some x =>
    simp only [Option.map_some']
    congr 2
    omega

/-- No src attribute starts behind the white space `w` of a quoted tag. -/
theorem region_quoted (q : Char) (hq : q = dq ∨ q = sq) (W1 W2 r B post : Str)
    (hW1 : ∀ c ∈ W1, isWs c = true) (hW2 : ∀ c ∈ W2, isWs c = true)
    (hX : hasSrcAttr (W2 ++ r ++ B) = false) :
    attrBeforeGt ('s' :: 'r' :: 'c' :: (W1 ++ '=' :: (W2 ++ (q :: (r ++ q :: (B ++ '>' :: post))))))
      = false := by
  have hB : hasSrcAttr B = false := hasSrcAttr_append_right _ _ hX
  have hr : hasSrcAttr r = false :=
    hasSrcAttr_append_right _ _ (hasSrcAttr_append_left _ _ hX)
  have hqw : isWs q = false := by rcases hq with rfl | rfl <;> decide
  have hq1 : q ≠ 's' ∧ q ≠ 'r' ∧ q ≠ 'c' := by rcases hq with rfl | rfl <;> decide
  have hq2 : q ≠ '=' := by rcases hq with rfl | rfl <;> decide
  have e0 : attrBeforeGt ('>' :: post) = false := by simp [attrBeforeGt]
  have e1 := attrBeforeGt_region ('>' :: post) (by simp) (by simp [List.dropWhile, isWs]) e0 B hB
  have e2 := attrBeforeGt_cons q _ hqw e1
  have e3 := attrBeforeGt_region (q :: (B ++ '>' :: post))
    (by intro f hf; simp only [List.head?_cons, Option.some.injEq] at hf; subst hf; exact hq1)
    (by simp [List.dropWhile, hqw, hq2]) e2 r hr
  have e4 := attrBeforeGt_cons q _ hqw e3
  have e5 := attrBeforeGt_wsRun _
    (by intro f hf; simp only [List.head?_cons, Option.some.injEq] at hf; subst hf; exact hq1.1)
    e4 W2 hW2
  have e6 := attrBeforeGt_cons '=' _ (by decide) e5
  have e7 := attrBeforeGt_wsRun _
    (by intro f hf; simp only [List.head?_cons, Option.some.injEq] at hf; subst hf; decide)
    e6 W1 hW1
  exact attrBeforeGt_cons 's' _ (by decide) (attrBeforeGt_cons 'r' _ (by decide)
    (attrBeforeGt_cons 'c' _ (by decide) e7))

/-- No src attribute starts behind the white space `w` of an unquoted tag. -/
theorem region_unquoted (W1 W2 r B post : Str) (hW1 : ∀ c ∈ W1, isWs c = true)
    (hX : hasSrcAttr (W2 ++ r ++ B) = false) :
    attrBeforeGt ('s' :: 'r' :: 'c' :: (W1 ++ '=' :: (W2 ++ (r ++ (B ++ '>' :: post))))) = false := by
  have e0 : attrBeforeGt ('>' :: post) = false := by simp [attrBeforeGt]
  have e1 := attrBeforeGt_region ('>' :: post) (by simp) (by simp [List.dropWhile, isWs]) e0 _ hX
  have e : W2 ++ r ++ B ++ '>' :: post = W2 ++ (r ++ (B ++ '>' :: post)) := by simp
  rw [e] at e1
  have e6 := attrBeforeGt_cons '=' _ (by decide) e1
  have e7 := attrBeforeGt_wsRun _
    (by intro f hf; simp only [List.head?_cons, Option.some.injEq] at hf; subst hf; decide)
    e6 W1 hW1
  exact attrBeforeGt_cons 's' _ (by decide) (attrBeforeGt_cons 'r' _ (by decide)
    (attrBeforeGt_cons 'c' _ (by decide) e7))

/-! ## The three quoting styles on a tag of the general form -/

theorem imgTagAt_eq_quoted (q : Char) (A : Str) (w : Char) (W1 W2 r B post : Str) :
    imgTagAt A w W1 W2 [q] r B ++ post =
      ['<', 'i', 'm', 'g'] ++ (A ++ w :: 's' :: 'r' :: 'c' :: (W1 ++ '=' ::
        (W2 ++ (q :: (r ++ q :: (B ++ '>' :: post)))))) := by
  simp [imgTagAt]

theorem imgTagAt_eq_unquoted (A : Str) (w : Char) (W1 W2 r B post : Str) :
    imgTagAt A w W1 W2 [] r B ++ post =
      ['<', 'i', 'm', 'g'] ++ (A ++ w :: 's' :: 'r' :: 'c' :: (W1 ++ '=' ::
        (W2 ++ (r ++ (B ++ '>' :: post))))) := by
  simp [imgTagAt]

theorem ws_ne_quote (c : Char) (hc : isWs c = true) : c ≠ dq ∧ c ≠ sq := by
  constructor <;> (rintro rfl; revert hc; decide)

theorem styleFreeRef_head (r rest : Str) (hr : styleFreeRef r) :
    ∃ c t, r ++ rest = c :: t ∧ isWs c = false ∧ c ≠ dq ∧ c ≠ sq := by
  obtain ⟨hne, hc, h0⟩ := hr
  cases r with
  | nil => exact absurd rfl hne
  | cons c r' =>
    obtain ⟨h1, h2, _, _⟩ := hc c (List.mem_cons_self _ _)
    exact ⟨c, r' ++ rest, rfl, h0 c rfl, h1, h2⟩

/-- The double-quoted tag: the first alternative matches it, with the reference as
group 1. -/
theorem first_dq_at (A : Str) (w : Char) (W1 W2 r B post : Str) (hw : isWs w = true)
    (hW1 : ∀ c ∈ W1, isWs c = true) (hW2 : ∀ c ∈ W2, isWs c = true)
    (hA : '>' ∉ A) (hAs : hasSrcAttr A = false) (hr : styleFreeRef r) (hB : '>' ∉ B)
    (hX : hasSrcAttr (W2 ++ r ++ B) = false) :
    (ms reScan (imgTagAt A w W1 W2 [dq] r B ++ post)).head?
      = some ((imgTagAt A w W1 W2 [dq] r B).length, [(1, r)]) := by
  have hreg := region_quoted dq (Or.inl rfl) W1 W2 r B post hW1 hW2 hX
  rw [ms_reScan, imgTagAt_eq_quoted,
    ms_alt_at (.cat (.lit [dq]) (.cat (.grp 1 (.plus notDq))
        (.cat (.lit [dq]) (.cat (.star notGt) (.lit ['>'])))))
      (fun c s hc => ms_lit1_cat_fail dq c _ _ (ws_ne_quote c hc).1)
      A w W1 W2 _ hw hW1 hW2 hA hAs (by simp; decide) hreg]
  have htail := ms_tail_quoted_gen dq B post hB
  have hcap := ms_grp_plus_cat_head 1 notDq
    (.cat (.lit [dq]) (.cat (.star notGt) (.lit ['>']))) r (dq :: (B ++ '>' :: post)) hr.1
    (fun c hc => by simp [notDq, (hr.2.1 c hc).1]) (by simp [notDq])
    (ne_nil_of_head _ _ htail)
  rw [htail] at hcap
  rw [ms_lit1_cat, List.head?_append_of_ne_nil]
  · simp only [List.head?_map, hcap, imgTagAt_length]
    simp
    omega
  · intro hnil
    have := congrArg List.head? hnil
    simp only [List.head?_map, hcap] at this
    simp at this

/-- The single-quoted tag: the second alternative matches it, with the reference as
group 2. -/
theorem first_sq_at (A : Str) (w : Char) (W1 W2 r B post : Str) (hw : isWs w = true)
    (hW1 : ∀ c ∈ W1, isWs c = true) (hW2 : ∀ c ∈ W2, isWs c = true)
    (hA : '>' ∉ A) (hAs : hasSrcAttr A = false) (hr : styleFreeRef r) (hB : '>' ∉ B)
    (hX : hasSrcAttr (W2 ++ r ++ B) = false) :
    (ms reScan (imgTagAt A w W1 W2 [sq] r B ++ post)).head?
      = some ((imgTagAt A w W1 W2 [sq] r B).length, [(2, r)]) := by
  have hreg := region_quoted sq (Or.inr rfl) W1 W2 r B post hW1 hW2 hX
  rw [ms_reScan, imgTagAt_eq_quoted,
    ms_alt_at (.cat (.lit [dq]) (.cat (.grp 1 (.plus notDq))
        (.cat (.lit [dq]) (.cat (.star notGt) (.lit ['>'])))))
      (fun c s hc => ms_lit1_cat_fail dq c _ _ (ws_ne_quote c hc).1)
      A w W1 W2 _ hw hW1 hW2 hA hAs (by simp; decide) hreg,
    ms_alt_at (.cat (.lit [sq]) (.cat (.grp 2 (.plus notSq))
        (.cat (.lit [sq]) (.cat (.star notGt) (.lit ['>'])))))
      (fun c s hc => ms_lit1_cat_fail sq c _ _ (ws_ne_quote c hc).2)
      A w W1 W2 _ hw hW1 hW2 hA hAs (by simp; decide) hreg]
  have htail := ms_tail_quoted_gen sq B post hB
  have hcap := ms_grp_plus_cat_head 2 notSq
    (.cat (.lit [sq]) (.cat (.star notGt) (.lit ['>']))) r (sq :: (B ++ '>' :: post)) hr.1
    (fun c hc => by simp [notSq, (hr.2.1 c hc).2.1]) (by simp [notSq])
    (ne_nil_of_head _ _ htail)
  rw [htail] at hcap
  rw [ms_lit1_cat_fail dq sq _ _ (by decide), ms_lit1_cat, List.map_nil, List.nil_append,
    List.head?_append_of_ne_nil]
  · simp only [List.head?_map, hcap, imgTagAt_length]
    simp
    omega
  · intro hnil
    have := congrArg List.head? hnil
    simp only [List.head?_map, hcap] at this
    simp at this

/-- The unquoted tag, the text after the reference being empty or starting with a space or a
quote: the third alternative matches it, with the reference as group 3. -/
theorem first_uq_at (A : Str) (w : Char) (W1 W2 r B post : Str) (hw : isWs w = true)
    (hW1 : ∀ c ∈ W1, isWs c = true) (hW2 : ∀ c ∈ W2, isWs c = true)
    (hA : '>' ∉ A) (hAs : hasSrcAttr A = false) (hr : styleFreeRef r) (hB : '>' ∉ B)
    (hB0 : ∀ c, B.head? = some c → c = ' ' ∨ c = dq ∨ c = sq)
    (hX : hasSrcAttr (W2 ++ r ++ B) = false) :
    (ms reScan (imgTagAt A w W1 W2 [] r B ++ post)).head?
      = some ((imgTagAt A w W1 W2 [] r B).length, [(3, r)]) := by
  have hreg := region_unquoted W1 W2 r B post hW1 hX
  obtain ⟨c0, t0, e0, h1, h2, h3⟩ := styleFreeRef_head r (B ++ '>' :: post) hr
  have hb : ∀ c, (r ++ (B ++ '>' :: post)).head? = some c → isWs c = false := by
    rw [e0]
    intro c hc
    simp only [List.head?_cons, Option.some.injEq] at hc
    subst hc; exact h1
  have htail := ms_tail_unquoted_gen B post hB
  have hstopB : ∀ c, (B ++ '>' :: post).head? = some c → unq c = false := by
    intro c hc
    cases B with
    | nil => simp at hc; subst hc; decide
    | cons b B' =>
      simp at hc; subst hc
      rcases hB0 _ rfl with rfl | rfl | rfl <;> decide
  have hcap := ms_grp_plus_cat_head 3 unq
    (.cat (.star notGt) (.lit ['>'])) r (B ++ '>' :: post) hr.1
    (fun c hc => by
      obtain ⟨h2, h3, h5, h4⟩ := hr.2.1 c hc
      simp [unq, h2, h3, h4, h5]) hstopB (ne_nil_of_head _ _ htail)
  rw [htail] at hcap
  have hne : ms (.cat (.grp 3 (.plus unq)) (.cat (.star notGt) (.lit ['>'])))
      (r ++ (B ++ '>' :: post)) ≠ [] := by
    intro hnil
    rw [hnil] at hcap
    simp at hcap
  rw [ms_reScan, imgTagAt_eq_unquoted,
    ms_alt_at (.cat (.lit [dq]) (.cat (.grp 1 (.plus notDq))
        (.cat (.lit [dq]) (.cat (.star notGt) (.lit ['>'])))))
      (fun c s hc => ms_lit1_cat_fail dq c _ _ (ws_ne_quote c hc).1)
      A w W1 W2 _ hw hW1 hW2 hA hAs hb hreg,
    ms_alt_at (.cat (.lit [sq]) (.cat (.grp 2 (.plus notSq))
        (.cat (.lit [sq]) (.cat (.star notGt) (.lit ['>'])))))
      (fun c s hc => ms_lit1_cat_fail sq c _ _ (ws_ne_quote c hc).2)
      A w W1 W2 _ hw hW1 hW2 hA hAs hb hreg]
  have hd : ms (.cat (.lit [dq]) (.cat (.grp 1 (.plus notDq))
      (.cat (.lit [dq]) (.cat (.star notGt) (.lit ['>']))))) (r ++ (B ++ '>' :: post)) = [] := by
    rw [e0]; exact ms_lit1_cat_fail dq c0 _ _ h2
  have hs : ms (.cat (.lit [sq]) (.cat (.grp 2 (.plus notSq))
      (.cat (.lit [sq]) (.cat (.star notGt) (.lit ['>']))))) (r ++ (B ++ '>' :: post)) = [] := by
    rw [e0]; exact ms_lit1_cat_fail sq c0 _ _ h3
  rw [hd, hs, List.map_nil, List.nil_append, List.nil_append,
    ms_alt_at_head _ A w W1 W2 _ hw hW1 hW2 hA hAs hb hne hreg, hcap, imgTagAt_length]
  simp
  omega

/-- The first match of the scan pattern on a tag of the general form, whatever the quoting:
the whole tag, with the reference as the capture of one of the groups 1, 2, 3. -/
theorem first_at (q : Str) (hq : q = [dq] ∨ q = [sq] ∨ q = []) (A : Str) (w : Char)
    (W1 W2 r B post : Str) (hw : isWs w = true)
    (hW1 : ∀ c ∈ W1, isWs c = true) (hW2 : ∀ c ∈ W2, isWs c = true)
    (hA : '>' ∉ A) (hAs : hasSrcAttr A = false) (hr : styleFreeRef r) (hB : '>' ∉ B)
    (hB0 : ∀ c, B.head? = some c → c = ' ' ∨ c = dq ∨ c = sq)
    (hX : hasSrcAttr (W2 ++ r ++ B) = false) :
    ∃ i, (i = 1 ∨ i = 2 ∨ i = 3) ∧ (ms reScan (imgTagAt A w W1 W2 q r B ++ post)).head?
      = some ((imgTagAt A w W1 W2 q r B).length, [(i, r)]) := by
  rcases hq with rfl | rfl | rfl
  · exact ⟨1, Or.inl rfl, first_dq_at A w W1 W2 r B post hw hW1 hW2 hA hAs hr hB hX⟩
  · exact ⟨2, Or.inr (Or.inl rfl), first_sq_at A w W1 W2 r B post hw hW1 hW2 hA hAs hr hB hX⟩
  · exact ⟨3, Or.inr (Or.inr rfl),
      first_uq_at A w W1 W2 r B post hw hW1 hW2 hA hAs hr hB hB0 hX⟩

/-- The references of a text that starts with a tag of the general form: the reference of
the tag, then those of the text after the tag. -/
theorem extractImageUrls_at (q : Str) (hq : q = [dq] ∨ q = [sq] ∨ q = []) (A : Str) (w : Char)
    (W1 W2 r B post : Str) (hw : isWs w = true)
    (hW1 : ∀ c ∈ W1, isWs c = true) (hW2 : ∀ c ∈ W2, isWs c = true)
    (hA : '>' ∉ A) (hAs : hasSrcAttr A = false) (hr : styleFreeRef r) (hB : '>' ∉ B)
    (hB0 : ∀ c, B.head? = some c → c = ' ' ∨ c = dq ∨ c = sq)
    (hX : hasSrcAttr (W2 ++ r ++ B) = false) :
    extractImageUrls (imgTagAt A w W1 W2 q r B ++ post) = r :: extractImageUrls post := by
  obtain ⟨i, hi, h⟩ := first_at q hq A w W1 W2 r B post hw hW1 hW2 hA hAs hr hB hB0 hX
  rw [extractImageUrls_hit _ _ _ (imgTagAt_ne_nil _ _ _ _ _ _ _) h]
  rcases hi with rfl | rfl | rfl <;> simp [firstNonEmpty, submatch, List.lookup, hr.1]

/-! ## Texts that keep to themselves, and the rewrite of a tag -/

/-- A text in which `<img` does not occur keeps to itself. -/
theorem selfContained_plain (pre : Str) (h : ¬ imgStart <:+: pre) : selfContained pre := by
  intro t
  rw [extractImageUrls_skip_gen pre t h, extractImageUrls_no_tag pre h, List.nil_append]

/-- A text that keeps to itself, followed by a tag of the general form and a text in which
`<img` does not occur, keeps to itself. -/
theorem selfContained_tag (pre : Str) (hpre : selfContained pre) (q : Str)
    (hq : q = [dq] ∨ q = [sq] ∨ q = []) (A : Str) (w : Char)
    (W1 W2 r B u : Str) (hw : isWs w = true)
    (hW1 : ∀ c ∈ W1, isWs c = true) (hW2 : ∀ c ∈ W2, isWs c = true)
    (hA : '>' ∉ A) (hAs : hasSrcAttr A = false) (hr : styleFreeRef r) (hB : '>' ∉ B)
    (hB0 : ∀ c, B.head? = some c → c = ' ' ∨ c = dq ∨ c = sq)
    (hX : hasSrcAttr (W2 ++ r ++ B) = false) (hu : ¬ imgStart <:+: u) :
    selfContained (pre ++ imgTagAt A w W1 W2 q r B ++ u) := by
  have hlt : ∀ s, ∃ t', imgTagAt A w W1 W2 q r B ++ s = '<' :: t' :=
    fun s => ⟨_, by simp [imgTagAt]; rfl⟩
  have key : ∀ s, extractImageUrls (pre ++ imgTagAt A w W1 W2 q r B ++ s) =
      extractImageUrls pre ++ r :: extractImageUrls s := by
    intro s
    obtain ⟨t', ht'⟩ := hlt s
    rw [List.append_assoc, ht', hpre t', ← ht',
      extractImageUrls_at q hq A w W1 W2 r B s hw hW1 hW2 hA hAs hr hB hB0 hX]
  intro t
  rw [List.append_assoc, key, key, extractImageUrls_skip_gen u t hu,
    extractImageUrls_no_tag u hu]
  simp

/-- The scan pattern fails on `<img` followed by a text in which no src attribute starts
before the first `>`. -/
theorem ms_reScan_dead (X : Str) (h : attrBeforeGt X = false) :
    ms reScan (['<', 'i', 'm', 'g'] ++ X) = [] := by
  rw [ms_reScan, ms_lit_cat, ms_lit_cat, ms_lit_cat, ms_skip_fail _ X h, ms_skip_fail _ X h,
    ms_skip_fail _ X h]
  rfl

/-- A text that keeps to itself, followed by a tag `<img D>` without a src attribute and
without `<` in `D`, and a text in which `<img` does not occur, keeps to itself. -/
theorem selfContained_dead (pre : Str) (hpre : selfContained pre) (D u : Str)
    (hD : '<' ∉ D) (hDs : hasSrcAttr D = false) (hu : ¬ imgStart <:+: u) :
    selfContained (pre ++ (['<', 'i', 'm', 'g'] ++ D ++ ['>']) ++ u) := by
  have hdead : ∀ s, attrBeforeGt (D ++ '>' :: s) = false := fun s =>
    attrBeforeGt_region ('>' :: s) (by simp) (by simp [List.dropWhile, isWs])
      (by simp [attrBeforeGt]) D hDs
  have hmem : ∀ c ∈ 'i' :: 'm' :: 'g' :: (D ++ ['>']), c ≠ '<' := by
    intro c hc
    simp only [List.mem_cons, List.mem_append, List.mem_singleton, List.not_mem_nil,
      or_false] at hc
    rcases hc with rfl | rfl | rfl | h | rfl
    · decide
    · decide
    · decide
    · rintro rfl; exact hD h
    · decide
  have key : ∀ s, extractImageUrls (pre ++ (['<', 'i', 'm', 'g'] ++ D ++ ['>']) ++ s) =
      extractImageUrls pre ++ extractImageUrls s := by
    intro s
    have e : pre ++ (['<', 'i', 'm', 'g'] ++ D ++ ['>']) ++ s
        = pre ++ '<' :: ('i' :: 'm' :: 'g' :: (D ++ '>' :: s)) := by simp
    rw [e, hpre]
    congr 1
    have h0 : ms reScan ('<' :: 'i' :: 'm' :: 'g' :: (D ++ '>' :: s)) = [] :=
      ms_reScan_dead (D ++ '>' :: s) (hdead s)
    rw [extractImageUrls_eq, scan_cons_none reScan '<' _ (by rw [h0]; rfl), List.filterMap_cons]
    simp only [refOfPiece]
    rw [← extractImageUrls_eq]
    have hk : ∀ k, k < ('i' :: 'm' :: 'g' :: (D ++ ['>'])).length →
        ms reScan (('i' :: 'm' :: 'g' :: (D ++ ['>'])).drop k ++ s) = [] := by
      intro k hk
      apply ms_reScan_no_start
      intro hp
      obtain ⟨c, hc, rest, hr⟩ := drop_head_mem ('i' :: 'm' :: 'g' :: (D ++ ['>'])) s k hk
      rw [← List.drop_append_of_le_length (Nat.le_of_lt hk), hr] at hp
      simp only [List.cons_prefix_cons] at hp
      exact hmem c hc hp.1.symm
    have e2 : 'i' :: 'm' :: 'g' :: (D ++ '>' :: s) = ('i' :: 'm' :: 'g' :: (D ++ ['>'])) ++ s := by
      simp
    rw [e2, extractImageUrls_eq, scan_skip_gen reScan s _ hk, List.filterMap_append,
      ← extractImageUrls_eq]
    have : List.filterMap refOfPiece (List.map Piece.chr ('i' :: 'm' :: 'g' :: (D ++ ['>']))) = [] := by
      rw [List.filterMap_eq_nil_iff]
      intro p hp
      simp only [List.mem_map] at hp
      obtain ⟨c, _, rfl⟩ := hp
      rfl
    rw [this, List.nil_append]
  intro t
  rw [List.append_assoc, key, key, extractImageUrls_skip_gen u t hu,
    extractImageUrls_no_tag u hu]
  simp

/-! ## The rewrite of a tag of the general form -/

theorem rewriteSpec_some (m : Assoc Str Str) (s : Str) :
    rewriteSpec (some m) s = (scan reRewrite s).flatMap (rewritePiece m) := rfl

theorem ms_reRewrite_nil (s : Str) (h : ms reScan s = []) : ms reRewrite s = [] := by
  rw [ms_reScan_eq] at h
  exact List.map_eq_nil_iff.1 h

/-- The first match of the rewrite pattern on a tag of the general form, whatever the
quoting: the whole tag, with the reference as src value. -/
theorem rewrite_first_at (q : Str) (hq : q = [dq] ∨ q = [sq] ∨ q = []) (A : Str) (w : Char)
    (W1 W2 r B post : Str) (hw : isWs w = true)
    (hW1 : ∀ c ∈ W1, isWs c = true) (hW2 : ∀ c ∈ W2, isWs c = true)
    (hA : '>' ∉ A) (hAs : hasSrcAttr A = false) (hr : styleFreeRef r) (hB : '>' ∉ B)
    (hB0 : ∀ c, B.head? = some c → c = ' ' ∨ c = dq ∨ c = sq)
    (hX : hasSrcAttr (W2 ++ r ++ B) = false) :
    ∃ caps, (ms reRewrite (imgTagAt A w W1 W2 q r B ++ post)).head?
      = some ((imgTagAt A w W1 W2 q r B).length, caps) ∧ srcOf caps = some r := by
  obtain ⟨i, hi, h⟩ := first_at q hq A w W1 W2 r B post hw hW1 hW2 hA hAs hr hB hB0 hX
  rw [head_reScan_eq] at h
  cases hh : (ms reRewrite (imgTagAt A w W1 W2 q r B ++ post)).head? with
  | none => rw [hh] at h; cases h
  | some x =>
    rw [hh] at h
    obtain ⟨n, caps⟩ := x
    simp only [Option.map_some', Option.some.injEq, Prod.mk.injEq] at h
    obtain ⟨hn, hc⟩ := h
    subst hn
    refine ⟨caps, rfl, ?_⟩
    obtain ⟨a, src, b, hsrc, hshape⟩ := caps_of_head _ post caps hh
    have e1 := (srcOf_of_shape caps a src b hsrc hshape).1
    rw [e1]
    rcases hshape with rfl | rfl | rfl
    · simp [mapCaps, scanGroup] at hc
      rw [hc.2]
    · simp [mapCaps, scanGroup] at hc
      rw [hc.2]
    · simp [mapCaps, scanGroup] at hc
      rw [hc.2]

/-- The rewrite leaves a text in which `<img` does not occur, in front of a text that starts
with `<`, as it is. -/
theorem rewriteSpec_plain (m : Assoc Str Str) (pre t : Str) (hpre : ¬ imgStart <:+: pre) :
    rewriteSpec (some m) (pre ++ '<' :: t) = pre ++ rewriteSpec (some m) ('<' :: t) := by
  have hk : ∀ k, k < pre.length → ms reRewrite (pre.drop k ++ '<' :: t) = [] := by
    intro k hk
    apply ms_reRewrite_nil
    apply ms_reScan_no_start
    intro hp
    have hne : pre.drop k ≠ [] := by
      intro e
      have := congrArg List.length e
      simp only [List.length_drop, List.length_nil] at this
      omega
    have h1 := no_tag_start t (pre.drop k) hne hp
    exact hpre (h1.isInfix.trans (List.drop_suffix k pre).isInfix)
  simp only [rewriteSpec]
  rw [scan_skip_gen reRewrite _ pre hk, List.flatMap_append]
  congr 1
  induction pre with
  | nil => rfl
  | cons c pre ih =>
    simp only [List.map_cons, List.flatMap_cons, rewritePiece, List.singleton_append]
    congr 1
    have : List.flatMap (List.map Piece.chr pre) (rewritePiece m) = pre := by
      clear ih hk hpre
      induction pre with
      | nil => rfl
      | cons d pre ih2 => simp [List.flatMap_cons, rewritePiece, ih2]
    exact this

/-- The rewrite leaves a text in which `<img` does not occur as it is. -/
theorem rewriteSpec_no_tag (m : Assoc Str Str) (u : Str) (hu : ¬ imgStart <:+: u) :
    rewriteSpec (some m) u = u := by
  have hk : ∀ k, k < u.length → ms reRewrite (u.drop k ++ []) = [] := by
    intro k _
    apply ms_reRewrite_nil
    apply ms_reScan_no_start
    rw [List.append_nil]
    intro hp
    exact hu (hp.isInfix.trans (List.drop_suffix k u).isInfix)
  have hs := scan_skip_gen reRewrite [] u hk
  rw [List.append_nil] at hs
  simp only [rewriteSpec]
  rw [hs, scan_nil, List.append_nil]
  clear hs hk hu
  induction u with
  | nil => rfl
  | cons d u ih => simp [List.flatMap_cons, rewritePiece, ih]

/-- The rewrite of a text that runs up to a tag of the general form, without `<img` before
it: the text before stays, the tag becomes the path stored for its reference or stays when
the reference is no key, and the rewrite goes on behind the tag. -/
theorem rewriteSpec_at (m : Assoc Str Str) (q : Str) (hq : q = [dq] ∨ q = [sq] ∨ q = [])
    (pre A : Str) (w : Char) (W1 W2 r B post : Str) (hpre : ¬ imgStart <:+: pre)
    (hw : isWs w = true)
    (hW1 : ∀ c ∈ W1, isWs c = true) (hW2 : ∀ c ∈ W2, isWs c = true)
    (hA : '>' ∉ A) (hAs : hasSrcAttr A = false) (hr : styleFreeRef r) (hB : '>' ∉ B)
    (hB0 : ∀ c, B.head? = some c → c = ' ' ∨ c = dq ∨ c = sq)
    (hX : hasSrcAttr (W2 ++ r ++ B) = false) :
    rewriteSpec (some m) (pre ++ imgTagAt A w W1 W2 q r B ++ post) =
      pre ++ (m.lookup r).getD (imgTagAt A w W1 W2 q r B) ++ rewriteSpec (some m) post := by
  have hlt : ∃ t', imgTagAt A w W1 W2 q r B ++ post = '<' :: t' :=
    ⟨_, by simp [imgTagAt]; rfl⟩
  obtain ⟨t', ht'⟩ := hlt
  obtain ⟨caps, hh, hsrc⟩ :=
    rewrite_first_at q hq A w W1 W2 r B post hw hW1 hW2 hA hAs hr hB hB0 hX
  have e1 : rewriteSpec (some m) (imgTagAt A w W1 W2 q r B ++ post) =
      (m.lookup r).getD (imgTagAt A w W1 W2 q r B) ++ rewriteSpec (some m) post := by
    rw [rewriteSpec_some, rewriteSpec_some,
      scan_hit reRewrite _ post caps (imgTagAt_ne_nil _ _ _ _ _ _ _) hh, List.flatMap_cons]
    simp only [rewritePiece, hsrc]
  rw [List.append_assoc, ht', rewriteSpec_plain m pre t' hpre, ← ht', e1, List.append_assoc]

/-! ## Base name and extension -/

theorem dropWhile_append_all (p : Char → Bool) : ∀ (l1 l2 : Str), (∀ c ∈ l1, p c = true) →
    (l1 ++ l2).dropWhile p = l2.dropWhile p
  | [], _, _ => rfl
  | c :: l1, l2, h => by
    rw [List.cons_append, List.dropWhile_cons, if_pos (h c (List.mem_cons_self _ _))]
    exact dropWhile_append_all p l1 l2 (fun x hx => h x (List.mem_cons_of_mem _ hx))

theorem takeWhile_append_all (p : Char → Bool) : ∀ (l1 l2 : Str), (∀ c ∈ l1, p c = true) →
    (∀ c, l2.head? = some c → p c = false) → (l1 ++ l2).takeWhile p = l1
  | [], l2, _, h2 => by
    cases l2 with
    | nil => rfl
    | cons c l2 => simp [List.takeWhile, h2 c rfl]
  | c :: l1, l2, h, h2 => by
    rw [List.cons_append, List.takeWhile_cons, if_pos (h c (List.mem_cons_self _ _))]
    congr 1
    exact takeWhile_append_all p l1 l2 (fun x hx => h x (List.mem_cons_of_mem _ hx)) h2

theorem dropWhile_stop (p : Char → Bool) (l : Str) (h : ∀ c, l.head? = some c → p c = false) :
    l.dropWhile p = l := by
  cases l with
  | nil => rfl
  | cons c l => simp [List.dropWhile, h c rfl]

/-- The library call `filepath.Base` on a path without volume name: the last element, the
part behind the last separator, after the separators at the end are taken off. -/
theorem Base_last (P : Platform) (dir name seps : Str) (hne : name ≠ [])
    (hn : ∀ c ∈ name, P.isPathSeparator c = false)
    (hs : ∀ c ∈ seps, P.isPathSeparator c = true)
    (hd : ∀ c, dir.getLast? = some c → P.isPathSeparator c = true)
    (hv : P.volumeNameLen (dir ++ name) = 0) :
    Base P (dir ++ name ++ seps) = name := by
  have hpath : dir ++ name ++ seps ≠ [] := by
    intro h
    exact hne (List.append_eq_nil.1 (List.append_eq_nil.1 h).1).2
  have hlast : ∀ c, (name.reverse ++ dir.reverse).head? = some c →
      P.isPathSeparator c = false := by
    intro c hc
    cases hr : name.reverse with
    | nil => exact absurd (List.reverse_eq_nil_iff.1 hr) hne
    | cons x xs =>
      rw [hr] at hc
      simp only [List.cons_append, List.head?_cons, Option.some.injEq] at hc
      subst hc
      exact hn x (by rw [← List.mem_reverse, hr]; exact List.mem_cons_self _ _)
  have e1 : List.rdropWhile P.isPathSeparator (dir ++ name ++ seps) = dir ++ name := by
    unfold List.rdropWhile
    rw [List.reverse_append, List.reverse_append,
      dropWhile_append_all _ _ _ (fun c hc => hs c (List.mem_reverse.1 hc)),
      dropWhile_stop _ _ hlast]
    simp
  have e2 : List.rtakeWhile (fun c => !P.isPathSeparator c) (dir ++ name) = name := by
    unfold List.rtakeWhile
    rw [List.reverse_append,
      takeWhile_append_all _ _ _ (fun c hc => by simp [hn c (List.mem_reverse.1 hc)])
        (fun c hc => by
          rw [List.head?_reverse] at hc
          simp [hd c hc])]
    simp
  simp only [Base, hpath, if_false, e1, hv, List.drop_zero, e2, hne]

/-- The library call `filepath.Base` on a path of separators only. -/
theorem Base_seps (P : Platform) (seps : Str) (hne : seps ≠ [])
    (hs : ∀ c ∈ seps, P.isPathSeparator c = true) : Base P seps = [P.separator] := by
  have e1 : List.rdropWhile P.isPathSeparator seps = [] := by
    unfold List.rdropWhile
    have := dropWhile_append_all P.isPathSeparator seps.reverse []
      (fun c hc => hs c (List.mem_reverse.1 hc))
    rw [List.append_nil] at this
    rw [this]
    rfl
  simp [Base, hne, e1, List.rtakeWhile]

theorem extAux_walk (P : Platform) (rest : Str) : ∀ (x acc : Str),
    (∀ c ∈ x, c ≠ '.' ∧ P.isPathSeparator c = false) →
    extAux P (x ++ rest) acc = extAux P rest (x.reverse ++ acc)
  | [], _, _ => rfl
  | c :: x, acc, h => by
    obtain ⟨h1, h2⟩ := h c (List.mem_cons_self _ _)
    rw [List.cons_append, extAux]
    simp only [h2, h1, if_false]
    rw [extAux_walk P rest x (c :: acc) (fun y hy => h y (List.mem_cons_of_mem _ hy))]
    simp

/-- The library call `filepath.Ext`: the part from the last dot of the last element on. -/
theorem Ext_dot (P : Platform) (stem e : Str) (hdot : P.isPathSeparator '.' = false)
    (he : ∀ c ∈ e, c ≠ '.' ∧ P.isPathSeparator c = false) :
    Ext P (stem ++ '.' :: e) = '.' :: e := by
  unfold Ext
  rw [List.reverse_append, List.reverse_cons, List.append_assoc,
    extAux_walk P _ e.reverse [] (fun c hc => he c (List.mem_reverse.1 hc))]
  simp [extAux, hdot]

/-- The library call `filepath.Ext` on a path whose last element holds no dot. -/
theorem Ext_none (P : Platform) (dir name : Str)
    (hn : ∀ c ∈ name, c ≠ '.' ∧ P.isPathSeparator c = false)
    (hd : ∀ c, dir.getLast? = some c → P.isPathSeparator c = true) :
    Ext P (dir ++ name) = [] := by
  unfold Ext
  rw [List.reverse_append,
    extAux_walk P _ name.reverse [] (fun c hc => hn c (List.mem_reverse.1 hc))]
  cases hr : dir.reverse with
  | nil => rfl
  | cons c rest =>
    have : dir.getLast? = some c := by
      rw [← List.head?_reverse, hr]; rfl
    simp [extAux, hd c this]

theorem trimSuffix_self (stem ext : Str) : trimSuffix (stem ++ ext) ext = stem := by
  have h := trimSuffix_append (stem ++ ext) ext (List.suffix_append stem ext)
  exact List.append_cancel_right h

/-! ## The text that the localizer reads -/

theorem foldl_sections (f : Str → JVal → Str)
    (hf : ∀ acc sec, f acc sec = acc ++ sectionText sec) (secs : List JVal) : ∀ (acc : Str),
    secs.foldl f acc = acc ++ secs.flatMap sectionText := by
  induction secs with
  | nil => intro acc; simp
  | cons sec secs ih =>
    intro acc
    rw [List.foldl_cons, ih, hf, List.flatMap_cons, List.append_assoc]

/-- The text that `downloadAllImages` collects is the texts of the content sections, one
after the other. -/
theorem allText_eq (problem : Problem) (secs : List JVal)
    (h : problem.LocalizedContentsOfLocale.lookup kContentSections = some (.arr secs)) :
    allText problem = secs.flatMap sectionText := by
  unfold allText
  rw [h]
  simp only []
  rw [foldl_sections _ (fun acc sec => by cases sec <;> simp [sectionText]) secs []]
  rfl

theorem allText_none (problem : Problem)
    (h : ∀ secs, problem.LocalizedContentsOfLocale.lookup kContentSections ≠ some (.arr secs)) :
    allText problem = [] := by
  unfold allText
  split
  · rename_i secs hs; exact absurd hs (h secs)
  · rfl

/-! ## The callback and the keys it looks up -/

/-- The callback of the rewrite returns what the mapping stores under the key it looks up,
and the matched text when it looks nothing up or finds nothing. -/
theorem rewriteTag_eq (m : Assoc Str Str) (w : Str) :
    rewriteTag m w = (srcUrlOf w).map (fun k => ((k.bind (fun src => m.lookup src)).getD w)) := by
  unfold rewriteTag srcUrlOf
  cases findStringSubmatch reRewrite w with
  | none => rfl
  | some caps =>
    simp only []
    split
    · simp only [Option.map_some', Option.some_bind]
      cases List.lookup (submatch caps 2) m <;> rfl
    · split
      · simp only [Option.map_some', Option.some_bind]
        cases List.lookup (submatch caps 5) m <;> rfl
      · split
        · simp only [Option.map_some', Option.some_bind]
          cases List.lookup (submatch caps 8) m <;> rfl
        · rfl

theorem flatMap_congr_mem {α β : Type} (f g : α → List β) : ∀ l : List α,
    (∀ a ∈ l, f a = g a) → l.flatMap f = l.flatMap g
  | [], _ => rfl
  | a :: l, h => by
    rw [List.flatMap_cons, List.flatMap_cons, h a (List.mem_cons_self _ _),
      flatMap_congr_mem f g l (fun x hx => h x (List.mem_cons_of_mem _ hx))]

/-- The rewrite with a mapping that is not nil replaces, along the scan of the text with the
scan pattern, each tag by what the mapping stores under the reference that
`extractImageUrls` takes from it. -/
theorem replace_eq_rewriteByRef (text : Str) (m : Assoc Str Str) :
    replaceImageTagsWithRelativePath text (some m) =
      some ((scan reScan text).flatMap (rewriteByRef m)) := by
  rw [replace_eq_rewriteSpec, rewriteSpec_some, scan_reScan_eq, List.flatMap_map]
  congr 1
  apply flatMap_congr_mem
  intro p hp
  cases p with
  | chr c => rfl
  | hit w caps =>
    obtain ⟨rest, hr⟩ := scan_hit_first reRewrite text w caps hp
    have e := refOfPiece_toScanPiece w rest caps hr
    show rewritePiece m (.hit w caps) = rewriteByRef m (toScanPiece (.hit w caps))
    unfold rewriteByRef
    rw [e]
    simp only [rewritePiece, toScanPiece, pieceText]
    cases srcOf caps <;> rfl

/-! ## The files that the downloads leave -/

/-- The filename that `downloadImage` returns does not depend on what it writes: it is
returned exactly when the download succeeds. -/
theorem downloadImageOn_fst (P : Platform) (W : World) (url problemID : Str) (index : Int)
    (files : Files) :
    (downloadImageOn P W url problemID index files).1 =
      downloadImage P (succeedsOn P W problemID) url problemID index := by
  unfold downloadImageOn downloadImage downloadFileOn succeedsOn
  have e : generateUniqueFilename P url index = generateUniqueFilename P url 0 := rfl
  simp only [e]
  cases W.mkdirAll (W.dir (W.join [AssetsFolder, problemID, generateUniqueFilename P url 0]))
  · simp
  · cases W.get url with
    | none => simp
    | some body =>
      cases W.create (W.join [AssetsFolder, problemID, generateUniqueFilename P url 0])
      · simp
      · cases W.copyFails url <;> simp

/-- The mapping that the download loop builds while it writes files is the mapping of the
loop without files, for the downloads that succeed. -/
theorem downloadLoopOn_fst (P : Platform) (W : World) (problemID : Str) :
    ∀ (keys : List Str) (index : Int) (m : Assoc Str Str) (files : Files),
      (downloadLoopOn P W problemID keys index m files).1 =
        downloadLoop P (succeedsOn P W problemID) problemID keys index m
  | [], _, _, _ => rfl
  | url :: rest, index, m, files => by
    have h := downloadImageOn_fst P W url problemID index files
    unfold downloadLoopOn downloadLoop
    rw [← h]
    cases hd : downloadImageOn P W url problemID index files with
    | mk o files' =>
      cases o with
      | none => simp only []; exact downloadLoopOn_fst P W problemID rest _ _ _
      | some filename => simp only []; exact downloadLoopOn_fst P W problemID rest _ _ _

/-- A download that succeeds stores the body under the save path, in place of what was
stored there. -/
theorem downloadImageOn_ok (P : Platform) (W : World) (url problemID : Str) (index : Int)
    (files : Files) (body : Str)
    (hm : W.mkdirAll (W.dir (W.join [AssetsFolder, problemID, generateUniqueFilename P url 0]))
      = true)
    (hg : W.get url = some body)
    (hc : W.create (W.join [AssetsFolder, problemID, generateUniqueFilename P url 0]) = true)
    (hf : W.copyFails url = none) :
    downloadImageOn P W url problemID index files =
      (some (generateUniqueFilename P url 0),
        mapSet (W.join [AssetsFolder, problemID, generateUniqueFilename P url 0]) body files) := by
  have e : generateUniqueFilename P url index = generateUniqueFilename P url 0 := rfl
  simp only [downloadImageOn, downloadFileOn, e, hm, hg, hc, hf, if_true]

/-! ## The scenario of display id 5 -/

theorem Ext_a_png (P : Platform)
    (hn : ∀ c ∈ ['a', '.', 'p', 'n', 'g'], P.isPathSeparator c = false) :
    Ext P ['a', '.', 'p', 'n', 'g'] = ['.', 'p', 'n', 'g'] := by
  simp [Ext, extAux, hn]

/-- C1. `replaceImageTagsWithRelativePath` never panics.  It cuts the text at the successive
matches of the rewrite pattern (the pieces, put together, are the text) and returns the text
in which every matched tag whose captured src value is a key of the mapping is replaced,
whole, by the mapped path, while every other matched tag and every character outside the
matched tags is kept as it is.  Each matched tag is `a ++ q ++ src ++ q ++ b`: `a` starts
with `<img`, `q` is a double quote, a single quote or nothing, `src` is the captured value,
which is not empty, and `b` ends with `>`.  With the nil mapping the text is returned
unchanged.  The tags are found: a text without `<img` comes back as it is, and in a text
that runs without `<img` up to a tag `<img` A w `src` W1 `=` W2 Q r Q B `>` of any of the
three styles, the tag is replaced by the path stored under `r`, or kept when `r` is no key,
and the rewrite goes on behind the tag.  On the text
`x <img src="a.png"> y <img class=x src='b.png' alt="fig"> z <img src=c.png>.` the mapping
with the keys `a.png` and `c.png` replaces the first and third tag, the mapping with the key
`b.png` the second. -/
theorem replaceImageTags_rewrites_each_tag (text : Str) (m : Assoc Str Str) :
    (scan reRewrite text).flatMap pieceText = text ∧
    replaceImageTagsWithRelativePath text (some m)
      = some ((scan reRewrite text).flatMap (rewritePiece m)) ∧
    replaceImageTagsWithRelativePath text none = some text ∧
    (∀ w caps, Piece.hit w caps ∈ scan reRewrite text →
      ∃ a q src b, (q = [dq] ∨ q = [sq] ∨ q = []) ∧ src ≠ [] ∧
        w = a ++ q ++ src ++ q ++ b ∧ ['<', 'i', 'm', 'g'] <+: a ∧ b.getLast? = some '>' ∧
        srcOf caps = some src ∧
        rewritePiece m (.hit w caps) = (m.lookup src).getD w) ∧
    (∀ u : Str, ¬ imgStart <:+: u → replaceImageTagsWithRelativePath u (some m) = some u) ∧
    (∀ (q pre A : Str) (w : Char) (W1 W2 r B post : Str),
      (q = [dq] ∨ q = [sq] ∨ q = []) → ¬ imgStart <:+: pre → isWs w = true →
      (∀ c ∈ W1, isWs c = true) → (∀ c ∈ W2, isWs c = true) →
      '>' ∉ A → hasSrcAttr A = false → styleFreeRef r → '>' ∉ B →
      (∀ c, B.head? = some c → c = ' ' ∨ c = dq ∨ c = sq) →
      hasSrcAttr (W2 ++ r ++ B) = false →
      replaceImageTagsWithRelativePath (pre ++ imgTagAt A w W1 W2 q r B ++ post) (some m) =
        (replaceImageTagsWithRelativePath post (some m)).map (fun rest =>
          pre ++ (m.lookup r).getD (imgTagAt A w W1 W2 q r B) ++ rest)) ∧
    replaceImageTagsWithRelativePath threeTags (some mapAC) =
      some (['x', ' '] ++ ['P', '1'] ++ [' ', 'y', ' '] ++
        imgTagWith attrBefore ' ' [sq] refB attrAfter ++ [' ', 'z', ' '] ++ ['P', '3'] ++ ['.']) ∧
    replaceImageTagsWithRelativePath threeTags (some mapB) =
      some (['x', ' '] ++ imgTag [dq] refPng ++ [' ', 'y', ' '] ++ ['P', '2'] ++
        [' ', 'z', ' '] ++ imgTag [] refC ++ ['.']) := by
  refine ⟨scan_text reRewrite text, ?_, ?_, ?_, ?_, ?_, by decide, by decide⟩
  · rw [replace_eq_rewriteSpec]; rfl
  · rw [replace_eq_rewriteSpec]; rfl
  rotate_left
  · intro u hu
    rw [replace_eq_rewriteSpec, rewriteSpec_no_tag m u hu]
  · intro q pre A w W1 W2 r B post hq hpre hw hW1 hW2 hA hAs hr hB hB0 hX
    rw [replace_eq_rewriteSpec, replace_eq_rewriteSpec,
      rewriteSpec_at m q hq pre A w W1 W2 r B post hpre hw hW1 hW2 hA hAs hr hB hB0 hX]
    rfl
  · intro w caps hmem
    obtain ⟨rest, hfirst⟩ := scan_hit_first reRewrite text w caps hmem
    obtain ⟨a, src, b, hsrc, ha, ⟨b', hb, _⟩, hs⟩ :=
      ms_reRewrite_shape _ _ (List.mem_of_mem_head? hfirst)
    have hlast : b.getLast? = some '>' := by rw [hb]; simp
    have htake : (w ++ rest).take w.length = w := List.take_left' rfl
    have hc : caps = [(1, a), (2, src), (3, b)] ∨ caps = [(4, a), (5, src), (6, b)] ∨
        caps = [(7, a), (8, src), (9, b)] := by
      rcases hs with ⟨h1, _⟩ | ⟨h1, _⟩ | ⟨h1, _⟩
      · exact Or.inl h1
      · exact Or.inr (Or.inl h1)
      · exact Or.inr (Or.inr h1)
    obtain ⟨e1, _⟩ := srcOf_of_shape caps a src b hsrc hc
    have hrw : rewritePiece m (.hit w caps) = (m.lookup src).getD w := by
      simp only [rewritePiece, e1]
    rcases hs with ⟨_, h2⟩ | ⟨_, h2⟩ | ⟨_, h2⟩
    · exact ⟨a, [dq], src, b, Or.inl rfl, hsrc, by rw [← htake]; exact h2, ha, hlast, e1, hrw⟩
    · exact ⟨a, [sq], src, b, Or.inr (Or.inl rfl), hsrc, by rw [← htake]; exact h2, ha, hlast,
        e1, hrw⟩
    · exact ⟨a, [], src, b, Or.inr (Or.inr rfl), hsrc,
        by rw [← htake]; simpa using h2, ha, hlast, e1, hrw⟩

/-- C2, as stated, fails, in the reference, in the rest of the tag and in the surrounding
text; each case breaks one condition of the amended claim.  The references `a b` and `a>b`
hold no quote, yet the double-quoted tag yields the whole reference and the unquoted tag
yields `a`.  The reference tab, `x` starts with white space and the unquoted tag yields `x`.
In the reference `a`, tab, `src=` a src attribute starts, and with `x">` after the tag the
two styles differ.  With `/` right after the src value the unquoted tag of `r` yields `r/`.
With an empty reference and the attribute ` alt=x` the unquoted tag yields `alt=x` and the
double-quoted tag nothing.  With a second src attribute, ` src='z'` behind or ` src="z"` in
front, the double-quoted tag yields `r` and the single-quoted tag `z`.  And the open text
`<img src="` does not keep to itself: after it the double-quoted tag of `r` yields `r` and
the single-quoted tag yields the whole tag. -/
theorem quoting_styles_differ :
    (dq ∉ refSpace ∧ sq ∉ refSpace ∧ ' ' ∈ refSpace ∧
      extractImageUrls (imgTagAt [] ' ' [] [] [dq] refSpace []) = [refSpace] ∧
      extractImageUrls (imgTagAt [] ' ' [] [] [] refSpace []) = [['a']]) ∧
    (dq ∉ refGt ∧ sq ∉ refGt ∧ '>' ∈ refGt ∧
      extractImageUrls (imgTagAt [] ' ' [] [] [dq] refGt []) = [refGt] ∧
      extractImageUrls (imgTagAt [] ' ' [] [] [] refGt []) = [['a']]) ∧
    (dq ∉ refLead ∧ sq ∉ refLead ∧ refLead.head? = some '\t' ∧ isWs '\t' = true ∧
      extractImageUrls (imgTagAt [] ' ' [] [] [dq] refLead []) = [refLead] ∧
      extractImageUrls (imgTagAt [] ' ' [] [] [] refLead []) = [['x']]) ∧
    (dq ∉ refTab ∧ sq ∉ refTab ∧ hasSrcAttr refTab = true ∧
      extractImageUrls (imgTagAt [] ' ' [] [] [dq] refTab [] ++ ['x', dq, '>']) = [['>', 'x']] ∧
      extractImageUrls (imgTagAt [] ' ' [] [] [] refTab [] ++ ['x', dq, '>']) = [refTab]) ∧
    (extractImageUrls (imgTagAt [] ' ' [] [] [dq] ['r'] ['/']) = [['r']] ∧
      extractImageUrls (imgTagAt [] ' ' [] [] [] ['r'] ['/']) = [['r', '/']]) ∧
    (extractImageUrls (imgTagAt [] ' ' [] [] [dq] [] attrAlt) = [] ∧
      extractImageUrls (imgTagAt [] ' ' [] [] [] [] attrAlt) = [['a', 'l', 't', '=', 'x']]) ∧
    (hasSrcAttr (['r'] ++ attrSrc) = true ∧
      extractImageUrls (imgTagAt [] ' ' [] [] [dq] ['r'] attrSrc) = [['r']] ∧
      extractImageUrls (imgTagAt [] ' ' [] [] [sq] ['r'] attrSrc) = [['z']]) ∧
    (hasSrcAttr attrSrcDq = true ∧
      extractImageUrls (imgTagAt attrSrcDq ' ' [] [] [dq] ['r'] []) = [['r']] ∧
      extractImageUrls (imgTagAt attrSrcDq ' ' [] [] [sq] ['r'] []) = [['z']]) ∧
    (¬ selfContained openTag ∧
      extractImageUrls (openTag ++ imgTagAt [] ' ' [] [] [dq] ['r'] [] ++ [dq, '>']) = [['r']] ∧
      extractImageUrls (openTag ++ imgTagAt [] ' ' [] [] [sq] ['r'] [] ++ [dq, '>']) = [imgTagAt [] ' ' [] [] [sq] ['r'] []]) := by
  refine ⟨by decide, by decide, by decide, by decide, by decide, by decide, by decide,
    by decide, ?_, by decide, by decide⟩
  intro h
  have h1 := h (['i', 'm', 'g', ' ', 's', 'r', 'c', '=', sq, 'r', sq, '>', dq, '>'])
  revert h1
  decide

/-- C2, amended.  Take a tag `<img` A w `src` W1 `=` W2 Q r Q B `>`: `w` is a white-space
character, `W1` and `W2` are white space, `A` and `B` hold no `>`, and `B` is empty or starts
with a space or a quote.  Let the reference `r` be not empty, hold no quote, space or `>` and
not start with white space; let no src attribute (white space, `src`, white space or none,
`=`) start in `A` nor in `W2 r B`; and let the text before the tag keep to itself: followed by
any text that starts with `<`, it yields its own references and then those of what follows.
Then writing the src value double-quoted, single-quoted or unquoted gives the same list from
`extractImageUrls`: the references of the text before, the reference `r`, and the
references of the text after the tag.  Texts that keep to themselves: every text in which
`<img` does not occur; and a text that keeps to itself, followed by such a tag, or by a tag
`<img D>` without `<` and without src attribute in `D`, and then by a text in which `<img`
does not occur. -/
theorem extractImageUrls_quoting_styles (pre A : Str) (w : Char) (W1 W2 r B post : Str)
    (hpre : selfContained pre) (hw : isWs w = true)
    (hW : (∀ c ∈ W1, isWs c = true) ∧ (∀ c ∈ W2, isWs c = true))
    (hA : '>' ∉ A ∧ hasSrcAttr A = false)
    (hr : styleFreeRef r)
    (hB : '>' ∉ B ∧ ∀ c, B.head? = some c → c = ' ' ∨ c = dq ∨ c = sq)
    (hX : hasSrcAttr (W2 ++ r ++ B) = false) :
    extractImageUrls (pre ++ imgTagAt A w W1 W2 [dq] r B ++ post)
      = extractImageUrls pre ++ r :: extractImageUrls post ∧
    extractImageUrls (pre ++ imgTagAt A w W1 W2 [sq] r B ++ post)
      = extractImageUrls (pre ++ imgTagAt A w W1 W2 [dq] r B ++ post) ∧
    extractImageUrls (pre ++ imgTagAt A w W1 W2 [] r B ++ post)
      = extractImageUrls (pre ++ imgTagAt A w W1 W2 [dq] r B ++ post) ∧
    (∀ u : Str, ¬ imgStart <:+: u → selfContained u ∧
      selfContained (pre ++ imgTagAt A w W1 W2 [dq] r B ++ u) ∧
      selfContained (pre ++ imgTagAt A w W1 W2 [sq] r B ++ u) ∧
      selfContained (pre ++ imgTagAt A w W1 W2 [] r B ++ u) ∧
      ∀ D : Str, '<' ∉ D → hasSrcAttr D = false →
        selfContained (pre ++ (['<', 'i', 'm', 'g'] ++ D ++ ['>']) ++ u)) := by
  have key : ∀ q : Str, (q = [dq] ∨ q = [sq] ∨ q = []) →
      extractImageUrls (pre ++ imgTagAt A w W1 W2 q r B ++ post)
        = extractImageUrls pre ++ r :: extractImageUrls post := by
    intro q hq
    have hlt : ∃ t', imgTagAt A w W1 W2 q r B ++ post = '<' :: t' :=
      ⟨_, by simp [imgTagAt]; rfl⟩
    obtain ⟨t', ht'⟩ := hlt
    rw [List.append_assoc, ht', hpre t', ← ht',
      extractImageUrls_at q hq A w W1 W2 r B post hw hW.1 hW.2 hA.1 hA.2 hr hB.1 hB.2 hX]
  have h1 := key [dq] (Or.inl rfl)
  have h2 := key [sq] (Or.inr (Or.inl rfl))
  have h3 := key [] (Or.inr (Or.inr rfl))
  refine ⟨h1, h2.trans h1.symm, h3.trans h1.symm, ?_⟩
  intro u hu
  exact ⟨selfContained_plain u hu,
    selfContained_tag pre hpre [dq] (Or.inl rfl) A w W1 W2 r B u hw hW.1 hW.2 hA.1 hA.2 hr
      hB.1 hB.2 hX hu,
    selfContained_tag pre hpre [sq] (Or.inr (Or.inl rfl)) A w W1 W2 r B u hw hW.1 hW.2 hA.1
      hA.2 hr hB.1 hB.2 hX hu,
    selfContained_tag pre hpre [] (Or.inr (Or.inr rfl)) A w W1 W2 r B u hw hW.1 hW.2 hA.1
      hA.2 hr hB.1 hB.2 hX hu,
    fun D hD hDs => selfContained_dead pre hpre D u hD hDs hu⟩

/-- The text `1 < 2 <img src="u.png"> and <img> ` keeps to itself. -/
theorem selfContained_textWithTags : selfContained textWithTags := by
  have h0 : selfContained textBefore := selfContained_plain _ (by decide)
  have h1 : selfContained (textBefore ++ imgTagAt [] ' ' [] [] [dq] refU [] ++
      [' ', 'a', 'n', 'd', ' ']) :=
    selfContained_tag textBefore h0 [dq] (Or.inl rfl) [] ' ' [] [] refU []
      [' ', 'a', 'n', 'd', ' '] (by decide) (by simp) (by simp) (by simp) (by decide)
      (by unfold styleFreeRef; decide) (by simp) (by simp) (by decide) (by decide)
  exact selfContained_dead _ h1 [] [' '] (by simp) (by decide) (by decide)

/-- C2, amended, at the tag `<img srcset=x data-src2=y` line feed `src =` tab Q `a` tab `b` Q
` alt="fig">` behind the text `1 < 2 <img src="u.png"> and <img> `, which holds a complete
tag and a tag without src, and in front of the text `.`. -/
theorem extractImageUrls_quoting_styles_witness :
    (selfContained textWithTags ∧ isWs '\n' = true ∧
      ((∀ c ∈ [' '], isWs c = true) ∧ (∀ c ∈ ['\t'], isWs c = true)) ∧
      ('>' ∉ attrLike ∧ hasSrcAttr attrLike = false) ∧
      styleFreeRef refTabbed ∧
      ('>' ∉ attrAfter ∧ ∀ c, attrAfter.head? = some c → c = ' ' ∨ c = dq ∨ c = sq) ∧
      hasSrcAttr (['\t'] ++ refTabbed ++ attrAfter) = false) ∧
    (extractImageUrls
        (textWithTags ++ imgTagAt attrLike '\n' [' '] ['\t'] [dq] refTabbed attrAfter ++ ['.'])
      = extractImageUrls textWithTags ++ refTabbed :: extractImageUrls ['.'] ∧
    extractImageUrls
        (textWithTags ++ imgTagAt attrLike '\n' [' '] ['\t'] [sq] refTabbed attrAfter ++ ['.'])
      = extractImageUrls
        (textWithTags ++ imgTagAt attrLike '\n' [' '] ['\t'] [dq] refTabbed attrAfter ++ ['.']) ∧
    extractImageUrls
        (textWithTags ++ imgTagAt attrLike '\n' [' '] ['\t'] [] refTabbed attrAfter ++ ['.'])
      = extractImageUrls
        (textWithTags ++ imgTagAt attrLike '\n' [' '] ['\t'] [dq] refTabbed attrAfter ++ ['.']) ∧
    (∀ u : Str, ¬ imgStart <:+: u → selfContained u ∧
      selfContained
        (textWithTags ++ imgTagAt attrLike '\n' [' '] ['\t'] [dq] refTabbed attrAfter ++ u) ∧
      selfContained
        (textWithTags ++ imgTagAt attrLike '\n' [' '] ['\t'] [sq] refTabbed attrAfter ++ u) ∧
      selfContained
        (textWithTags ++ imgTagAt attrLike '\n' [' '] ['\t'] [] refTabbed attrAfter ++ u) ∧
      ∀ D : Str, '<' ∉ D → hasSrcAttr D = false →
        selfContained (textWithTags ++ (['<', 'i', 'm', 'g'] ++ D ++ ['>']) ++ u))) :=
  ⟨⟨selfContained_textWithTags, by decide, ⟨by decide, by decide⟩, ⟨by decide, by decide⟩,
      by unfold styleFreeRef; decide, ⟨by decide, by simp [attrAfter]⟩, by decide⟩,
    extractImageUrls_quoting_styles textWithTags attrLike '\n' [' '] ['\t'] refTabbed attrAfter
      ['.'] selfContained_textWithTags (by decide) ⟨by decide, by decide⟩
      ⟨by decide, by decide⟩ (by unfold styleFreeRef; decide)
      ⟨by decide, by simp [attrAfter]⟩ (by decide)⟩

/-- C3, as stated, fails.  The record `sampleTagProblem` has the tag
`<img src="http://x/a.png">` in its description and in its first sample input; its own
mapping has the reference as a key, and the sample input field of the output record is
still the tag. -/
theorem sample_input_tag_survives :
    urlLookup (downloadAllImages posix (fun _ => true) sampleTagProblem) urlA
      = some (assetsDir ++ ['5', '/'] ++ nameA) ∧
    (transformProblem sampleTagProblem
        (downloadAllImages posix (fun _ => true) sampleTagProblem)).map (·.SampleInput)
      = some (imgTag [dq] urlA) ∧
    extractImageUrls (imgTag [dq] urlA) = [urlA] := by
  decide

/-- C3, amended.  Converting a record never panics.  The description, sample note and hint
of the output record are the extracted section text after `formatMultiLine` and after the
rewrite with the mapping, tag by tag: a matched tag whose src value is a key of the mapping
is replaced by the mapped path.  The sample input and sample output are the first sample's
texts after `formatMultiLine` only; they are not rewritten. -/
theorem transform_fields (problem : Problem) (m : UrlMap) :
    ∃ rec, transformProblem problem m = some rec ∧
      rec.Description = rewriteSpec m (formatMultiLine (extractContentSection
        (problem.LocalizedContentsOfLocale.lookup kContentSections) [tDescription])) ∧
      rec.SampleNote = rewriteSpec m (formatMultiLine (extractContentSection
        (problem.LocalizedContentsOfLocale.lookup kContentSections) [tSample, tSample1])) ∧
      rec.Hint = rewriteSpec m (formatMultiLine (extractContentSection
        (problem.LocalizedContentsOfLocale.lookup kContentSections) [tRangeHint, tHint])) ∧
      rec.SampleInput = formatMultiLine (extractSampleInput problem.Samples) ∧
      rec.SampleOutput = formatMultiLine (extractSampleOutput problem.Samples) ∧
      (∀ text, rewriteSpec none text = text) ∧
      (∀ mp text, rewriteSpec (some mp) text = (scan reRewrite text).flatMap (rewritePiece mp)) ∧
      ∀ (mp : Assoc Str Str) (w : Str) (caps : Caps) (src localPath : Str),
        srcOf caps = some src → mp.lookup src = some localPath →
          rewritePiece mp (.hit w caps) = localPath := by
  refine ⟨transformSpec problem m, transformProblem_eq problem m, rfl, rfl, rfl, rfl, rfl,
    fun _ => rfl, fun _ _ => rfl, ?_⟩
  intro mp w caps src localPath h1 h2
  simp only [rewritePiece, h1, h2, Option.getD_some]

/-- C4. `generateUniqueFilename` returns `stem ++ "_" ++ DDDD ++ ext`, where `stem ++ ext`
is the base name of the reference, `ext` its extension, and `DDDD` are exactly four
decimal digits that write the rolling hash of the reference; the hash starts at 0 and
each code point `c` turns `h` into `(h * 31 + c) % 10000`.  The index has no effect.  The
base name is the last element of the reference: what stands behind the last separator once
the separators at the end are taken off (for a reference without volume name), `.` for the
empty reference, one separator for a reference of separators only.  The extension is the
part of the base name from its last dot on, and empty when it holds no dot.  So a reference
`dir stem.e` gets the filename `stem_DDDD.e` and a reference `dir name` without dot in
`name` gets `name_DDDD`.  On Unix `http://x/a.png` gives `a_8595.png` and `a/b/c.tar.gz//`
gives `c.tar_6226.gz`. -/
theorem generateUniqueFilename_form (P : Platform) (url : Str) (index : Int) :
    (∃ stem digits,
      Base P url = stem ++ Ext P (Base P url) ∧
      generateUniqueFilename P url index = stem ++ ['_'] ++ digits ++ Ext P (Base P url) ∧
      digits.length = 4 ∧ (∀ c ∈ digits, c.isDigit = true) ∧
      decimalValue digits = rollingHash url ∧
      rollingHash [] = 0 ∧
      (∀ (s : Str) (c : Char), rollingHash (s ++ [c]) = (rollingHash s * 31 + c.toNat) % 10000) ∧
      ∀ j : Int, generateUniqueFilename P url j = generateUniqueFilename P url index) ∧
    (∀ dir name seps : Str, name ≠ [] → (∀ c ∈ name, P.isPathSeparator c = false) →
      (∀ c ∈ seps, P.isPathSeparator c = true) →
      (∀ c, dir.getLast? = some c → P.isPathSeparator c = true) →
      P.volumeNameLen (dir ++ name) = 0 → Base P (dir ++ name ++ seps) = name) ∧
    Base P [] = ['.'] ∧
    (∀ seps : Str, seps ≠ [] → (∀ c ∈ seps, P.isPathSeparator c = true) →
      Base P seps = [P.separator]) ∧
    (∀ stem e : Str, P.isPathSeparator '.' = false →
      (∀ c ∈ e, c ≠ '.' ∧ P.isPathSeparator c = false) → Ext P (stem ++ '.' :: e) = '.' :: e) ∧
    (∀ dir name : Str, (∀ c ∈ name, c ≠ '.' ∧ P.isPathSeparator c = false) →
      (∀ c, dir.getLast? = some c → P.isPathSeparator c = true) → Ext P (dir ++ name) = []) ∧
    (∀ dir stem e seps : Str, P.isPathSeparator '.' = false →
      (∀ c ∈ stem, P.isPathSeparator c = false) →
      (∀ c ∈ e, c ≠ '.' ∧ P.isPathSeparator c = false) →
      (∀ c ∈ seps, P.isPathSeparator c = true) →
      (∀ c, dir.getLast? = some c → P.isPathSeparator c = true) →
      P.volumeNameLen (dir ++ (stem ++ '.' :: e)) = 0 →
      generateUniqueFilename P (dir ++ (stem ++ '.' :: e) ++ seps) index =
        stem ++ ['_'] ++ fmt04d (rollingHash (dir ++ (stem ++ '.' :: e) ++ seps)) ++ '.' :: e) ∧
    (∀ dir name seps : Str, name ≠ [] →
      (∀ c ∈ name, c ≠ '.' ∧ P.isPathSeparator c = false) →
      (∀ c ∈ seps, P.isPathSeparator c = true) →
      (∀ c, dir.getLast? = some c → P.isPathSeparator c = true) →
      P.volumeNameLen (dir ++ name) = 0 →
      generateUniqueFilename P (dir ++ name ++ seps) index =
        name ++ ['_'] ++ fmt04d (rollingHash (dir ++ name ++ seps))) ∧
    generateUniqueFilename posix urlA 0 = nameA ∧
    generateUniqueFilename posix pathTar 0 =
      ['c', '.', 't', 'a', 'r', '_', '6', '2', '2', '6', '.', 'g', 'z'] := by
  obtain ⟨h1, h2, h3⟩ := fmt04d_spec (rollingHash url) (rollingHash_lt url)
  refine ⟨⟨trimSuffix (Base P url) (Ext P (Base P url)), fmt04d (rollingHash url),
    (trimSuffix_append _ _ (Ext_suffix P _)).symm, rfl, h1, h2, h3, rfl, rollingHash_snoc,
    fun _ => rfl⟩, Base_last P, rfl, Base_seps P, Ext_dot P, Ext_none P, ?_, ?_, by decide,
    by decide⟩
  · intro dir stem e seps hdot hstem he hseps hd hv
    have hb : Base P (dir ++ (stem ++ '.' :: e) ++ seps) = stem ++ '.' :: e :=
      Base_last P dir (stem ++ '.' :: e) seps (by simp)
        (fun c hc => by
          rcases List.mem_append.1 hc with h | h
          · exact hstem c h
          · rcases List.mem_cons.1 h with rfl | h
            · exact hdot
            · exact (he c h).2) hseps hd hv
    simp only [generateUniqueFilename, hb, Ext_dot P stem e hdot he, trimSuffix_self]
  · intro dir name seps hne hname hseps hd hv
    have hb : Base P (dir ++ name ++ seps) = name :=
      Base_last P dir name seps hne (fun c hc => (hname c hc).2) hseps hd hv
    have he : Ext P name = [] := by
      have := Ext_none P [] name hname (by simp)
      simpa using this
    have ht : trimSuffix name [] = name := by
      have := trimSuffix_self name []
      simpa using this
    simp only [generateUniqueFilename, hb, he, ht, List.append_nil]

/-- C5. The mapping that `downloadAllImages` returns is nil exactly when the content
sections hold no reference; its keys are pairwise distinct; and a reference `u` is a key
exactly when `extractImageUrls` finds it in the concatenated section texts and its download
succeeded, in which case it is mapped to `./assets/<displayId>/` followed by
`generateUniqueFilename u`.  The concatenated section texts are, for content sections that
are a list, the texts of the sections in order, one after the other without separator, a
section that is no map or has no string under `text` adding nothing; they are empty when the
content sections are missing or no list.  For a record with the sections `<img src="a.png">`,
a string that is no map, `<img src='b.png'>` and `<img src=a.png>`, the download of `b.png`
failing, the mapping has the one key `a.png`. -/
theorem downloadAllImages_mapping (P : Platform) (dl : Str → Bool) (problem : Problem) :
    (downloadAllImages P dl problem = none ↔ extractImageUrls (allText problem) = []) ∧
    (((downloadAllImages P dl problem).getD []).map Prod.fst).Nodup ∧
    (∀ (u : Str) (index : Int), urlLookup (downloadAllImages P dl problem) u =
      if u ∈ extractImageUrls (allText problem) ∧ dl u = true then
        some (assetsDir ++ fmtInt problem.DisplayID ++ ['/'] ++ generateUniqueFilename P u index)
      else none) ∧
    (∀ secs : List JVal,
      problem.LocalizedContentsOfLocale.lookup kContentSections = some (.arr secs) →
      allText problem = secs.flatMap sectionText) ∧
    ((∀ secs : List JVal,
      problem.LocalizedContentsOfLocale.lookup kContentSections ≠ some (.arr secs)) →
      allText problem = []) ∧
    (∀ (secMap : Assoc Str JVal) (s : Str), secMap.lookup kText = some (.str s) →
      sectionText (.obj secMap) = s) ∧
    (∀ secMap : Assoc Str JVal, (∀ s, secMap.lookup kText ≠ some (.str s)) →
      sectionText (.obj secMap) = []) ∧
    (∀ v : JVal, (∀ secMap, v ≠ .obj secMap) → sectionText v = []) ∧
    allText fourSections = imgTag [dq] refPng ++ imgTag [sq] refB ++ imgTag [] refPng ∧
    downloadAllImages posix (fun u => u != refB) fourSections =
      some [(refPng, assetsDir ++ ['5', '/'] ++
        ['a', '_', '3', '0', '6', '8', '.', 'p', 'n', 'g'])] := by
  have hst : ∀ (secMap : Assoc Str JVal), (∀ s, secMap.lookup kText ≠ some (.str s)) →
      sectionText (.obj secMap) = [] := by
    intro secMap hs
    cases h : secMap.lookup kText with
    | none => simp only [sectionText, strField, h]
    | some v =>
      cases v with
      | str s => exact absurd h (hs s)
      | null => simp only [sectionText, strField, h]
      | bool b => simp only [sectionText, strField, h]
      | num n => simp only [sectionText, strField, h]
      | arr xs => simp only [sectionText, strField, h]
      | obj m => simp only [sectionText, strField, h]
  have hsv : ∀ v : JVal, (∀ secMap, v ≠ .obj secMap) → sectionText v = [] := by
    intro v hv
    cases v with
    | obj m => exact absurd rfl (hv m)
    | null => rfl
    | bool b => rfl
    | num n => rfl
    | str s => rfl
    | arr xs => rfl
  refine ⟨?_, ?_, ?_, allText_eq problem, allText_none problem,
    fun secMap s hs => by simp only [sectionText, strField, hs], hst, hsv, by decide, by decide⟩
  all_goals unfold downloadAllImages
  all_goals by_cases h : extractImageUrls (allText problem) = []
  · simp [h]
  · have hl : ¬ (extractImageUrls (allText problem)).length = 0 := by
      simpa [List.length_eq_zero] using h
    simp [hl, h]
  · simp [h]
  · have hl : ¬ (extractImageUrls (allText problem)).length = 0 := by
      simpa [List.length_eq_zero] using h
    simp only [hl, if_false, Option.getD_some]
    exact keys_downloadLoop_nodup P dl _ _ _ _ (by simp)
  · simp [h, urlLookup]
  · have hl : ¬ (extractImageUrls (allText problem)).length = 0 := by
      simpa [List.length_eq_zero] using h
    simp only [hl, if_false]
    intro u index
    simp only [urlLookup]
    rw [lookup_downloadLoop]
    simp [List.mem_dedup, generateUniqueFilename_index P u 0 index]

set_option maxRecDepth 100000 in
/-- C6, as stated, fails.  The requests 1 and 2 are answered with two records of display id
7.  The mapping computed from the first record sends its reference to
`./assets/7/a_8595.png`, and the first record converted with it has that path as its
description; but `main` converts the first record with the mapping stored last under the
display id 7, that of the second record, and the description stays the tag. -/
theorem shared_display_id_mapping :
    (mainProblems posix twinFetch (fun _ _ => true)).map (fun recs => recs.map (·.Description))
      = some [imgTag [dq] urlA, []] ∧
    (transformProblem twinA (downloadAllImages posix (fun _ => true) twinA)).map (·.Description)
      = some (assetsDir ++ ['7', '/'] ++ nameA) := by
  decide

/-- C6, amended.  When no two fetched records share a display id, `main` does not panic
and its output records are, in order, the successfully fetched records, each converted
with the mapping that `downloadAllImages` computed from that same record. -/
theorem transform_uses_own_mapping (P : Platform) (fetch : Nat → Option Problem)
    (dl : Nat → Str → Bool)
    (hdist : ∀ i ∈ idRange, ∀ j ∈ idRange, ∀ p q, fetch i = some p → fetch j = some q →
      p.DisplayID = q.DisplayID → i = j) :
    ∃ recs, mainProblems P fetch dl = some recs ∧
      List.Forall₂
        (fun id rec => ∃ p, fetch id = some p ∧
          transformProblem p (downloadAllImages P (dl id) p) = some rec)
        (idRange.filter (fun id => (fetch id).isSome)) recs := by
  refine ⟨_, mainProblems_eq P fetch dl, ?_⟩
  apply forall2_filterMap_map
  intro id hid p hp
  refine ⟨p, hp, ?_⟩
  rw [transformProblem_eq,
    fetchLoop_maps_own P fetch dl idRange _ hdist id hid p hp]

/-- C6, amended, at the remote side that answers request `id` with a record of display id
`id`, every download succeeding. -/
theorem transform_uses_own_mapping_witness :
    (∀ i ∈ idRange, ∀ j ∈ idRange, ∀ p q, numberedFetch i = some p → numberedFetch j = some q →
      p.DisplayID = q.DisplayID → i = j) ∧
    ∃ recs, mainProblems posix numberedFetch (fun _ _ => true) = some recs ∧
      List.Forall₂
        (fun id rec => ∃ p, numberedFetch id = some p ∧
          transformProblem p (downloadAllImages posix ((fun _ _ => true) id) p) = some rec)
        (idRange.filter (fun id => (numberedFetch id).isSome)) recs :=
  have h : ∀ i ∈ idRange, ∀ j ∈ idRange, ∀ p q, numberedFetch i = some p →
      numberedFetch j = some q → p.DisplayID = q.DisplayID → i = j := by
    intro i _ j _ p q hp hq e
    simp only [numberedFetch, Option.some.injEq] at hp hq
    subst hp hq
    exact Int.ofNat.inj e
  ⟨h, transform_uses_own_mapping posix numberedFetch (fun _ _ => true) h⟩

/-- C7. Whatever the outcomes of the requests and downloads, `main` does not panic; its
output records correspond one to one, in order, to the identifiers of the range whose
request succeeded, each being the conversion of the record fetched for that identifier;
the identifiers are processed in ascending order.  An identifier whose request failed has
no record and stops nothing. -/
theorem output_records_follow_fetches (P : Platform) (fetch : Nat → Option Problem)
    (dl : Nat → Str → Bool) :
    ∃ recs, mainProblems P fetch dl = some recs ∧
      List.Forall₂
        (fun id rec => ∃ p m, fetch id = some p ∧ transformProblem p m = some rec ∧
          rec.ID = fmtInt p.DisplayID)
        (idRange.filter (fun id => (fetch id).isSome)) recs ∧
      recs.length = (idRange.filter (fun id => (fetch id).isSome)).length ∧
      idRange = List.range' StartID 533 ∧ idRange.Pairwise (· < ·) := by
  have hf : List.Forall₂
      (fun id rec => ∃ p m, fetch id = some p ∧ transformProblem p m = some rec ∧
        rec.ID = fmtInt p.DisplayID)
      (idRange.filter (fun id => (fetch id).isSome))
      ((idRange.filterMap fetch).map (fun p => transformSpec p
        (imageMapOf (fetchLoop P fetch dl idRange
          { allProblems := [], problemImageMaps := [] }).problemImageMaps p.DisplayID))) := by
    apply forall2_filterMap_map
    intro id _ p hp
    exact ⟨p, _, hp, transformProblem_eq p _, rfl⟩
  exact ⟨_, mainProblems_eq P fetch dl, hf, hf.length_eq.symm, rfl, idRange_sorted⟩

/-- The result of `formatMultiLine` neither starts nor ends with white space. -/
theorem formatMultiLine_trimmed (text : Str) :
    (∀ c, (formatMultiLine text).head? = some c → isSpace c = false) ∧
    (∀ c, (formatMultiLine text).getLast? = some c → isSpace c = false) := by
  unfold formatMultiLine trimSpace
  generalize replaceCRLF text = s
  constructor
  · intro c hc
    cases hr : List.rdropWhile isSpace (List.dropWhile isSpace s) with
    | nil => rw [hr] at hc; simp at hc
    | cons x xs =>
      rw [hr] at hc
      simp only [List.head?_cons, Option.some.injEq] at hc
      subst hc
      have hp : List.rdropWhile isSpace (List.dropWhile isSpace s) <+: List.dropWhile isSpace s :=
        List.rdropWhile_prefix _ _
      rw [hr] at hp
      obtain ⟨t, ht⟩ := hp
      cases hx : isSpace x with
      | false => rfl
      | true =>
        have h1 : (List.dropWhile isSpace s).head? = some x := by rw [← ht]; rfl
        have h2 := List.head?_dropWhile_not isSpace s
        rw [h1] at h2
        simp [hx] at h2
  · intro c hc
    have hne : List.rdropWhile isSpace (List.dropWhile isSpace s) ≠ [] := by
      intro e; rw [e] at hc; simp at hc
    have h := List.rdropWhile_last_not isSpace (List.dropWhile isSpace s) hne
    rw [List.getLast?_eq_getLast _ hne] at hc
    simp only [Option.some.injEq] at hc
    rw [hc] at h
    simpa using h

/-- C9 fails on the input `a\r\r\nb`: `formatMultiLine` returns `a\r\nb`, which still holds
a carriage return followed by a line feed. -/
theorem formatMultiLine_keeps_crlf :
    formatMultiLine ['a', '\r', '\r', '\n', 'b'] = ['a', '\r', '\n', 'b'] ∧
    ∃ before after, formatMultiLine ['a', '\r', '\r', '\n', 'b'] = before ++ ['\r', '\n'] ++ after :=
  ⟨by decide, ['a'], ['b'], by decide⟩

/-- C10. For a record whose content sections are missing or not a list, whose samples are
not a list that starts with a map, and whose tags are not a list, the conversion does not
panic and gives a record with no tag and seven empty text fields, and the second loop of
`main` puts that record in front of the records of the rest.  No record at all makes the
conversion panic. -/
theorem degraded_record (problem : Problem) (m : UrlMap)
    (hsec : ∀ xs, problem.LocalizedContentsOfLocale.lookup kContentSections ≠ some (.arr xs))
    (hsam : ∀ kv rest, problem.Samples ≠ .arr (.obj kv :: rest))
    (htag : ∀ xs, problem.TagsOfLocale ≠ .arr xs) :
    transformProblem problem m = some
      { ID := fmtInt problem.DisplayID
        Title := getStringFromInterface (problem.LocalizedContentsOfLocale.lookup kTitle)
        Difficulty := 2
        Tags := []
        Description := []
        InputFormat := []
        SampleInput := []
        SampleOutput := []
        SampleNote := []
        ScoreStd := []
        Hint := [] } ∧
    (∀ (maps : Assoc Int UrlMap) (rest : List Problem),
      imageMapOf maps problem.DisplayID = m →
      transformLoop maps (problem :: rest) = (transformLoop maps rest).map (fun recs =>
        { ID := fmtInt problem.DisplayID
          Title := getStringFromInterface (problem.LocalizedContentsOfLocale.lookup kTitle)
          Difficulty := 2
          Tags := []
          Description := []
          InputFormat := []
          SampleInput := []
          SampleOutput := []
          SampleNote := []
          ScoreStd := []
          Hint := [] } :: recs)) ∧
    ∀ (p : Problem) (m' : UrlMap), (transformProblem p m').isSome = true := by
  have hx : ∀ titles, extractContentSection
      (problem.LocalizedContentsOfLocale.lookup kContentSections) titles = [] := by
    intro titles
    unfold extractContentSection
    split
    · rename_i xs h; exact absurd h (hsec xs)
    · rfl
  have hi : extractSampleInput problem.Samples = [] := by
    generalize problem.Samples = S at hsam
    cases S with
    | arr xs =>
      cases xs with
      | nil => rfl
      | cons x rest =>
        cases x with
        | obj kv => exact absurd rfl (hsam kv rest)
        | null => rfl
        | bool b => rfl
        | num x => rfl
        | str s => rfl
        | arr ys => rfl
    | null => rfl
    | bool b => rfl
    | num x => rfl
    | str s => rfl
    | obj kv => rfl
  have ho : extractSampleOutput problem.Samples = [] := by
    generalize problem.Samples = S at hsam
    cases S with
    | arr xs =>
      cases xs with
      | nil => rfl
      | cons x rest =>
        cases x with
        | obj kv => exact absurd rfl (hsam kv rest)
        | null => rfl
        | bool b => rfl
        | num x => rfl
        | str s => rfl
        | arr ys => rfl
    | null => rfl
    | bool b => rfl
    | num x => rfl
    | str s => rfl
    | obj kv => rfl
  have ht : extractTags problem.TagsOfLocale = [] := by
    generalize problem.TagsOfLocale = T at htag
    cases T with
    | arr xs => exact absurd rfl (htag xs)
    | null => rfl
    | bool b => rfl
    | num x => rfl
    | str s => rfl
    | obj kv => rfl
  have hf : formatMultiLine [] = [] := rfl
  have hr : rewriteSpec m [] = [] := by
    cases m <;> rfl
  have key : transformSpec problem m =
      { ID := fmtInt problem.DisplayID
        Title := getStringFromInterface (problem.LocalizedContentsOfLocale.lookup kTitle)
        Difficulty := 2
        Tags := []
        Description := []
        InputFormat := []
        SampleInput := []
        SampleOutput := []
        SampleNote := []
        ScoreStd := []
        Hint := [] } := by
    simp only [transformSpec, hx, hi, ho, ht, hf, hr]
  refine ⟨by rw [transformProblem_eq, key], ?_, ?_⟩
  · intro maps rest hm
    simp only [transformLoop, hm, transformProblem_eq, key]
  · intro p m'
    rw [transformProblem_eq]; rfl

/-- C10 at the record with nothing in it and the nil mapping. -/
theorem degraded_record_witness :
    ((∀ xs, bareProblem.LocalizedContentsOfLocale.lookup kContentSections ≠ some (.arr xs)) ∧
      (∀ kv rest, bareProblem.Samples ≠ .arr (.obj kv :: rest)) ∧
      (∀ xs, bareProblem.TagsOfLocale ≠ .arr xs)) ∧
    (transformProblem bareProblem none = some
      { ID := fmtInt bareProblem.DisplayID
        Title := getStringFromInterface (bareProblem.LocalizedContentsOfLocale.lookup kTitle)
        Difficulty := 2
        Tags := []
        Description := []
        InputFormat := []
        SampleInput := []
        SampleOutput := []
        SampleNote := []
        ScoreStd := []
        Hint := [] } ∧
    (∀ (maps : Assoc Int UrlMap) (rest : List Problem),
      imageMapOf maps bareProblem.DisplayID = none →
      transformLoop maps (bareProblem :: rest) = (transformLoop maps rest).map (fun recs =>
        { ID := fmtInt bareProblem.DisplayID
          Title := getStringFromInterface (bareProblem.LocalizedContentsOfLocale.lookup kTitle)
          Difficulty := 2
          Tags := []
          Description := []
          InputFormat := []
          SampleInput := []
          SampleOutput := []
          SampleNote := []
          ScoreStd := []
          Hint := [] } :: recs)) ∧
    ∀ (p : Problem) (m' : UrlMap), (transformProblem p m').isSome = true) :=
  have h1 : ∀ xs, bareProblem.LocalizedContentsOfLocale.lookup kContentSections
      ≠ some (.arr xs) := by
    intro xs h; simp [bareProblem] at h
  have h2 : ∀ kv rest, bareProblem.Samples ≠ .arr (.obj kv :: rest) := by
    intro kv rest h; simp [bareProblem] at h
  have h3 : ∀ xs, bareProblem.TagsOfLocale ≠ .arr xs := by
    intro xs h; simp [bareProblem] at h
  ⟨⟨h1, h2, h3⟩, degraded_record bareProblem none h1 h2 h3⟩

/-- C11. Every output document is the two header lines followed, record by record, by the
head lines of the record and its seven text-field keys in a fixed order, each key followed
by the literal-block marker and the block of its field; no key is left out, whatever the
content.  The block of an empty field is one line of six blanks.  The document of one
record with seven empty text fields holds seven such blocks. -/
theorem buildYAML_emits_all_fields (target : TargetYAML) :
    buildYAML target =
      yamlHeader ++ target.Problems.flatMap (fun problem => recordHead problem ++
        (fieldKeys.zip (textFields problem)).flatMap
          (fun kc => kc.1 ++ blockMarker ++ literalBlock kc.2)) ∧
    fieldKeys.length = 7 ∧ (∀ problem, (textFields problem).length = 7) ∧
    literalBlock [] = indent6 ++ ['\n'] ∧
    (∀ buf fieldName, writeLiteralField buf fieldName [] =
      buf ++ fieldName ++ blockMarker ++ indent6 ++ ['\n']) ∧
    buildYAML { Version := [], Problems := [emptyRecord] } =
      yamlHeader ++ recordHead emptyRecord ++
        fieldKeys.flatMap (fun key => key ++ blockMarker ++ indent6 ++ ['\n']) := by
  have hb : ∀ t : TargetYAML, buildYAML t =
      yamlHeader ++ t.Problems.flatMap (fun problem => recordHead problem ++
        (fieldKeys.zip (textFields problem)).flatMap
          (fun kc => kc.1 ++ blockMarker ++ literalBlock kc.2)) := by
    intro t
    unfold buildYAML
    simp only []
    rw [foldl_writeProblem]
    rfl
  refine ⟨hb target, rfl, fun _ => rfl, rfl, ?_, ?_⟩
  rotate_left
  · rw [hb]
    rfl
  · intro buf fieldName
    rw [writeLiteralField_eq]
    simp [literalBlock, splitLines, List.append_assoc]

/-- C12. A text made of the tags `<img src="r">` of a list of references, in list order,
with texts without `<` in front, between and behind, gives exactly that list from
`extractImageUrls`, repeats included, when every reference is not empty and holds no white
space, quote or `>`.  A text in which `<img` does not occur, the empty text among them,
gives the empty list. -/
theorem extractImageUrls_tags_in_order (sep0 : Str) (items : List (Str × Str))
    (h0 : '<' ∉ sep0)
    (h : ∀ item ∈ items, item.1 ≠ [] ∧ plainRef item.1 ∧ '<' ∉ item.2) :
    extractImageUrls (tagsText sep0 items) = items.map Prod.fst ∧
    (∀ text, ¬ imgStart <:+: text → extractImageUrls text = []) ∧
    extractImageUrls [] = [] :=
  ⟨extractImageUrls_tagsText items sep0 h0 h, extractImageUrls_no_tag, rfl⟩

/-- C12 at the text `1 > 0 <img src="a.png"> x <img src="http://x/a.png"><img src="a.png">.`,
in which one reference comes twice. -/
theorem extractImageUrls_tags_in_order_witness :
    ('<' ∉ sepLead ∧ ∀ item ∈ tagItems, item.1 ≠ [] ∧ plainRef item.1 ∧ '<' ∉ item.2) ∧
    (extractImageUrls (tagsText sepLead tagItems) = [refPng, urlA, refPng] ∧
      (∀ text, ¬ imgStart <:+: text → extractImageUrls text = []) ∧
      extractImageUrls [] = []) :=
  ⟨⟨by decide, by unfold plainRef; decide⟩,
    extractImageUrls_tags_in_order sepLead tagItems (by decide) (by unfold plainRef; decide)⟩

/-- C13. With the nil mapping and with the mapping without entries
`replaceImageTagsWithRelativePath` returns the text as it is, and with every mapping it
returns the empty text for the empty text. -/
theorem replaceImageTags_empty_mapping (text : Str) :
    replaceImageTagsWithRelativePath text none = some text ∧
    replaceImageTagsWithRelativePath text (some []) = some text ∧
    ∀ m : UrlMap, replaceImageTagsWithRelativePath [] m = some [] := by
  refine ⟨?_, ?_, fun m => rfl⟩
  · rw [replace_eq_rewriteSpec]; rfl
  · rw [replace_eq_rewriteSpec, rewriteSpec_nil]

/-- C14. For a list of sections `extractContentSection` returns the text of the first
section, in section order, that is a map whose `sectionTitle` is a string equal to one of
the target titles, that text being the string stored under `text` and empty when none is
stored there; it returns the empty string when no section is such a map and when the
sections value is not a list.  Two
lists of target titles with the same members give the same result, so the order of the
targets plays no part. -/
theorem extractContentSection_first_match (sections : List JVal) (targetTitles : List Str) :
    extractContentSection (some (.arr sections)) targetTitles =
      ((sections.find? (sectionMatches targetTitles)).map sectionText).getD [] ∧
    ((∀ sec ∈ sections, sectionMatches targetTitles sec = false) →
      extractContentSection (some (.arr sections)) targetTitles = []) ∧
    (∀ v : Option JVal, (∀ xs, v ≠ some (.arr xs)) → extractContentSection v targetTitles = []) ∧
    (∀ (v : Option JVal) (targets' : List Str), (∀ t, t ∈ targetTitles ↔ t ∈ targets') →
      extractContentSection v targets' = extractContentSection v targetTitles) ∧
    (∀ (secMap : Assoc Str JVal) (s : Str), secMap.lookup kText = some (.str s) →
      sectionText (.obj secMap) = s) ∧
    (∀ secMap : Assoc Str JVal, (∀ s, secMap.lookup kText ≠ some (.str s)) →
      sectionText (.obj secMap) = []) := by
  refine ⟨findSection_eq targetTitles sections, ?_, ?_, ?_, ?_, ?_⟩
  rotate_left 3
  · intro secMap s hs
    simp only [sectionText, strField, hs]
  · intro secMap hs
    cases h : secMap.lookup kText with
    | none => simp only [sectionText, strField, h]
    | some v =>
      cases v with
      | str s => exact absurd h (hs s)
      | null => simp only [sectionText, strField, h]
      | bool b => simp only [sectionText, strField, h]
      | num n => simp only [sectionText, strField, h]
      | arr xs => simp only [sectionText, strField, h]
      | obj m => simp only [sectionText, strField, h]
  · intro hno
    show findSection targetTitles sections = []
    rw [findSection_eq]
    have : sections.find? (sectionMatches targetTitles) = none := by
      rw [List.find?_eq_none]
      intro sec hs
      simp [hno sec hs]
    rw [this]
    rfl
  · intro v hv
    unfold extractContentSection
    split
    · rename_i xs; exact absurd rfl (hv xs)
    · rfl
  · intro v targets' hT
    unfold extractContentSection
    split
    · rw [findSection_eq, findSection_eq, sectionMatches_congr targetTitles targets' hT]
    · rfl

/-- C15. The function `writeLiteralField` adds to the buffer the key line and then, for each
line of the content split at line feeds, in order, one line made of six blanks and that
line unchanged.  The split lines hold no line feed and joined by line feeds they are the
content.  So the lines of the block are the lines of the content behind six blanks, and
taking the six blanks off every line of the block and joining the lines with line feeds
gives the content back. -/
theorem writeLiteralField_round_trip (buf fieldName content : Str) :
    writeLiteralField buf fieldName content =
      buf ++ (fieldName ++ blockMarker) ++
        (splitLines content).flatMap (fun line => indent6 ++ line ++ ['\n']) ∧
    (∀ line ∈ splitLines content, '\n' ∉ line) ∧
    ['\n'].intercalate (splitLines content) = content ∧
    blockLines ((splitLines content).flatMap (fun line => indent6 ++ line ++ ['\n'])) =
      (splitLines content).map (fun line => indent6 ++ line) ∧
    readBlock ((splitLines content).flatMap (fun line => indent6 ++ line ++ ['\n'])) =
      content := by
  refine ⟨?_, splitLines_no_lf content, intercalate_splitLines content,
    blockLines_literalBlock content, readBlock_literalBlock content⟩
  rw [writeLiteralField_eq]
  simp [literalBlock, List.append_assoc]

/-- C16, as stated, fails for the nil mapping.  For the text `<img src="http://x/a.png">`
`extractImageUrls` returns the one reference, but with the nil mapping
`replaceImageTagsWithRelativePath` returns the text at its guard, before the pattern is
used, and looks nothing up. -/
theorem nil_mapping_looks_nothing_up :
    extractImageUrls (imgTag [dq] urlA) = [urlA] ∧
    mappingLookups (imgTag [dq] urlA) none = some [] ∧
    replaceImageTagsWithRelativePath (imgTag [dq] urlA) none = some (imgTag [dq] urlA) ∧
    mappingLookups (imgTag [dq] urlA) (some []) = some [urlA] := by
  decide

/-- C16, amended.  For every text and every mapping that is not nil, the keys that
`replaceImageTagsWithRelativePath` looks up, one for each matched tag in text order, are the
list that `extractImageUrls` returns for the text.  The callback returns what the mapping
stores under the key it looks up, and the call is the walk of the callback over the scan of
the text with the rewrite pattern; its result is the text in which, along the scan with the
scan pattern, each tag is replaced by what the mapping stores under the reference that
`extractImageUrls` takes from it.  The scan of the text with the scan pattern is, piece by
piece, its scan with the rewrite pattern: the same tags at the same places, the src capture
of groups 2, 5, 8 under the groups 1, 2, 3.  For each tag matched in the text, matching the
tag on its own again gives the captures it had in the text, and the key looked up is the src
value captured there.  With the nil mapping nothing is looked up. -/
theorem patterns_capture_alike (text : Str) :
    (∀ m : Assoc Str Str, mappingLookups text (some m) = some (extractImageUrls text)) ∧
    mappingLookups text none = some [] ∧
    (∀ (m : Assoc Str Str) (w : Str), rewriteTag m w =
      (srcUrlOf w).map (fun k => ((k.bind (fun src => m.lookup src)).getD w))) ∧
    (∀ m : Assoc Str Str, text ≠ [] → replaceImageTagsWithRelativePath text (some m) =
      renderPieces (rewriteTag m) (scan reRewrite text)) ∧
    (∀ m : Assoc Str Str, text ≠ [] →
      mappingLookups text (some m) = lookupsOfPieces (scan reRewrite text)) ∧
    (∀ m : Assoc Str Str, replaceImageTagsWithRelativePath text (some m) =
      some ((scan reScan text).flatMap (rewriteByRef m))) ∧
    (∀ (m : Assoc Str Str) (w : Str) (caps : Caps), rewriteByRef m (.chr 'c') = ['c'] ∧
      (refOfPiece (.hit w caps) = none → rewriteByRef m (.hit w caps) = w) ∧
      ∀ r, refOfPiece (.hit w caps) = some r →
        rewriteByRef m (.hit w caps) = (m.lookup r).getD w) ∧
    scan reScan text = (scan reRewrite text).map toScanPiece ∧
    extractImageUrls text = (scan reScan text).filterMap refOfPiece ∧
    extractImageUrls text = (scan reRewrite text).filterMap srcOfPiece ∧
    (∀ w caps, Piece.hit w caps ∈ scan reRewrite text →
      findStringSubmatch reRewrite w = some caps ∧ srcUrlOf w = some (srcOf caps) ∧
      refOfPiece (toScanPiece (.hit w caps)) = srcOf caps) := by
  refine ⟨mappingLookups_some text, ?_, rewriteTag_eq, ?_, ?_, replace_eq_rewriteByRef text, ?_,
    scan_reScan_eq text, extractImageUrls_eq text, extractImageUrls_eq_src text, ?_⟩
  · unfold mappingLookups
    split <;> rfl
  · intro m ht
    simp only [replaceImageTagsWithRelativePath, ht, if_false, replaceAllStringFunc]
  · intro m ht
    simp only [mappingLookups, ht, if_false]
  · intro m w caps
    refine ⟨rfl, ?_, ?_⟩
    · intro h
      simp only [rewriteByRef, h, Option.none_bind, Option.getD_none, pieceText]
    · intro r h
      simp only [rewriteByRef, h, Option.some_bind, pieceText]
  intro w caps hm
  obtain ⟨rest, hr⟩ := scan_hit_first reRewrite text w caps hm
  have hpos : 0 < w.length := ms_reRewrite_pos _ _ (List.mem_of_mem_head? hr)
  exact ⟨findStringSubmatch_isolated reRewrite w rest caps (List.length_pos.1 hpos) hr,
    srcUrlOf_hit w rest caps hr, refOfPiece_toScanPiece w rest caps hr⟩

/-- C17 fails.  First input: one description section `<img src=http://x/a.png` CR LF `>`.  The
localizer extracts the reference with the CR LF at its end from the raw text and, its
download succeeding, maps it to a local path; the rewrite reads the normalised text, looks
up the reference with a lone LF, which is not among the extracted ones, and leaves the tag
as it is, whatever the downloads do.  Second input: a description that ends in the cut-off
tag `<img src="` and a hint `<img src='http://x/a.png'> "q">`.  In the concatenation of
the two the first tag swallows the second, so `http://x/a.png`, which the rewrite looks up
in the hint, is never extracted and the hint keeps its tag, whatever the downloads do. -/
theorem normalised_reference_not_extracted :
    extractImageUrls (allText crlfProblem) = [refCRLF] ∧
    downloadAllImages posix (fun _ => true) crlfProblem =
      some [(refCRLF, assetsDir ++ ['5', '/'] ++ generateUniqueFilename posix refCRLF 0)] ∧
    formatMultiLine crlfTag = lfTag ∧
    (∀ m : Assoc Str Str, mappingLookups (formatMultiLine crlfTag) (some m) = some [refLF]) ∧
    refLF ∉ extractImageUrls (allText crlfProblem) ∧
    (∀ dl : Str → Bool,
      (transformProblem crlfProblem (downloadAllImages posix dl crlfProblem)).map
        (·.Description) = some lfTag) ∧
    extractImageUrls (allText cutProblem) = [imgTag [sq] urlA ++ [' ']] ∧
    (∀ m : Assoc Str Str, mappingLookups (formatMultiLine hintText) (some m) = some [urlA]) ∧
    urlA ∉ extractImageUrls (allText cutProblem) ∧
    (∀ dl : Str → Bool,
      (transformProblem cutProblem (downloadAllImages posix dl cutProblem)).map (·.Hint)
        = some hintText) := by
  have e1 : extractImageUrls (allText crlfProblem) = [refCRLF] := by decide
  have e2 : extractImageUrls (allText cutProblem) = [imgTag [sq] urlA ++ [' ']] := by decide
  have f1 : formatMultiLine crlfTag = lfTag := by decide
  have f2 : formatMultiLine hintText = hintText := by decide
  refine ⟨e1, ?_, f1, ?_, ?_, ?_, e2, ?_, ?_, ?_⟩
  · rw [downloadAllImages_single posix _ crlfProblem refCRLF e1]
    rfl
  · intro m
    rw [mappingLookups_some, f1]
    decide
  · rw [e1]; decide
  · intro dl
    rw [downloadAllImages_single posix dl crlfProblem refCRLF e1]
    cases dl refCRLF
    · decide
    · decide
  · intro m
    rw [mappingLookups_some, f2]
    decide
  · rw [e2]; decide
  · intro dl
    rw [downloadAllImages_single posix dl cutProblem _ e2]
    cases dl (imgTag [sq] urlA ++ [' '])
    · decide
    · decide

/-- C18. On a platform where `/` is a separator, no character of `a.png` is one and the
two references have no volume name: the references `http://a/a.png` and `http://afv/a.png`
differ, have the base name `a.png` and the same rolling hash 3932, so
`generateUniqueFilename` returns `a_3932.png` for both, whatever the index.  For a record
with display id 5 that shows both images, `downloadAllImages` maps both references to
`./assets/5/a_3932.png` whenever both downloads succeed.  Both downloads save to the one
path that `filepath.Join` gives for `AssetsFolder`, `5` and `a_3932.png`: after the first
the file holds the first body, after both it holds the body of the one downloaded last and
no longer the other, in whichever order the two are visited.  In a world where every step
succeeds and the body of a reference is the reference itself, the downloads for that record
leave one file, with the second reference in it. -/
theorem generateUniqueFilename_collision (P : Platform) (hs : P.isPathSeparator '/' = true)
    (hn : ∀ c ∈ ['a', '.', 'p', 'n', 'g'], P.isPathSeparator c = false)
    (hv : P.volumeNameLen urlC1 = 0 ∧ P.volumeNameLen urlC2 = 0) :
    (downloadAllImagesOn posix okWorld collisionProblem []).2 =
      [(okWorld.join [AssetsFolder, ['5'], nameC], urlC2)] ∧
    ∃ u1 u2 : Str, u1 ≠ u2 ∧ Base P u1 = ['a', '.', 'p', 'n', 'g'] ∧
      Base P u2 = ['a', '.', 'p', 'n', 'g'] ∧
      rollingHash u1 = 3932 ∧ rollingHash u2 = 3932 ∧
      (∀ i j : Int, generateUniqueFilename P u1 i = nameC ∧
        generateUniqueFilename P u2 j = nameC) ∧
      extractImageUrls (allText collisionProblem) = [u1, u2] ∧
      (∀ dl : Str → Bool, dl u1 = true → dl u2 = true →
        (∀ i j : Int, downloadImage P dl u1 ['5'] i = some nameC ∧
          downloadImage P dl u2 ['5'] j = some nameC) ∧
        urlLookup (downloadAllImages P dl collisionProblem) u1
          = some (assetsDir ++ ['5', '/'] ++ nameC) ∧
        urlLookup (downloadAllImages P dl collisionProblem) u2
          = some (assetsDir ++ ['5', '/'] ++ nameC)) ∧
      (∀ (W : World) (files : Files),
        (downloadAllImagesOn P W collisionProblem files).1 =
          downloadAllImages P (succeedsOn P W ['5']) collisionProblem) ∧
      ∀ (W : World) (files : Files) (b1 b2 : Str),
        W.mkdirAll (W.dir (W.join [AssetsFolder, ['5'], nameC])) = true →
        W.create (W.join [AssetsFolder, ['5'], nameC]) = true →
        W.get u1 = some b1 → W.get u2 = some b2 →
        W.copyFails u1 = none → W.copyFails u2 = none →
        (∀ i, downloadImageOn P W u1 ['5'] i files =
          (some nameC, mapSet (W.join [AssetsFolder, ['5'], nameC]) b1 files)) ∧
        (∀ i, downloadImageOn P W u2 ['5'] i files =
          (some nameC, mapSet (W.join [AssetsFolder, ['5'], nameC]) b2 files)) ∧
        (downloadLoopOn P W ['5'] [u1, u2] 0 [] files).2.lookup
          (W.join [AssetsFolder, ['5'], nameC]) = some b2 ∧
        (downloadLoopOn P W ['5'] [u2, u1] 0 [] files).2.lookup
          (W.join [AssetsFolder, ['5'], nameC]) = some b1 ∧
        (downloadAllImagesOn P W collisionProblem files).2.lookup
          (W.join [AssetsFolder, ['5'], nameC]) = some b2 ∧
        (downloadAllImagesOn P W collisionProblem files).1 =
          some [(u2, assetsDir ++ ['5', '/'] ++ nameC), (u1, assetsDir ++ ['5', '/'] ++ nameC)] := by
  have hg : P.isPathSeparator 'g' = false := hn _ (by simp)
  have hd1 : ∀ c, (['h', 't', 't', 'p', ':', '/', '/', 'a', '/'] : Str).getLast? = some c →
      P.isPathSeparator c = true := by
    intro c hc
    have : c = '/' := by simpa using hc.symm
    rw [this]; exact hs
  have hd2 : ∀ c, (['h', 't', 't', 'p', ':', '/', '/', 'a', 'f', 'v', '/'] : Str).getLast? = some c →
      P.isPathSeparator c = true := by
    intro c hc
    have : c = '/' := by simpa using hc.symm
    rw [this]; exact hs
  have b1 : Base P urlC1 = ['a', '.', 'p', 'n', 'g'] := by
    have := Base_last P ['h', 't', 't', 'p', ':', '/', '/', 'a', '/'] ['a', '.', 'p', 'n', 'g'] []
      (by simp) hn (by simp) hd1 hv.1
    simpa [urlC1] using this
  have b2 : Base P urlC2 = ['a', '.', 'p', 'n', 'g'] := by
    have := Base_last P ['h', 't', 't', 'p', ':', '/', '/', 'a', 'f', 'v', '/']
      ['a', '.', 'p', 'n', 'g'] [] (by simp) hn (by simp) hd2 hv.2
    simpa [urlC2] using this
  have r1 : rollingHash urlC1 = 3932 := by decide
  have r2 : rollingHash urlC2 = 3932 := by decide
  have f : fmt04d 3932 = ['3', '9', '3', '2'] := by decide
  have g1 : generateUniqueFilename P urlC1 0 = nameC := by
    simp only [generateUniqueFilename, b1, Ext_a_png P hn, r1, f]
    decide
  have g2 : generateUniqueFilename P urlC2 0 = nameC := by
    simp only [generateUniqueFilename, b2, Ext_a_png P hn, r2, f]
    decide
  have e : extractImageUrls (allText collisionProblem) = [urlC1, urlC2] := by decide
  have hd : [urlC1, urlC2].dedup = [urlC1, urlC2] := by decide
  have hf : fmtInt collisionProblem.DisplayID = ['5'] := by decide
  have hne : urlC1 ≠ urlC2 := by decide
  refine ⟨by decide, urlC1, urlC2, hne, b1, b2, r1, r2, ?_, e, ?_, ?_, ?_⟩
  · intro i j
    exact ⟨(generateUniqueFilename_index P urlC1 i 0).trans g1,
      (generateUniqueFilename_index P urlC2 j 0).trans g2⟩
  · intro dl h1 h2
    refine ⟨?_, ?_, ?_⟩
    · intro i j
      simp only [downloadImage, h1, h2, if_true, Option.some.injEq]
      exact ⟨(generateUniqueFilename_index P urlC1 i 0).trans g1,
        (generateUniqueFilename_index P urlC2 j 0).trans g2⟩
    · simp only [downloadAllImages, e, hd, hf, urlLookup]
      show List.lookup urlC1 (downloadLoop P dl ['5'] [urlC1, urlC2] 0 []) = _
      rw [lookup_downloadLoop]
      simp [h1, g1]
    · simp only [downloadAllImages, e, hd, hf, urlLookup]
      show List.lookup urlC2 (downloadLoop P dl ['5'] [urlC1, urlC2] 0 []) = _
      rw [lookup_downloadLoop]
      simp [h2, g2]
  · intro W files
    simp only [downloadAllImagesOn, downloadAllImages, e, hd, hf]
    simp only [List.length_cons, List.length_nil]
    rw [if_neg (by decide), if_neg (by decide), downloadLoopOn_fst]
  · intro W files bd1 bd2 hm hc hg1 hg2 hc1 hc2
    have o1 : ∀ i fs, downloadImageOn P W urlC1 ['5'] i fs =
        (some nameC, mapSet (W.join [AssetsFolder, ['5'], nameC]) bd1 fs) := by
      intro i fs
      have := downloadImageOn_ok P W urlC1 ['5'] i fs bd1 (by rw [g1]; exact hm) hg1
        (by rw [g1]; exact hc) hc1
      rw [g1] at this
      exact this
    have o2 : ∀ i fs, downloadImageOn P W urlC2 ['5'] i fs =
        (some nameC, mapSet (W.join [AssetsFolder, ['5'], nameC]) bd2 fs) := by
      intro i fs
      have := downloadImageOn_ok P W urlC2 ['5'] i fs bd2 (by rw [g2]; exact hm) hg2
        (by rw [g2]; exact hc) hc2
      rw [g2] at this
      exact this
    have l12 : downloadLoopOn P W ['5'] [urlC1, urlC2] 0 [] files =
        (mapSet urlC2 (assetsDir ++ ['5'] ++ ['/'] ++ nameC)
          (mapSet urlC1 (assetsDir ++ ['5'] ++ ['/'] ++ nameC) []),
         mapSet (W.join [AssetsFolder, ['5'], nameC]) bd2
          (mapSet (W.join [AssetsFolder, ['5'], nameC]) bd1 files)) := by
      simp only [downloadLoopOn, o1, o2]
    have l21 : downloadLoopOn P W ['5'] [urlC2, urlC1] 0 [] files =
        (mapSet urlC1 (assetsDir ++ ['5'] ++ ['/'] ++ nameC)
          (mapSet urlC2 (assetsDir ++ ['5'] ++ ['/'] ++ nameC) []),
         mapSet (W.join [AssetsFolder, ['5'], nameC]) bd1
          (mapSet (W.join [AssetsFolder, ['5'], nameC]) bd2 files)) := by
      simp only [downloadLoopOn, o1, o2]
    have hall : downloadAllImagesOn P W collisionProblem files =
        (some (downloadLoopOn P W ['5'] [urlC1, urlC2] 0 [] files).1,
          (downloadLoopOn P W ['5'] [urlC1, urlC2] 0 [] files).2) := by
      simp only [downloadAllImagesOn, e, hd, hf]
      simp only [List.length_cons, List.length_nil]
      rw [if_neg (by decide)]
    refine ⟨fun i => o1 i files, fun i => o2 i files, ?_, ?_, ?_, ?_⟩
    · rw [l12, lookup_mapSet, if_pos rfl]
    · rw [l21, lookup_mapSet, if_pos rfl]
    · rw [hall, l12, lookup_mapSet, if_pos rfl]
    · rw [hall, l12]
      have hne2 : urlC2 ≠ urlC1 := fun h => hne h.symm
      simp [mapSet, hne, hne2]

/-- C18 on Unix. -/
theorem generateUniqueFilename_collision_witness :
    (posix.isPathSeparator '/' = true ∧
      (∀ c ∈ ['a', '.', 'p', 'n', 'g'], posix.isPathSeparator c = false) ∧
      (posix.volumeNameLen urlC1 = 0 ∧ posix.volumeNameLen urlC2 = 0)) ∧
    (downloadAllImagesOn posix okWorld collisionProblem []).2 =
      [(okWorld.join [AssetsFolder, ['5'], nameC], urlC2)] ∧
    ∃ u1 u2 : Str, u1 ≠ u2 ∧ Base posix u1 = ['a', '.', 'p', 'n', 'g'] ∧
      Base posix u2 = ['a', '.', 'p', 'n', 'g'] ∧
      rollingHash u1 = 3932 ∧ rollingHash u2 = 3932 ∧
      (∀ i j : Int, generateUniqueFilename posix u1 i = nameC ∧
        generateUniqueFilename posix u2 j = nameC) ∧
      extractImageUrls (allText collisionProblem) = [u1, u2] ∧
      (∀ dl : Str → Bool, dl u1 = true → dl u2 = true →
        (∀ i j : Int, downloadImage posix dl u1 ['5'] i = some nameC ∧
          downloadImage posix dl u2 ['5'] j = some nameC) ∧
        urlLookup (downloadAllImages posix dl collisionProblem) u1
          = some (assetsDir ++ ['5', '/'] ++ nameC) ∧
        urlLookup (downloadAllImages posix dl collisionProblem) u2
          = some (assetsDir ++ ['5', '/'] ++ nameC)) ∧
      (∀ (W : World) (files : Files),
        (downloadAllImagesOn posix W collisionProblem files).1 =
          downloadAllImages posix (succeedsOn posix W ['5']) collisionProblem) ∧
      ∀ (W : World) (files : Files) (b1 b2 : Str),
        W.mkdirAll (W.dir (W.join [AssetsFolder, ['5'], nameC])) = true →
        W.create (W.join [AssetsFolder, ['5'], nameC]) = true →
        W.get u1 = some b1 → W.get u2 = some b2 →
        W.copyFails u1 = none → W.copyFails u2 = none →
        (∀ i, downloadImageOn posix W u1 ['5'] i files =
          (some nameC, mapSet (W.join [AssetsFolder, ['5'], nameC]) b1 files)) ∧
        (∀ i, downloadImageOn posix W u2 ['5'] i files =
          (some nameC, mapSet (W.join [AssetsFolder, ['5'], nameC]) b2 files)) ∧
        (downloadLoopOn posix W ['5'] [u1, u2] 0 [] files).2.lookup
          (W.join [AssetsFolder, ['5'], nameC]) = some b2 ∧
        (downloadLoopOn posix W ['5'] [u2, u1] 0 [] files).2.lookup
          (W.join [AssetsFolder, ['5'], nameC]) = some b1 ∧
        (downloadAllImagesOn posix W collisionProblem files).2.lookup
          (W.join [AssetsFolder, ['5'], nameC]) = some b2 ∧
        (downloadAllImagesOn posix W collisionProblem files).1 =
          some [(u2, assetsDir ++ ['5', '/'] ++ nameC), (u1, assetsDir ++ ['5', '/'] ++ nameC)] :=
  ⟨⟨by decide, by decide, by decide, by decide⟩,
    generateUniqueFilename_collision posix (by decide) (by decide) ⟨by decide, by decide⟩⟩

end Crawler
